import Mathlib

/-!
Verification development for the AST-to-CFG lowering core of this repository.

The repository ships the test suite of the lowering engine
(`numba_rvsdg/tests/test_ast_transforms.py`) together with example scripts,
while the engine itself (`AST2SCFGTransformer` and its block/graph classes)
is only described by the specification.  The definitions below are therefore
modelled from the specification, and validated against the literal block
graphs that the in-repository test suite pins down (several of those
expected graphs are replayed as `example`s further down).
-/

namespace NumbaRvsdg

/-! ### Block names

Block names are the decimal string form of a non-negative integer.  The
rendering is implemented with explicit fuel so that the kernel can evaluate
it, and it comes with a verified decoder which yields injectivity. -/

/-- Little-endian decimal digits of `n`, with explicit fuel (`n ≤ fuel`
suffices for a complete rendering). -/
def digitsF : Nat → Nat → List Nat
  | _, 0 => []
  | 0, _ => []
  | fuel + 1, n => n % 10 :: digitsF fuel (n / 10)

/-- Decoder for little-endian decimal digit lists. -/
def undigits : List Nat → Nat
  | [] => 0
  | d :: ds => d + 10 * undigits ds

/-- Rendering of one decimal digit. -/
def digitChar : Nat → Char
  | 0 => '0' | 1 => '1' | 2 => '2' | 3 => '3' | 4 => '4'
  | 5 => '5' | 6 => '6' | 7 => '7' | 8 => '8' | 9 => '9'
  | _ => 'X'

/-- Numeric value of a decimal digit character. -/
def digitVal : Char → Nat
  | '0' => 0 | '1' => 1 | '2' => 2 | '3' => 3 | '4' => 4
  | '5' => 5 | '6' => 6 | '7' => 7 | '8' => 8 | '9' => 9
  | _ => 10

/-- Modelled from the spec: block identity is the "string form of a
non-negative integer" (the Python source uses `str(index)`). -/
def toName (n : Nat) : String :=
  if n = 0 then "0" else ⟨((digitsF n n).map digitChar).reverse⟩

/-! ### Data model

Modelled from the spec, §3: a named basic block with an ordered sequence of
statement fragments and an ordered sequence of jump targets; the transient
loop context; and the transformer state threading the monotone block-index
allocator, the graph under construction (insertion ordered, with the current
block kept at the end), and the loop-context stack. -/

/-- Statement fragment payload.  The core treats fragments as opaque
string-convertible payloads, but must recognise terminal markers
(`return`/`break`/`continue`) when sealing a block. -/
inductive Instr where
  | text (s : String)
  | ret (value : Option String)
  | brk
  | cont
deriving Repr, DecidableEq

/-- Human-readable rendering of one fragment (the `ast.unparse` of the
Python implementation). -/
def Instr.render : Instr → String
  | .text s => s
  | .ret none => "return"
  | .ret (some v) => "return " ++ v
  | .brk => "break"
  | .cont => "continue"

/-- Modelled from the spec: a named basic block (ordered statement list,
ordered outgoing jump targets). -/
structure WritableASTBlock where
  name : String
  instructions : List Instr
  jump_targets : List String
deriving Repr, DecidableEq

/-- Modelled from the spec: the Loop Context, recording the header block
index (target of `continue`) and the exit block index (target of `break`)
of one enclosing loop. -/
structure LoopIndices where
  head : Nat
  exit : Nat
deriving Repr, DecidableEq

/-- Modelled from the spec: the state of one in-flight lowering call: the
allocator's next block index, the finished blocks in insertion order, the
current (accumulating) block, the Loop Context stack, and a flag recording
that a malformed control transfer was encountered (spec §7: a
`break`/`continue` lowered while the Loop Context stack is empty). -/
structure TState where
  block_index : Nat
  done : List WritableASTBlock
  cur : WritableASTBlock
  loop_stack : List LoopIndices
  malformed : Bool
deriving Repr, DecidableEq

/-- The graph under construction: finished blocks followed by the current
block (insertion order). -/
def rawGraph (st : TState) : List WritableASTBlock :=
  st.done ++ [st.cur]

def appendInstr (i : Instr) (st : TState) : TState :=
  { st with cur := { st.cur with instructions := st.cur.instructions ++ [i] } }

def setJumpTargets (ts : List String) (st : TState) : TState :=
  { st with cur := { st.cur with jump_targets := ts } }

/-- Seal the current block into the finished list and start a fresh block
named `toName idx`. -/
def addBlock (idx : Nat) (st : TState) : TState :=
  { st with done := st.done ++ [st.cur], cur := ⟨toName idx, [], []⟩ }

def WritableASTBlock.is_return (b : WritableASTBlock) : Bool :=
  match b.instructions.getLast? with
  | some (.ret _) => true
  | _ => false

def WritableASTBlock.is_break (b : WritableASTBlock) : Bool :=
  match b.instructions.getLast? with
  | some .brk => true
  | _ => false

def WritableASTBlock.is_continue (b : WritableASTBlock) : Bool :=
  match b.instructions.getLast? with
  | some .cont => true
  | _ => false

/-- Modelled from the spec: sealing a block outside any loop adds a
fall-through edge to `idx` unless the block already ends terminally in a
`return`. -/
def seal_outside_loop (idx : Nat) (st : TState) : TState :=
  if st.cur.is_return then st else setJumpTargets [toName idx] st

/-- Modelled from the spec: sealing a block inside a loop resolves a
trailing `continue` to the loop header, a trailing `break` to the loop
exit, leaves a `return` terminal, and otherwise falls through to the given
default index. -/
def seal_inside_loop (head_idx exit_idx default_idx : Nat) (st : TState) : TState :=
  if st.cur.is_continue then setJumpTargets [toName head_idx] st
  else if st.cur.is_break then setJumpTargets [toName exit_idx] st
  else if st.cur.is_return then st
  else setJumpTargets [toName default_idx] st

/-- Seal the current block, consulting the top of the Loop Context stack. -/
def seal_block (default_idx : Nat) (st : TState) : TState :=
  match st.loop_stack with
  | ctx :: _ => seal_inside_loop ctx.head ctx.exit default_idx st
  | [] => seal_outside_loop default_idx st

/-! ### The input statement tree

Modelled from the spec, §6/§9: a closed tagged-variant type of source
statement kinds.  Conditions, assignments and expressions are carried as
already-rendered opaque strings. -/

inductive Stmt where
  | simple (s : String)
  | ret (value : Option String)
  | brk
  | cont
  | ifStmt (test : String) (body orelse : List Stmt)
  | whileStmt (test : String) (body orelse : List Stmt)
  | forStmt (target iter : String) (body orelse : List Stmt)

def iterVarName (h : Nat) : String := "__iterator_" ++ toName h ++ "__"

def lastVarName (h : Nat) : String := "__iter_last_" ++ toName h ++ "__"

def sentinelStr : String := "\x27__sentinel__\x27"

mutual

/-- Modelled from the spec, §4.2: the recursive-descent lowering engine.
Conditionals reserve `then`/`else`/`end-if` slots; pre-test loops reserve
`header`/`body`/`exit`/`else` slots; iterator loops desugar into the
acquire / advance / sentinel-test / restore protocol with
`header`/`body`/`else`/`exit` slots.  A `break`/`continue` lowered while
the Loop Context stack is empty marks the unit malformed (spec §7). -/
def handleStmt : Stmt → TState → TState
  | .simple s, st => appendInstr (.text s) st
  | .ret v, st => appendInstr (.ret v) st
  | .brk, st =>
    let st := if st.loop_stack.isEmpty then { st with malformed := true } else st
    appendInstr .brk st
  | .cont, st =>
    let st := if st.loop_stack.isEmpty then { st with malformed := true } else st
    appendInstr .cont st
  | .ifStmt test body orelse, st =>
    let then_i := st.block_index
    let else_i := st.block_index + 1
    let enif_i := st.block_index + 2
    let st := { st with block_index := st.block_index + 3 }
    let st := appendInstr (.text test) st
    let st := setJumpTargets [toName then_i, toName else_i] st
    let st := addBlock then_i st
    let st := codegenList body st
    let st := seal_block enif_i st
    let st := addBlock else_i st
    let st := codegenList orelse st
    let st := seal_block enif_i st
    addBlock enif_i st
  | .whileStmt test body orelse, st =>
    let head_i := st.block_index
    let body_i := st.block_index + 1
    let exit_i := st.block_index + 2
    let else_i := st.block_index + 3
    let st := { st with block_index := st.block_index + 4 }
    let st := setJumpTargets [toName head_i] st
    let st := addBlock head_i st
    let st := appendInstr (.text test) st
    let st := setJumpTargets [toName body_i, toName else_i] st
    let st := addBlock body_i st
    let st := { st with loop_stack := ⟨head_i, exit_i⟩ :: st.loop_stack }
    let st := codegenList body st
    let st := seal_block head_i st
    let st := { st with loop_stack := st.loop_stack.tail }
    let st := addBlock else_i st
    let st := codegenList orelse st
    let st := seal_block exit_i st
    addBlock exit_i st
  | .forStmt target iter body orelse, st =>
    let head_i := st.block_index
    let body_i := st.block_index + 1
    let else_i := st.block_index + 2
    let exit_i := st.block_index + 3
    let st := { st with block_index := st.block_index + 4 }
    let st := appendInstr (.text (iterVarName head_i ++ " = iter(" ++ iter ++ ")")) st
    let st := appendInstr (.text (target ++ " = None")) st
    let st := setJumpTargets [toName head_i] st
    let st := addBlock head_i st
    let st := appendInstr (.text (lastVarName head_i ++ " = " ++ target)) st
    let st := appendInstr
      (.text (target ++ " = next(" ++ iterVarName head_i ++ ", " ++ sentinelStr ++ ")")) st
    let st := appendInstr (.text (target ++ " != " ++ sentinelStr)) st
    let st := setJumpTargets [toName body_i, toName else_i] st
    let st := addBlock body_i st
    let st := { st with loop_stack := ⟨head_i, exit_i⟩ :: st.loop_stack }
    let st := codegenList body st
    let st := seal_block head_i st
    let st := { st with loop_stack := st.loop_stack.tail }
    let st := addBlock else_i st
    let st := appendInstr (.text (target ++ " = " ++ lastVarName head_i)) st
    let st := codegenList orelse st
    let st := seal_block exit_i st
    addBlock exit_i st

/-- Lower a statement sequence into the current block chain. -/
def codegenList : List Stmt → TState → TState
  | [], st => st
  | s :: rest, st => codegenList rest (handleStmt s st)

end

/-- Modelled from the spec: a function body that does not end in a `return`
receives an implicit bare `return` (lowered into whatever block is current
at that point). -/
def withImplicitReturn (body : List Stmt) : List Stmt :=
  match body.getLast? with
  | some (.ret _) => body
  | _ => body ++ [.ret none]

/-- Initial transformer state: the genesis block `"0"` is current, the
allocator continues from 1. -/
def initState : TState :=
  ⟨1, [], ⟨toName 0, [], []⟩, [], false⟩

/-- Run the lowering engine over a function body (without the post-pass
analyses). -/
def lowerRaw (body : List Stmt) : TState :=
  codegenList (withImplicitReturn body) initState

/-! ### Reachability and emptiness analyses (spec §4.3), and pruning

The analyser's forward traversal is a worklist loop guarded by a visited
set.  It is implemented here with explicit fuel, initialised with a bound
that is proven (further down) to make the computation fuel-insensitive:
this is exactly the termination argument for the traversal. -/

def blockNames (g : List WritableASTBlock) : List String :=
  g.map WritableASTBlock.name

def targetsOf (g : List WritableASTBlock) (n : String) : List String :=
  ((g.find? (fun b => b.name = n)).map WritableASTBlock.jump_targets).getD []

/-- Modelled from the spec: forward traversal from the entry, following all
outgoing targets, with visited-set membership as the only guard. -/
def visitF (g : List WritableASTBlock) : Nat → List String → List String → List String
  | _, [], vis => vis
  | 0, _ :: _, vis => vis
  | fuel + 1, n :: rest, vis =>
    if n ∈ vis then visitF g fuel rest vis
    else visitF g fuel (rest ++ targetsOf g n) (n :: vis)

/-- One more than the largest out-degree in the graph. -/
def maxTargets (g : List WritableASTBlock) : Nat :=
  g.foldr (fun b m => max b.jump_targets.length m) 0

/-- Fuel bound under which the worklist traversal runs to completion. -/
def visitBound (g : List WritableASTBlock) (tv vis : List String) : Nat :=
  (maxTargets g + 1) * ((blockNames g).filter (fun m => decide (m ∉ vis))).length + tv.length

/-- The visited set of the reachability traversal from block `"0"`. -/
def visitedNames (g : List WritableASTBlock) : List String :=
  visitF g (visitBound g [toName 0] []) [toName 0] []

/-- Remove unreachable blocks; return the surviving graph and the popped
(unreachable) block names. -/
def pruneUnreachable (g : List WritableASTBlock) : List WritableASTBlock × List String :=
  let vis := visitedNames g
  (g.filter (fun b => b.name ∈ vis), (blockNames g).filter (fun n => decide (n ∉ vis)))

def Instr.isNoop : Instr → Bool
  | .brk => true
  | .cont => true
  | _ => false

/-- Remove the no-op terminal markers (`break`/`continue`) from the
instruction lists of the surviving blocks; they only ever carried control
information that sealing already consumed. -/
def pruneNoops (g : List WritableASTBlock) : List WritableASTBlock :=
  g.map fun b => { b with instructions := b.instructions.filter (fun i => !i.isNoop) }

def replaceTarget (n t : String) (b : WritableASTBlock) : WritableASTBlock :=
  { b with jump_targets := b.jump_targets.map (fun x => if x = n then t else x) }

/-- Modelled from the spec: an empty block is removed and the edges that
pass through it are routed to its fall-through successor.  The snapshot of
block names is walked in insertion order. -/
def pruneEmptyGo : List String → List WritableASTBlock → List WritableASTBlock × List String
  | [], g => (g, [])
  | n :: rest, g =>
    match g.find? (fun b => b.name = n) with
    | some b =>
      if b.instructions.isEmpty then
        let t := b.jump_targets.headD ""
        let g1 := (g.filter (fun c => decide (¬ c.name = n))).map (replaceTarget n t)
        let res := pruneEmptyGo rest g1
        (res.1, n :: res.2)
      else
        pruneEmptyGo rest g
    | none => pruneEmptyGo rest g

/-- Remove empty blocks; return the surviving graph and the popped (empty)
block names. -/
def pruneEmpty (g : List WritableASTBlock) : List WritableASTBlock × List String :=
  pruneEmptyGo (blockNames g) g

/-- Sanity condition of the empty-block chains, checked positionally: every
zero-instruction block carries exactly one (fall-through) target, and no
block at an earlier-or-equal position carrying that target's name is itself
zero-instruction.  `seen` holds the prefix already walked. -/
def chainsOK : List WritableASTBlock → List WritableASTBlock → Bool
  | _, [] => true
  | seen, b :: post =>
    (!b.instructions.isEmpty ||
      (match b.jump_targets with
       | [t] => (seen ++ [b]).all fun c =>
           !(decide (c.name = t) && c.instructions.isEmpty)
       | _ => false)) &&
    chainsOK (seen ++ [b]) post

/-- The finished, annotated control-flow graph. -/
structure LoweredCFG where
  blocks : List WritableASTBlock
  unreachable : List String
  empty : List String
deriving Repr, DecidableEq

inductive LoweringError where
  | malformedControlTransfer
deriving Repr, DecidableEq

instance {ε α : Type} [DecidableEq ε] [DecidableEq α] : DecidableEq (Except ε α) := fun x y =>
  match x, y with
  | .error a, .error b =>
    if h : a = b then .isTrue (by rw [h]) else .isFalse (fun he => h (by injection he))
  | .error _, .ok _ => .isFalse (fun he => Except.noConfusion he)
  | .ok _, .error _ => .isFalse (fun he => Except.noConfusion he)
  | .ok a, .ok b =>
    if h : a = b then .isTrue (by rw [h]) else .isFalse (fun he => h (by injection he))

/-- Modelled from the spec: `lower(statement_tree) -> Graph`; fails (fatally,
with no partial graph) exactly when a malformed control transfer was found,
otherwise runs the post-construction analyses and returns the annotated
graph. -/
def lower (body : List Stmt) : Except LoweringError LoweredCFG :=
  let st := lowerRaw body
  if st.malformed then .error .malformedControlTransfer
  else
    let pu := pruneUnreachable (rawGraph st)
    let g2 := pruneNoops pu.1
    let pe := pruneEmpty g2
    .ok ⟨pe.1, pu.2, pe.2⟩

/-- Serialization of a graph for structural comparison (the `to_dict` of
the implementation): name, rendered instructions, jump targets per block. -/
def to_dict (g : List WritableASTBlock) : List (String × List String × List String) :=
  g.map fun b => (b.name, b.instructions.map Instr.render, b.jump_targets)

/-! ### Syntactic characterization of malformed control transfers, and
reachability as an inductive relation (used to state the analyser claims). -/

mutual

/-- Syntactic predicate from the spec, §7: a `break` or `continue` appears
"not lexically inside a loop".  A loop body shields its transfers; a loop
trailing clause does not (it is lowered after the Loop Context is popped). -/
def nakedTransfer : Stmt → Bool
  | .simple _ => false
  | .ret _ => false
  | .brk => true
  | .cont => true
  | .ifStmt _ body orelse => nakedTransferList body || nakedTransferList orelse
  | .whileStmt _ _ orelse => nakedTransferList orelse
  | .forStmt _ _ _ orelse => nakedTransferList orelse

def nakedTransferList : List Stmt → Bool
  | [] => false
  | s :: rest => nakedTransfer s || nakedTransferList rest

end

/-- Reachability from the entry block `"0"` along jump-target edges. -/
inductive Reachable (g : List WritableASTBlock) : String → Prop where
  | entry : Reachable g (toName 0)
  | step {m n : String} : Reachable g m → n ∈ targetsOf g m → Reachable g n

/-- All header and exit indices recorded on a Loop Context stack. -/
def stackVals (ls : List LoopIndices) : List Nat :=
  ls.foldr (fun ctx acc => ctx.head :: ctx.exit :: acc) []

/-- Every jump target of `b` is the rendering of an index that either sits
on `st`'s Loop Context stack or was allocated between `st` and `res`. -/
def targetSpanned (st res : TState) (b : WritableASTBlock) : Prop :=
  ∀ t ∈ b.jump_targets, ∃ k, t = toName k ∧
    (k ∈ stackVals st.loop_stack ∨
      (st.block_index ≤ k ∧ k < res.block_index))

/-! ### Transcriptions of the repository test-suite inputs -/

/-- Body of `test_solo_return`. -/
def progSoloReturn : List Stmt := [.ret (some "1")]

/-- Body of `test_if_return`. -/
def progIfReturn : List Stmt :=
  [.ifStmt "x < 10" [.ret (some "1")] [], .ret (some "2")]

/-- Body of `test_if_else_return`. -/
def progIfElseReturn : List Stmt :=
  [.ifStmt "x < 10" [.ret (some "1")] [.ret (some "2")]]

/-- Body of `test_solo_assign`. -/
def progSoloAssign : List Stmt := [.simple "x = 1"]

/-- Body of `test_if_else_assign`. -/
def progIfElseAssign : List Stmt :=
  [.ifStmt "x < 10" [.simple "z = 1"] [.simple "z = 2"], .ret (some "z")]

/-- Body of `test_nested_if`. -/
def progNestedIf : List Stmt :=
  [.ifStmt "x < 10"
    [.ifStmt "y < 5" [.simple "y = 1"] [.simple "y = 2"]]
    [.ifStmt "y < 15" [.simple "y = 3"] [.simple "y = 4"]],
   .ret (some "y")]

/-- Body of `test_nested_if_with_empty_else_and_return`. -/
def progNestedIfEmptyElse : List Stmt :=
  [.simple "y << 2",
   .ifStmt "x < 10"
     [.simple "y -= 1", .ifStmt "y < 5" [.simple "y = 1"] []]
     [.ifStmt "y < 15" [.simple "y = 2"] [.ret none], .simple "y += 1"],
   .ret (some "y")]

/-- Body of `test_elif`. -/
def progElif : List Stmt :=
  [.ifStmt "x < 10" [.ret none]
    [.ifStmt "x < 15" [.simple "y = b - a"]
      [.ifStmt "x < 20" [.simple "y = a ** 2"] [.simple "y = a - b"]]],
   .ret (some "y")]

/-- Body of `test_simple_while`. -/
def progSimpleWhile : List Stmt :=
  [.simple "x = 0", .whileStmt "x < 10" [.simple "x += 1"] [], .ret (some "x")]

/-- Body of `test_nested_while`. -/
def progNestedWhile : List Stmt :=
  [.simple "x, y = (0, 0)",
   .whileStmt "x < 10"
     [.whileStmt "y < 5" [.simple "x += 1", .simple "y += 1"] [], .simple "x += 1"] [],
   .ret (some "(x, y)")]

/-- Body of `test_if_in_while`. -/
def progIfInWhile : List Stmt :=
  [.simple "x = 0",
   .whileStmt "x < 10" [.ifStmt "x < 5" [.simple "x += 2"] [.simple "x += 1"]] [],
   .ret (some "x")]

/-- Body of `test_while_in_if`. -/
def progWhileInIf : List Stmt :=
  [.simple "x = 0",
   .ifStmt "a is True"
     [.whileStmt "x < 10" [.simple "x += 2"] []]
     [.whileStmt "x < 10" [.simple "x += 1"] []],
   .ret (some "x")]

/-- Body of `test_while_break_continue`. -/
def progWhileBreakContinue : List Stmt :=
  [.simple "x = 0",
   .whileStmt "x < 10"
     [.simple "x += 1",
      .ifStmt "x % 2 == 0" [.cont]
        [.ifStmt "x == 9" [.brk] [.simple "x += 1"]]] [],
   .ret (some "x")]

/-- Body of `test_while_else`. -/
def progWhileElse : List Stmt :=
  [.simple "x = 0", .whileStmt "x < 10" [.simple "x += 1"] [.simple "x += 1"],
   .ret (some "x")]

/-- Body of `test_simple_for`. -/
def progSimpleFor : List Stmt :=
  [.simple "c = 0", .forStmt "i" "range(10)" [.simple "c += i"] [], .ret (some "c")]

/-- Body of `test_nested_for`. -/
def progNestedFor : List Stmt :=
  [.simple "c = 0",
   .forStmt "i" "range(3)"
     [.simple "c += i", .forStmt "j" "range(3)" [.simple "c += j"] []] [],
   .ret (some "c")]

/-- Body of `test_for_with_return_break_and_continue`. -/
def progForRBC : List Stmt :=
  [.forStmt "i" "range(2)"
     [.ifStmt "i == a" [.simple "i = 3", .ret (some "i")]
       [.ifStmt "i == b" [.simple "i = 4", .brk] [.cont]]] [],
   .ret (some "i")]

/-- Body of `test_for_with_if_in_else`. -/
def progForIfInElse : List Stmt :=
  [.simple "c = 0",
   .forStmt "i" "range(10)" [.simple "c += i"]
     [.ifStmt "a" [.simple "r = c"] [.simple "r = -1 * c"]],
   .ret (some "r")]

/-- Body of `test_for_with_nested_for_else`. -/
def progForNestedForElse : List Stmt :=
  [.simple "c = 1",
   .forStmt "i" "range(1)"
     [.forStmt "j" "range(1)"
        [.ifStmt "a" [.simple "c *= 3", .brk] []]
        [.simple "c *= 5", .cont],
      .simple "c *= 7", .brk]
     [.simple "c *= 9"],
   .ret (some "c")]

/-- The names of all blocks in the graph under construction. -/
def nameList (st : TState) : List String :=
  (rawGraph st).map WritableASTBlock.name

/-- Well-formedness of the graph under construction: all block names and all
jump targets are decimal renderings of indices below the allocator counter,
all loop-context indices are below the counter, and block names are
pairwise distinct. -/
def graphWF (st : TState) : Prop :=
  (∀ x ∈ nameList st, ∃ k, k < st.block_index ∧ x = toName k) ∧
  (∀ b ∈ rawGraph st, ∀ t ∈ b.jump_targets, ∃ k, k < st.block_index ∧ t = toName k) ∧
  (∀ ctx ∈ st.loop_stack, ctx.head < st.block_index ∧ ctx.exit < st.block_index) ∧
  (nameList st).Nodup

/-- The invariant maintained between statement lowerings: the graph is
well-formed and the current block is still open (no jump targets yet). -/
def stateWF (st : TState) : Prop :=
  graphWF st ∧ st.cur.jump_targets = []

/-- A `break` outside any loop: the input the spec calls a malformed
control transfer. -/
def progNakedBreak : List Stmt := [.brk]

/-- A body whose if-merge block "3" ends up with zero instructions yet
unreachable: both branches return, and the subsequent `while` seals "3"
with a jump to the loop header before anything is appended to it. -/
def progC1 : List Stmt :=
  [.ifStmt "c" [.ret (some "1")] [.ret (some "2")],
   .whileStmt "d" [.simple "x = 1"] []]

def summarize (p : List Stmt) : List (String × List String × List String) × List String × List String :=
  match lower p with
  | .ok r => (to_dict r.blocks, r.unreachable, r.empty)
  | .error _ => ([], ["ERROR"], [])

/-! ### Properties of the name rendering -/

theorem digitsF_complete : ∀ fuel n, n ≤ fuel → undigits (digitsF fuel n) = n := by
  intro fuel
  induction fuel with
  | zero =>
    intro n hn
    interval_cases n
    rfl
  | succ fuel ih =>
    intro n hn
    match n with
    | 0 => rfl
    | m + 1 =>
      have hdiv : (m + 1) / 10 ≤ fuel := by
        have := Nat.div_lt_self (Nat.succ_pos m) (by norm_num : (1 : Nat) < 10)
        omega
      simp only [digitsF, undigits, ih _ hdiv]
      omega

theorem digitsF_lt_ten : ∀ fuel n d, d ∈ digitsF fuel n → d < 10 := by
  intro fuel
  induction fuel with
  | zero =>
    intro n d hd
    match n with
    | 0 => simp [digitsF] at hd
    | _ + 1 => simp [digitsF] at hd
  | succ fuel ih =>
    intro n d hd
    match n with
    | 0 => simp [digitsF] at hd
    | m + 1 =>
      simp only [digitsF, List.mem_cons] at hd
      rcases hd with rfl | hd
      · exact Nat.mod_lt _ (by norm_num)
      · exact ih _ _ hd

theorem digitVal_digitChar : ∀ d, d < 10 → digitVal (digitChar d) = d := by
  intro d hd
  interval_cases d <;> rfl

theorem map_digitVal_digitChar :
    ∀ l : List Nat, (∀ d ∈ l, d < 10) → (l.map digitChar).map digitVal = l := by
  intro l h
  induction l with
  | nil => rfl
  | cons d ds ih =>
    simp only [List.map_cons, List.cons.injEq]
    exact ⟨digitVal_digitChar d (h d (.head _)), ih fun e he => h e (.tail _ he)⟩

theorem toName_zero : toName 0 = "0" := rfl

theorem toName_pos (n : Nat) (h : n ≠ 0) :
    toName n = ⟨((digitsF n n).map digitChar).reverse⟩ := by
  simp [toName, h]

theorem toName_pos_ne_zero (n : Nat) (h : n ≠ 0) : toName n ≠ "0" := by
  intro hcontra
  rw [toName_pos n h] at hcontra
  have h1 : ((digitsF n n).map digitChar).reverse = ['0'] := by
    have := congrArg String.data hcontra
    simpa using this
  have h3 : (digitsF n n).map digitChar = ['0'] := by
    have := congrArg List.reverse h1
    simpa using this
  have h4 : digitsF n n = [0] := by
    have := congrArg (List.map digitVal) h3
    rwa [map_digitVal_digitChar _ (digitsF_lt_ten n n),
      show ['0'].map digitVal = [0] from rfl] at this
  have h5 := digitsF_complete n n (le_refl n)
  rw [h4] at h5
  simp [undigits] at h5
  omega

theorem toName_injective : Function.Injective toName := by
  intro a b hab
  by_cases ha : a = 0 <;> by_cases hb : b = 0
  · omega
  · subst ha
    exact absurd hab.symm (toName_pos_ne_zero b hb)
  · subst hb
    exact absurd hab (toName_pos_ne_zero a ha)
  · rw [toName_pos a ha, toName_pos b hb] at hab
    have hdata : ((digitsF a a).map digitChar).reverse =
        ((digitsF b b).map digitChar).reverse := by
      have := congrArg String.data hab
      simpa using this
    have hmap : (digitsF a a).map digitChar = (digitsF b b).map digitChar := by
      have := congrArg List.reverse hdata
      simpa using this
    have hdig : digitsF a a = digitsF b b := by
      have := congrArg (List.map digitVal) hmap
      rwa [map_digitVal_digitChar _ (digitsF_lt_ten a a),
        map_digitVal_digitChar _ (digitsF_lt_ten b b)] at this
    have hc := digitsF_complete a a (le_refl a)
    rw [hdig, digitsF_complete b b (le_refl b)] at hc
    omega

theorem toName_inj_iff {a b : Nat} : toName a = toName b ↔ a = b :=
  ⟨fun h => toName_injective h, fun h => h ▸ rfl⟩

/-! ### Basic structure lemmas about the lowering engine -/

@[simp] theorem appendInstr_block_index (i : Instr) (st : TState) :
    (appendInstr i st).block_index = st.block_index := rfl

@[simp] theorem appendInstr_done (i : Instr) (st : TState) :
    (appendInstr i st).done = st.done := rfl

@[simp] theorem appendInstr_loop_stack (i : Instr) (st : TState) :
    (appendInstr i st).loop_stack = st.loop_stack := rfl

@[simp] theorem appendInstr_malformed (i : Instr) (st : TState) :
    (appendInstr i st).malformed = st.malformed := rfl

@[simp] theorem appendInstr_cur_name (i : Instr) (st : TState) :
    (appendInstr i st).cur.name = st.cur.name := rfl

@[simp] theorem appendInstr_cur_instructions (i : Instr) (st : TState) :
    (appendInstr i st).cur.instructions = st.cur.instructions ++ [i] := rfl

@[simp] theorem appendInstr_cur_jump_targets (i : Instr) (st : TState) :
    (appendInstr i st).cur.jump_targets = st.cur.jump_targets := rfl

@[simp] theorem setJumpTargets_block_index (ts : List String) (st : TState) :
    (setJumpTargets ts st).block_index = st.block_index := rfl

@[simp] theorem setJumpTargets_done (ts : List String) (st : TState) :
    (setJumpTargets ts st).done = st.done := rfl

@[simp] theorem setJumpTargets_loop_stack (ts : List String) (st : TState) :
    (setJumpTargets ts st).loop_stack = st.loop_stack := rfl

@[simp] theorem setJumpTargets_malformed (ts : List String) (st : TState) :
    (setJumpTargets ts st).malformed = st.malformed := rfl

@[simp] theorem setJumpTargets_cur_name (ts : List String) (st : TState) :
    (setJumpTargets ts st).cur.name = st.cur.name := rfl

@[simp] theorem setJumpTargets_cur_instructions (ts : List String) (st : TState) :
    (setJumpTargets ts st).cur.instructions = st.cur.instructions := rfl

@[simp] theorem setJumpTargets_cur_jump_targets (ts : List String) (st : TState) :
    (setJumpTargets ts st).cur.jump_targets = ts := rfl

@[simp] theorem addBlock_block_index (idx : Nat) (st : TState) :
    (addBlock idx st).block_index = st.block_index := rfl

@[simp] theorem addBlock_done (idx : Nat) (st : TState) :
    (addBlock idx st).done = st.done ++ [st.cur] := rfl

@[simp] theorem addBlock_loop_stack (idx : Nat) (st : TState) :
    (addBlock idx st).loop_stack = st.loop_stack := rfl

@[simp] theorem addBlock_malformed (idx : Nat) (st : TState) :
    (addBlock idx st).malformed = st.malformed := rfl

@[simp] theorem addBlock_cur (idx : Nat) (st : TState) :
    (addBlock idx st).cur = ⟨toName idx, [], []⟩ := rfl

theorem seal_inside_loop_eq (h e d : Nat) (st : TState) :
    seal_inside_loop h e d st = st ∨
      ∃ k, seal_inside_loop h e d st = setJumpTargets [toName k] st := by
  unfold seal_inside_loop
  split_ifs <;> first
    | exact Or.inl rfl
    | exact Or.inr ⟨_, rfl⟩

theorem seal_outside_loop_eq (d : Nat) (st : TState) :
    seal_outside_loop d st = st ∨
      ∃ k, seal_outside_loop d st = setJumpTargets [toName k] st := by
  unfold seal_outside_loop
  split_ifs
  · exact Or.inl rfl
  · exact Or.inr ⟨d, rfl⟩

theorem seal_block_eq (d : Nat) (st : TState) :
    seal_block d st = st ∨ ∃ k, seal_block d st = setJumpTargets [toName k] st := by
  unfold seal_block
  rcases hls : st.loop_stack with _ | ⟨ctx, rest⟩
  · exact seal_outside_loop_eq d st
  · exact seal_inside_loop_eq ctx.head ctx.exit d st

@[simp] theorem seal_block_block_index (d : Nat) (st : TState) :
    (seal_block d st).block_index = st.block_index := by
  rcases seal_block_eq d st with h | ⟨k, h⟩ <;> rw [h] <;> rfl

@[simp] theorem seal_block_done (d : Nat) (st : TState) :
    (seal_block d st).done = st.done := by
  rcases seal_block_eq d st with h | ⟨k, h⟩ <;> rw [h] <;> rfl

@[simp] theorem seal_block_loop_stack (d : Nat) (st : TState) :
    (seal_block d st).loop_stack = st.loop_stack := by
  rcases seal_block_eq d st with h | ⟨k, h⟩ <;> rw [h] <;> rfl

@[simp] theorem seal_block_malformed (d : Nat) (st : TState) :
    (seal_block d st).malformed = st.malformed := by
  rcases seal_block_eq d st with h | ⟨k, h⟩ <;> rw [h] <;> rfl

@[simp] theorem seal_block_cur_name (d : Nat) (st : TState) :
    (seal_block d st).cur.name = st.cur.name := by
  rcases seal_block_eq d st with h | ⟨k, h⟩ <;> rw [h] <;> rfl

@[simp] theorem seal_block_cur_instructions (d : Nat) (st : TState) :
    (seal_block d st).cur.instructions = st.cur.instructions := by
  rcases seal_block_eq d st with h | ⟨k, h⟩ <;> rw [h] <;> rfl

theorem loop_stack_preserved :
    (∀ s st, (handleStmt s st).loop_stack = st.loop_stack) ∧
      (∀ l st, (codegenList l st).loop_stack = st.loop_stack) := by
  refine handleStmt.mutual_induct
    (fun s st => (handleStmt s st).loop_stack = st.loop_stack)
    (fun l st => (codegenList l st).loop_stack = st.loop_stack)
    ?_ ?_ ?_ ?_ ?_ ?_ ?_ ?_ ?_
  · intro s st
    rfl
  · intro v st
    rfl
  · intro st
    simp only [handleStmt, appendInstr_loop_stack]
    split <;> rfl
  · intro st
    simp only [handleStmt, appendInstr_loop_stack]
    split <;> rfl
  · intro test body orelse st
    dsimp only
    intro ih1 ih2
    simp only [handleStmt, addBlock_loop_stack, seal_block_loop_stack,
      setJumpTargets_loop_stack, appendInstr_loop_stack] at ih1 ih2 ⊢
    rw [ih2, ih1]
  · intro test body orelse st
    dsimp only
    intro ih1 ih2
    simp only [handleStmt, addBlock_loop_stack, seal_block_loop_stack,
      setJumpTargets_loop_stack, appendInstr_loop_stack] at ih1 ih2 ⊢
    rw [ih2, ih1]
    rfl
  · intro target iter body orelse st
    dsimp only
    intro ih1 ih2
    simp only [handleStmt, addBlock_loop_stack, seal_block_loop_stack,
      setJumpTargets_loop_stack, appendInstr_loop_stack] at ih1 ih2 ⊢
    rw [ih2, ih1]
    rfl
  · intro st
    rfl
  · intro s rest st ih1 ih2
    simp only [codegenList]
    rw [ih2, ih1]

theorem handleStmt_loop_stack (s : Stmt) (st : TState) :
    (handleStmt s st).loop_stack = st.loop_stack :=
  loop_stack_preserved.1 s st

theorem codegenList_loop_stack (l : List Stmt) (st : TState) :
    (codegenList l st).loop_stack = st.loop_stack :=
  loop_stack_preserved.2 l st

theorem block_index_mono :
    (∀ s st, st.block_index ≤ (handleStmt s st).block_index) ∧
      (∀ l st, st.block_index ≤ (codegenList l st).block_index) := by
  refine handleStmt.mutual_induct
    (fun s st => st.block_index ≤ (handleStmt s st).block_index)
    (fun l st => st.block_index ≤ (codegenList l st).block_index)
    ?_ ?_ ?_ ?_ ?_ ?_ ?_ ?_ ?_
  · intro s st
    exact le_refl _
  · intro v st
    exact le_refl _
  · intro st
    simp only [handleStmt, appendInstr_block_index]
    split <;> exact le_refl _
  · intro st
    simp only [handleStmt, appendInstr_block_index]
    split <;> exact le_refl _
  · intro test body orelse st
    dsimp only
    intro ih1 ih2
    simp only [handleStmt, addBlock_block_index, seal_block_block_index,
      setJumpTargets_block_index, appendInstr_block_index] at ih1 ih2 ⊢
    omega
  · intro test body orelse st
    dsimp only
    intro ih1 ih2
    simp only [handleStmt, addBlock_block_index, seal_block_block_index,
      setJumpTargets_block_index, appendInstr_block_index] at ih1 ih2 ⊢
    omega
  · intro target iter body orelse st
    dsimp only
    intro ih1 ih2
    simp only [handleStmt, addBlock_block_index, seal_block_block_index,
      setJumpTargets_block_index, appendInstr_block_index] at ih1 ih2 ⊢
    omega
  · intro st
    exact le_refl _
  · intro s rest st ih1 ih2
    simp only [codegenList]
    exact le_trans ih1 ih2

theorem handleStmt_block_index_le (s : Stmt) (st : TState) :
    st.block_index ≤ (handleStmt s st).block_index :=
  block_index_mono.1 s st

theorem codegenList_block_index_le (l : List Stmt) (st : TState) :
    st.block_index ≤ (codegenList l st).block_index :=
  block_index_mono.2 l st

theorem done_extends :
    (∀ s st, ∃ ext, (handleStmt s st).done = st.done ++ ext) ∧
      (∀ l st, ∃ ext, (codegenList l st).done = st.done ++ ext) := by
  refine handleStmt.mutual_induct
    (fun s st => ∃ ext, (handleStmt s st).done = st.done ++ ext)
    (fun l st => ∃ ext, (codegenList l st).done = st.done ++ ext)
    ?_ ?_ ?_ ?_ ?_ ?_ ?_ ?_ ?_
  · intro s st
    exact ⟨[], by simp [handleStmt]⟩
  · intro v st
    exact ⟨[], by simp [handleStmt]⟩
  · intro st
    refine ⟨[], ?_⟩
    simp only [handleStmt, appendInstr_done]
    split <;> simp
  · intro st
    refine ⟨[], ?_⟩
    simp only [handleStmt, appendInstr_done]
    split <;> simp
  · intro test body orelse st
    dsimp only
    intro ih1 ih2
    obtain ⟨e1, h1⟩ := ih1
    obtain ⟨e2, h2⟩ := ih2
    simp only [addBlock_done, seal_block_done, setJumpTargets_done,
      appendInstr_done, List.append_assoc] at h1
    simp only [addBlock_done, seal_block_done, setJumpTargets_done,
      appendInstr_done, h1, List.append_assoc] at h2
    simp only [handleStmt, addBlock_done, seal_block_done, setJumpTargets_done,
      appendInstr_done, h1, h2, List.append_assoc]
    exact ⟨_, rfl⟩
  · intro test body orelse st
    dsimp only
    intro ih1 ih2
    obtain ⟨e1, h1⟩ := ih1
    obtain ⟨e2, h2⟩ := ih2
    simp only [addBlock_done, seal_block_done, setJumpTargets_done,
      appendInstr_done, List.append_assoc] at h1
    simp only [addBlock_done, seal_block_done, setJumpTargets_done,
      appendInstr_done, h1, List.append_assoc] at h2
    simp only [handleStmt, addBlock_done, seal_block_done, setJumpTargets_done,
      appendInstr_done, h1, h2, List.append_assoc]
    exact ⟨_, rfl⟩
  · intro target iter body orelse st
    dsimp only
    intro ih1 ih2
    obtain ⟨e1, h1⟩ := ih1
    obtain ⟨e2, h2⟩ := ih2
    simp only [addBlock_done, seal_block_done, setJumpTargets_done,
      appendInstr_done, List.append_assoc] at h1
    simp only [addBlock_done, seal_block_done, setJumpTargets_done,
      appendInstr_done, h1, List.append_assoc] at h2
    simp only [handleStmt, addBlock_done, seal_block_done, setJumpTargets_done,
      appendInstr_done, h1, h2, List.append_assoc]
    exact ⟨_, rfl⟩
  · intro st
    exact ⟨[], by simp [codegenList]⟩
  · intro s rest st ih1 ih2
    obtain ⟨e1, h1⟩ := ih1
    obtain ⟨e2, h2⟩ := ih2
    refine ⟨e1 ++ e2, ?_⟩
    simp only [codegenList]
    rw [h2, h1, List.append_assoc]

theorem codegenList_done_extends (l : List Stmt) (st : TState) :
    ∃ ext, (codegenList l st).done = st.done ++ ext :=
  done_extends.2 l st

theorem done_mem_preserved (l : List Stmt) (st : TState) (b : WritableASTBlock)
    (hb : b ∈ st.done) : b ∈ (codegenList l st).done := by
  obtain ⟨ext, hext⟩ := codegenList_done_extends l st
  rw [hext]
  exact List.mem_append_left _ hb

/-! ### The malformed-control-transfer flag -/

theorem malformed_stack_ne :
    (∀ s st, st.loop_stack ≠ [] → (handleStmt s st).malformed = st.malformed) ∧
      (∀ l st, st.loop_stack ≠ [] → (codegenList l st).malformed = st.malformed) := by
  refine handleStmt.mutual_induct
    (fun s st => st.loop_stack ≠ [] → (handleStmt s st).malformed = st.malformed)
    (fun l st => st.loop_stack ≠ [] → (codegenList l st).malformed = st.malformed)
    ?_ ?_ ?_ ?_ ?_ ?_ ?_ ?_ ?_
  · intro s st _
    rfl
  · intro v st _
    rfl
  · intro st hne
    simp only [handleStmt, appendInstr_malformed]
    rw [if_neg (by simpa using hne)]
  · intro st hne
    simp only [handleStmt, appendInstr_malformed]
    rw [if_neg (by simpa using hne)]
  · intro test body orelse st
    dsimp only
    intro ih1 ih2 hne
    simp only [handleStmt]
    simp_all [addBlock_loop_stack, seal_block_loop_stack, setJumpTargets_loop_stack,
      appendInstr_loop_stack, codegenList_loop_stack, addBlock_malformed,
      seal_block_malformed, setJumpTargets_malformed, appendInstr_malformed]
  · intro test body orelse st
    dsimp only
    intro ih1 ih2 hne
    simp only [handleStmt]
    simp_all [addBlock_loop_stack, seal_block_loop_stack, setJumpTargets_loop_stack,
      appendInstr_loop_stack, codegenList_loop_stack, List.tail_cons, addBlock_malformed,
      seal_block_malformed, setJumpTargets_malformed, appendInstr_malformed]
  · intro target iter body orelse st
    dsimp only
    intro ih1 ih2 hne
    simp only [handleStmt]
    simp_all [addBlock_loop_stack, seal_block_loop_stack, setJumpTargets_loop_stack,
      appendInstr_loop_stack, codegenList_loop_stack, List.tail_cons, addBlock_malformed,
      seal_block_malformed, setJumpTargets_malformed, appendInstr_malformed]
  · intro st _
    rfl
  · intro s rest st ih1 ih2
    intro hne
    simp only [codegenList]
    rw [ih2 (by rw [handleStmt_loop_stack]; exact hne), ih1 hne]

theorem codegenList_malformed_stack_ne (l : List Stmt) (st : TState)
    (h : st.loop_stack ≠ []) : (codegenList l st).malformed = st.malformed :=
  malformed_stack_ne.2 l st h

theorem malformed_stack_nil :
    (∀ s st, st.loop_stack = [] →
        (handleStmt s st).malformed = (st.malformed || nakedTransfer s)) ∧
      (∀ l st, st.loop_stack = [] →
        (codegenList l st).malformed = (st.malformed || nakedTransferList l)) := by
  refine handleStmt.mutual_induct
    (fun s st => st.loop_stack = [] →
      (handleStmt s st).malformed = (st.malformed || nakedTransfer s))
    (fun l st => st.loop_stack = [] →
      (codegenList l st).malformed = (st.malformed || nakedTransferList l))
    ?_ ?_ ?_ ?_ ?_ ?_ ?_ ?_ ?_
  · intro s st _
    simp [handleStmt, nakedTransfer]
  · intro v st _
    simp [handleStmt, nakedTransfer]
  · intro st hnil
    simp [handleStmt, nakedTransfer, hnil]
  · intro st hnil
    simp [handleStmt, nakedTransfer, hnil]
  · intro test body orelse st
    dsimp only
    intro ih1 ih2 hnil
    simp only [handleStmt]
    simp_all [nakedTransfer, Bool.or_assoc, addBlock_loop_stack, seal_block_loop_stack,
      setJumpTargets_loop_stack, appendInstr_loop_stack, codegenList_loop_stack,
      addBlock_malformed, seal_block_malformed, setJumpTargets_malformed,
      appendInstr_malformed]
  · intro test body orelse st
    dsimp only
    intro ih1 ih2 hnil
    simp only [handleStmt]
    simp_all [nakedTransfer, codegenList_malformed_stack_ne, addBlock_loop_stack,
      seal_block_loop_stack, setJumpTargets_loop_stack, appendInstr_loop_stack,
      codegenList_loop_stack, List.tail_cons, addBlock_malformed, seal_block_malformed,
      setJumpTargets_malformed, appendInstr_malformed]
  · intro target iter body orelse st
    dsimp only
    intro ih1 ih2 hnil
    simp only [handleStmt]
    simp_all [nakedTransfer, codegenList_malformed_stack_ne, addBlock_loop_stack,
      seal_block_loop_stack, setJumpTargets_loop_stack, appendInstr_loop_stack,
      codegenList_loop_stack, List.tail_cons, addBlock_malformed, seal_block_malformed,
      setJumpTargets_malformed, appendInstr_malformed]
  · intro st _
    simp [codegenList, nakedTransferList]
  · intro s rest st ih1 ih2
    intro hnil
    simp only [codegenList]
    rw [ih2 (by rw [handleStmt_loop_stack]; exact hnil), ih1 hnil]
    simp [nakedTransferList, Bool.or_assoc]

theorem nakedTransferList_append (a b : List Stmt) :
    nakedTransferList (a ++ b) = (nakedTransferList a || nakedTransferList b) := by
  induction a with
  | nil => simp [nakedTransferList]
  | cons s rest ih => simp [nakedTransferList, ih, Bool.or_assoc]

theorem lowerRaw_malformed (body : List Stmt) :
    (lowerRaw body).malformed = nakedTransferList body := by
  unfold lowerRaw
  rw [malformed_stack_nil.2 _ _ rfl]
  show nakedTransferList (withImplicitReturn body) = nakedTransferList body
  unfold withImplicitReturn
  split
  · rfl
  · rw [nakedTransferList_append]
    simp [nakedTransferList, nakedTransfer]

/-! ### Names of the constructed graph -/

theorem nameList_appendInstr (i : Instr) (st : TState) :
    nameList (appendInstr i st) = nameList st := by
  simp [nameList, rawGraph, appendInstr]

theorem nameList_setJumpTargets (ts : List String) (st : TState) :
    nameList (setJumpTargets ts st) = nameList st := by
  simp [nameList, rawGraph, setJumpTargets]

theorem nameList_seal_block (d : Nat) (st : TState) :
    nameList (seal_block d st) = nameList st := by
  rcases seal_block_eq d st with h | ⟨k, h⟩
  · rw [h]
  · rw [h, nameList_setJumpTargets]

theorem nameList_addBlock (idx : Nat) (st : TState) :
    nameList (addBlock idx st) = nameList st ++ [toName idx] := by
  simp [nameList, rawGraph, addBlock]

theorem nameList_setBlockIndex (st : TState) (n : Nat) :
    nameList { st with block_index := n } = nameList st := rfl

theorem nameList_setLoopStack (st : TState) (ls : List LoopIndices) :
    nameList { st with loop_stack := ls } = nameList st := rfl

theorem nameList_setMalformed (st : TState) (b : Bool) :
    nameList { st with malformed := b } = nameList st := rfl

theorem setBlockIndex_block_index (st : TState) (n : Nat) :
    ({ st with block_index := n } : TState).block_index = n := rfl

theorem setLoopStack_block_index (st : TState) (ls : List LoopIndices) :
    ({ st with loop_stack := ls } : TState).block_index = st.block_index := rfl

theorem setMalformed_block_index (st : TState) (b : Bool) :
    ({ st with malformed := b } : TState).block_index = st.block_index := rfl

theorem names_mem :
    (∀ s st, st.block_index ≤ (handleStmt s st).block_index ∧
      ∀ x, x ∈ nameList (handleStmt s st) ↔
        x ∈ nameList st ∨ ∃ k, st.block_index ≤ k ∧
          k < (handleStmt s st).block_index ∧ x = toName k) ∧
    (∀ l st, st.block_index ≤ (codegenList l st).block_index ∧
      ∀ x, x ∈ nameList (codegenList l st) ↔
        x ∈ nameList st ∨ ∃ k, st.block_index ≤ k ∧
          k < (codegenList l st).block_index ∧ x = toName k) := by
  refine handleStmt.mutual_induct
    (fun s st => st.block_index ≤ (handleStmt s st).block_index ∧
      ∀ x, x ∈ nameList (handleStmt s st) ↔
        x ∈ nameList st ∨ ∃ k, st.block_index ≤ k ∧
          k < (handleStmt s st).block_index ∧ x = toName k)
    (fun l st => st.block_index ≤ (codegenList l st).block_index ∧
      ∀ x, x ∈ nameList (codegenList l st) ↔
        x ∈ nameList st ∨ ∃ k, st.block_index ≤ k ∧
          k < (codegenList l st).block_index ∧ x = toName k)
    ?_ ?_ ?_ ?_ ?_ ?_ ?_ ?_ ?_
  · intro s st
    refine ⟨le_refl _, fun x => ?_⟩
    simp only [handleStmt, nameList_appendInstr, appendInstr_block_index]
    constructor
    · exact Or.inl
    · rintro (h | ⟨k, h1, h2, _⟩)
      · exact h
      · omega
  · intro v st
    refine ⟨le_refl _, fun x => ?_⟩
    simp only [handleStmt, nameList_appendInstr, appendInstr_block_index]
    constructor
    · exact Or.inl
    · rintro (h | ⟨k, h1, h2, _⟩)
      · exact h
      · omega
  · intro st
    refine ⟨?_, fun x => ?_⟩ <;>
      simp only [handleStmt, nameList_appendInstr, appendInstr_block_index] <;> split
    · exact le_refl _
    · exact le_refl _
    · rw [nameList_setMalformed, setMalformed_block_index]
      constructor
      · exact Or.inl
      · rintro (h | ⟨k, h1, h2, _⟩)
        · exact h
        · omega
    · constructor
      · exact Or.inl
      · rintro (h | ⟨k, h1, h2, _⟩)
        · exact h
        · omega
  · intro st
    refine ⟨?_, fun x => ?_⟩ <;>
      simp only [handleStmt, nameList_appendInstr, appendInstr_block_index] <;> split
    · exact le_refl _
    · exact le_refl _
    · rw [nameList_setMalformed, setMalformed_block_index]
      constructor
      · exact Or.inl
      · rintro (h | ⟨k, h1, h2, _⟩)
        · exact h
        · omega
    · constructor
      · exact Or.inl
      · rintro (h | ⟨k, h1, h2, _⟩)
        · exact h
        · omega
  · intro test body orelse st
    dsimp only
    intro ih1 ih2
    obtain ⟨ih1m, ih1⟩ := ih1
    obtain ⟨ih2m, ih2⟩ := ih2
    simp only [handleStmt]
    set st4 := addBlock st.block_index
        (setJumpTargets [toName st.block_index, toName (st.block_index + 1)]
          (appendInstr (Instr.text test)
            { st with block_index := st.block_index + 3 })) with hst4
    set stB := codegenList body st4 with hstB
    set st7 := addBlock (st.block_index + 1) (seal_block (st.block_index + 2) stB) with hst7
    set stC := codegenList orelse st7 with hstC
    have hb4 : st4.block_index = st.block_index + 3 := by
      simp only [hst4, addBlock_block_index, setJumpTargets_block_index, appendInstr_block_index, setBlockIndex_block_index, setLoopStack_block_index, seal_block_block_index]
    have hb7 : st7.block_index = stB.block_index := by
      simp only [hst7, addBlock_block_index, setJumpTargets_block_index, appendInstr_block_index, setBlockIndex_block_index, setLoopStack_block_index, seal_block_block_index]
    have hn4 : nameList st4 = nameList st ++ [toName st.block_index] := by
      rw [hst4, nameList_addBlock, nameList_setJumpTargets, nameList_appendInstr,
        nameList_setBlockIndex]
    have hn7 : nameList st7 = nameList stB ++ [toName (st.block_index + 1)] := by
      rw [hst7, nameList_addBlock, nameList_seal_block]
    have m1 : st.block_index + 3 ≤ stB.block_index := hb4 ▸ ih1m
    have m2 : stB.block_index ≤ stC.block_index := hb7 ▸ ih2m
    refine ⟨?_, fun x => ?_⟩
    · simp only [addBlock_block_index, seal_block_block_index]
      omega
    · rw [nameList_addBlock, nameList_seal_block, addBlock_block_index,
        seal_block_block_index]
      simp only [List.mem_append, List.mem_singleton]
      rw [ih2 x, hn7]
      simp only [List.mem_append, List.mem_singleton]
      rw [ih1 x, hn4, hb4, hb7]
      simp only [List.mem_append, List.mem_singleton, or_assoc]
      constructor
      · rintro (h | h | ⟨k, h1, h2, h3⟩ | h | ⟨k, h1, h2, h3⟩ | h)
        · exact Or.inl h
        · exact Or.inr ⟨st.block_index, by omega, by omega, h⟩
        · exact Or.inr ⟨k, by omega, by omega, h3⟩
        · exact Or.inr ⟨st.block_index + 1, by omega, by omega, h⟩
        · exact Or.inr ⟨k, by omega, by omega, h3⟩
        · exact Or.inr ⟨st.block_index + 2, by omega, by omega, h⟩
      · rintro (h | ⟨k, h1, h2, h3⟩)
        · exact Or.inl h
        · rcases Nat.lt_or_ge k stB.block_index with hk | hk
          · by_cases h0 : k = st.block_index
            · subst h0
              exact Or.inr (Or.inl h3)
            · by_cases h1' : k = st.block_index + 1
              · subst h1'
                exact Or.inr (Or.inr (Or.inr (Or.inl h3)))
              · by_cases h2' : k = st.block_index + 2
                · subst h2'
                  exact Or.inr (Or.inr (Or.inr (Or.inr (Or.inr h3))))
                · exact Or.inr (Or.inr (Or.inl ⟨k, by omega, by omega, h3⟩))
          · by_cases h2' : k = st.block_index + 2
            · subst h2'
              exact Or.inr (Or.inr (Or.inr (Or.inr (Or.inr h3))))
            · exact Or.inr (Or.inr (Or.inr (Or.inr (Or.inl ⟨k, by omega, by omega, h3⟩))))
  · intro test body orelse st
    dsimp only
    intro ih1 ih2
    obtain ⟨ih1m, ih1⟩ := ih1
    obtain ⟨ih2m, ih2⟩ := ih2
    simp only [handleStmt]
    set st6 := addBlock (st.block_index + 1)
        (setJumpTargets [toName (st.block_index + 1), toName (st.block_index + 3)]
          (appendInstr (Instr.text test)
            (addBlock st.block_index
              (setJumpTargets [toName st.block_index]
                { st with block_index := st.block_index + 4 })))) with hst6
    set st7 := { st6 with
      loop_stack := ⟨st.block_index, st.block_index + 2⟩ :: st6.loop_stack } with hst7
    set stB := codegenList body st7 with hstB
    set st11 := addBlock (st.block_index + 3)
        { seal_block st.block_index stB with
          loop_stack := (seal_block st.block_index stB).loop_stack.tail } with hst11
    set stC := codegenList orelse st11 with hstC
    have hb7 : st7.block_index = st.block_index + 4 := by
      simp only [hst7, hst6, addBlock_block_index, setJumpTargets_block_index, appendInstr_block_index, setBlockIndex_block_index, setLoopStack_block_index, seal_block_block_index]
    have hb11 : st11.block_index = stB.block_index := by
      simp only [hst11, addBlock_block_index, setJumpTargets_block_index, appendInstr_block_index, setBlockIndex_block_index, setLoopStack_block_index, seal_block_block_index]
    have hn7 : nameList st7 =
        (nameList st ++ [toName st.block_index]) ++ [toName (st.block_index + 1)] := by
      rw [hst7, nameList_setLoopStack, hst6, nameList_addBlock, nameList_setJumpTargets,
        nameList_appendInstr, nameList_addBlock, nameList_setJumpTargets,
        nameList_setBlockIndex]
    have hn11 : nameList st11 = nameList stB ++ [toName (st.block_index + 3)] := by
      rw [hst11, nameList_addBlock, nameList_setLoopStack, nameList_seal_block]
    have m1 : st.block_index + 4 ≤ stB.block_index := hb7 ▸ ih1m
    have m2 : stB.block_index ≤ stC.block_index := hb11 ▸ ih2m
    refine ⟨?_, fun x => ?_⟩
    · simp only [addBlock_block_index, seal_block_block_index]
      omega
    · rw [nameList_addBlock, nameList_seal_block, addBlock_block_index,
        seal_block_block_index]
      simp only [List.mem_append, List.mem_singleton]
      rw [ih2 x, hn11]
      simp only [List.mem_append, List.mem_singleton]
      rw [ih1 x, hn7, hb7, hb11]
      simp only [List.mem_append, List.mem_singleton, or_assoc]
      constructor
      · rintro (h | h | h | ⟨k, h1, h2, h3⟩ | h | ⟨k, h1, h2, h3⟩ | h)
        · exact Or.inl h
        · exact Or.inr ⟨st.block_index, by omega, by omega, h⟩
        · exact Or.inr ⟨st.block_index + 1, by omega, by omega, h⟩
        · exact Or.inr ⟨k, by omega, by omega, h3⟩
        · exact Or.inr ⟨st.block_index + 3, by omega, by omega, h⟩
        · exact Or.inr ⟨k, by omega, by omega, h3⟩
        · exact Or.inr ⟨st.block_index + 2, by omega, by omega, h⟩
      · rintro (h | ⟨k, h1, h2, h3⟩)
        · exact Or.inl h
        · rcases Nat.lt_or_ge k stB.block_index with hk | hk
          · by_cases h0 : k = st.block_index
            · subst h0
              exact Or.inr (Or.inl h3)
            · by_cases h1' : k = st.block_index + 1
              · subst h1'
                exact Or.inr (Or.inr (Or.inl h3))
              · by_cases h2' : k = st.block_index + 2
                · subst h2'
                  exact Or.inr (Or.inr (Or.inr (Or.inr (Or.inr (Or.inr h3)))))
                · by_cases h3' : k = st.block_index + 3
                  · subst h3'
                    exact Or.inr (Or.inr (Or.inr (Or.inr (Or.inl h3))))
                  · exact Or.inr (Or.inr (Or.inr (Or.inl ⟨k, by omega, by omega, h3⟩)))
          · by_cases h2' : k = st.block_index + 2
            · subst h2'
              exact Or.inr (Or.inr (Or.inr (Or.inr (Or.inr (Or.inr h3)))))
            · exact Or.inr (Or.inr (Or.inr (Or.inr (Or.inr (Or.inl ⟨k, by omega, by omega, h3⟩)))))
  · intro target iter body orelse st
    dsimp only
    intro ih1 ih2
    obtain ⟨ih1m, ih1⟩ := ih1
    obtain ⟨ih2m, ih2⟩ := ih2
    simp only [handleStmt]
    set st10 := addBlock (st.block_index + 1)
        (setJumpTargets [toName (st.block_index + 1), toName (st.block_index + 2)]
          (appendInstr (Instr.text (target ++ " != " ++ sentinelStr))
            (appendInstr (Instr.text
              (target ++ " = next(" ++ iterVarName st.block_index ++ ", " ++ sentinelStr ++ ")"))
              (appendInstr (Instr.text (lastVarName st.block_index ++ " = " ++ target))
                (addBlock st.block_index
                  (setJumpTargets [toName st.block_index]
                    (appendInstr (Instr.text (target ++ " = None"))
                      (appendInstr (Instr.text
                        (iterVarName st.block_index ++ " = iter(" ++ iter ++ ")"))
                        { st with block_index := st.block_index + 4 })))))))) with hst10
    set st11 := { st10 with
      loop_stack := ⟨st.block_index, st.block_index + 3⟩ :: st10.loop_stack } with hst11
    set stB := codegenList body st11 with hstB
    set st16 := appendInstr (Instr.text (target ++ " = " ++ lastVarName st.block_index))
        (addBlock (st.block_index + 2)
          { seal_block st.block_index stB with
            loop_stack := (seal_block st.block_index stB).loop_stack.tail }) with hst16
    set stC := codegenList orelse st16 with hstC
    have hb11 : st11.block_index = st.block_index + 4 := by
      simp only [hst11, hst10, addBlock_block_index, setJumpTargets_block_index, appendInstr_block_index, setBlockIndex_block_index, setLoopStack_block_index, seal_block_block_index]
    have hb16 : st16.block_index = stB.block_index := by
      simp only [hst16, addBlock_block_index, setJumpTargets_block_index, appendInstr_block_index, setBlockIndex_block_index, setLoopStack_block_index, seal_block_block_index]
    have hn11 : nameList st11 =
        (nameList st ++ [toName st.block_index]) ++ [toName (st.block_index + 1)] := by
      rw [hst11, nameList_setLoopStack, hst10, nameList_addBlock, nameList_setJumpTargets,
        nameList_appendInstr, nameList_appendInstr, nameList_appendInstr, nameList_addBlock,
        nameList_setJumpTargets, nameList_appendInstr, nameList_appendInstr,
        nameList_setBlockIndex]
    have hn16 : nameList st16 = nameList stB ++ [toName (st.block_index + 2)] := by
      rw [hst16, nameList_appendInstr, nameList_addBlock, nameList_setLoopStack,
        nameList_seal_block]
    have m1 : st.block_index + 4 ≤ stB.block_index := hb11 ▸ ih1m
    have m2 : stB.block_index ≤ stC.block_index := hb16 ▸ ih2m
    refine ⟨?_, fun x => ?_⟩
    · simp only [addBlock_block_index, seal_block_block_index]
      omega
    · rw [nameList_addBlock, nameList_seal_block, addBlock_block_index,
        seal_block_block_index]
      simp only [List.mem_append, List.mem_singleton]
      rw [ih2 x, hn16]
      simp only [List.mem_append, List.mem_singleton]
      rw [ih1 x, hn11, hb11, hb16]
      simp only [List.mem_append, List.mem_singleton, or_assoc]
      constructor
      · rintro (h | h | h | ⟨k, h1, h2, h3⟩ | h | ⟨k, h1, h2, h3⟩ | h)
        · exact Or.inl h
        · exact Or.inr ⟨st.block_index, by omega, by omega, h⟩
        · exact Or.inr ⟨st.block_index + 1, by omega, by omega, h⟩
        · exact Or.inr ⟨k, by omega, by omega, h3⟩
        · exact Or.inr ⟨st.block_index + 2, by omega, by omega, h⟩
        · exact Or.inr ⟨k, by omega, by omega, h3⟩
        · exact Or.inr ⟨st.block_index + 3, by omega, by omega, h⟩
      · rintro (h | ⟨k, h1, h2, h3⟩)
        · exact Or.inl h
        · rcases Nat.lt_or_ge k stB.block_index with hk | hk
          · by_cases h0 : k = st.block_index
            · subst h0
              exact Or.inr (Or.inl h3)
            · by_cases h1' : k = st.block_index + 1
              · subst h1'
                exact Or.inr (Or.inr (Or.inl h3))
              · by_cases h2' : k = st.block_index + 2
                · subst h2'
                  exact Or.inr (Or.inr (Or.inr (Or.inr (Or.inl h3))))
                · by_cases h3' : k = st.block_index + 3
                  · subst h3'
                    exact Or.inr (Or.inr (Or.inr (Or.inr (Or.inr (Or.inr h3)))))
                  · exact Or.inr (Or.inr (Or.inr (Or.inl ⟨k, by omega, by omega, h3⟩)))
          · by_cases h3' : k = st.block_index + 3
            · subst h3'
              exact Or.inr (Or.inr (Or.inr (Or.inr (Or.inr (Or.inr h3)))))
            · exact Or.inr (Or.inr (Or.inr (Or.inr (Or.inr (Or.inl ⟨k, by omega, by omega, h3⟩)))))
  · intro st
    refine ⟨le_refl _, fun x => ?_⟩
    simp only [codegenList]
    constructor
    · exact Or.inl
    · rintro (h | ⟨k, h1, h2, _⟩)
      · exact h
      · omega
  · intro s rest st ih1 ih2
    obtain ⟨ih1m, ih1⟩ := ih1
    obtain ⟨ih2m, ih2⟩ := ih2
    refine ⟨?_, fun x => ?_⟩
    · simp only [codegenList]
      omega
    · simp only [codegenList]
      rw [ih2 x, ih1 x]
      constructor
      · rintro ((h | ⟨k, h1, h2, h3⟩) | ⟨k, h1, h2, h3⟩)
        · exact Or.inl h
        · exact Or.inr ⟨k, by omega, by omega, h3⟩
        · exact Or.inr ⟨k, by omega, by omega, h3⟩
      · rintro (h | ⟨k, h1, h2, h3⟩)
        · exact Or.inl (Or.inl h)
        · by_cases hk : k < (handleStmt s st).block_index
          · exact Or.inl (Or.inr ⟨k, by omega, by omega, h3⟩)
          · exact Or.inr ⟨k, by omega, by omega, h3⟩

/-! ### Preservation of graph well-formedness -/

theorem seal_block_cases (d : Nat) (st : TState) :
    seal_block d st = st ∨ seal_block d st = setJumpTargets [toName d] st ∨
      ∃ ctx rest, st.loop_stack = ctx :: rest ∧
        (seal_block d st = setJumpTargets [toName ctx.head] st ∨
          seal_block d st = setJumpTargets [toName ctx.exit] st) := by
  unfold seal_block
  rcases hls : st.loop_stack with _ | ⟨ctx, rest⟩
  · unfold seal_outside_loop
    split_ifs
    · exact Or.inl rfl
    · exact Or.inr (Or.inl rfl)
  · unfold seal_inside_loop
    split_ifs
    · exact Or.inr (Or.inr ⟨ctx, rest, rfl, Or.inl rfl⟩)
    · exact Or.inr (Or.inr ⟨ctx, rest, rfl, Or.inr rfl⟩)
    · exact Or.inl rfl
    · exact Or.inr (Or.inl rfl)

theorem fresh_of_bounded {L : List String} {B idx : Nat}
    (h : ∀ x ∈ L, ∃ k, k < B ∧ x = toName k) (hB : B ≤ idx) : toName idx ∉ L := by
  intro hmem
  obtain ⟨k, hk, he⟩ := h _ hmem
  have := toName_injective he.symm
  omega

theorem rawGraph_addBlock (idx : Nat) (st : TState) :
    rawGraph (addBlock idx st) = rawGraph st ++ [⟨toName idx, [], []⟩] := by
  simp [rawGraph, addBlock]

theorem rawGraph_setJumpTargets (ts : List String) (st : TState) :
    rawGraph (setJumpTargets ts st) = st.done ++ [{ st.cur with jump_targets := ts }] := rfl

theorem graphWF_appendInstr (i : Instr) (st : TState) :
    graphWF st → graphWF (appendInstr i st) := by
  rintro ⟨h1, h2, h3, h4⟩
  refine ⟨?_, ?_, h3, ?_⟩
  · rw [nameList_appendInstr]
    exact h1
  · intro b hb t ht
    simp only [rawGraph, appendInstr, List.mem_append, List.mem_singleton] at hb
    rcases hb with hb | rfl
    · exact h2 b (List.mem_append_left _ hb) t ht
    · exact h2 st.cur (List.mem_append_right _ (List.mem_singleton.mpr rfl)) t ht
  · rw [nameList_appendInstr]
    exact h4

theorem graphWF_setJumpTargets (ts : List String) (st : TState)
    (hts : ∀ t ∈ ts, ∃ k, k < st.block_index ∧ t = toName k) :
    graphWF st → graphWF (setJumpTargets ts st) := by
  rintro ⟨h1, h2, h3, h4⟩
  refine ⟨?_, ?_, h3, ?_⟩
  · rw [nameList_setJumpTargets]
    exact h1
  · intro b hb t ht
    rw [rawGraph_setJumpTargets] at hb
    simp only [List.mem_append, List.mem_singleton] at hb
    rcases hb with hb | rfl
    · exact h2 b (List.mem_append_left _ hb) t ht
    · exact hts t ht
  · rw [nameList_setJumpTargets]
    exact h4

theorem graphWF_seal_block (d : Nat) (st : TState) (hd : d < st.block_index) :
    graphWF st → graphWF (seal_block d st) := by
  intro hW
  rcases seal_block_cases d st with h | h | ⟨ctx, rest, hls, h | h⟩
  · rw [h]
    exact hW
  · rw [h]
    refine graphWF_setJumpTargets _ _ ?_ hW
    intro t ht
    rw [List.mem_singleton] at ht
    exact ⟨d, hd, ht⟩
  · rw [h]
    refine graphWF_setJumpTargets _ _ ?_ hW
    intro t ht
    rw [List.mem_singleton] at ht
    exact ⟨ctx.head, (hW.2.2.1 ctx (by rw [hls]; exact List.mem_cons_self _ _)).1, ht⟩
  · rw [h]
    refine graphWF_setJumpTargets _ _ ?_ hW
    intro t ht
    rw [List.mem_singleton] at ht
    exact ⟨ctx.exit, (hW.2.2.1 ctx (by rw [hls]; exact List.mem_cons_self _ _)).2, ht⟩

theorem graphWF_addBlock (idx : Nat) (st : TState) (h1 : idx < st.block_index)
    (h2 : toName idx ∉ nameList st) :
    graphWF st → graphWF (addBlock idx st) := by
  rintro ⟨hn, ht, hs, hd⟩
  refine ⟨?_, ?_, hs, ?_⟩
  · rw [nameList_addBlock]
    intro x hx
    rcases List.mem_append.mp hx with hx | hx
    · exact hn x hx
    · exact ⟨idx, h1, List.mem_singleton.mp hx⟩
  · intro b hb t hbt
    rw [rawGraph_addBlock] at hb
    rcases List.mem_append.mp hb with hb | hb
    · exact ht b hb t hbt
    · rw [List.mem_singleton] at hb
      subst hb
      simp at hbt
  · rw [nameList_addBlock]
    rw [List.nodup_append]
    exact ⟨hd, List.nodup_singleton _, by
      intro a ha hb
      rw [List.mem_singleton] at hb
      subst hb
      exact h2 ha⟩

theorem graphWF_bump (st : TState) (n : Nat) (h : st.block_index ≤ n) :
    graphWF st → graphWF { st with block_index := n } := by
  rintro ⟨hn, ht, hs, hd⟩
  refine ⟨?_, ?_, ?_, ?_⟩
  · intro x hx
    rw [nameList_setBlockIndex] at hx
    obtain ⟨k, hk, he⟩ := hn x hx
    refine ⟨k, ?_, he⟩
    rw [setBlockIndex_block_index]
    omega
  · intro b hb t hbt
    obtain ⟨k, hk, he⟩ := ht b hb t hbt
    refine ⟨k, ?_, he⟩
    rw [setBlockIndex_block_index]
    omega
  · intro ctx hctx
    have h2 := hs ctx hctx
    rw [setBlockIndex_block_index]
    omega
  · rw [nameList_setBlockIndex]
    exact hd

theorem graphWF_push (st : TState) (h e : Nat) (hh : h < st.block_index)
    (he : e < st.block_index) :
    graphWF st → graphWF { st with loop_stack := ⟨h, e⟩ :: st.loop_stack } := by
  rintro ⟨hn, ht, hs, hd⟩
  refine ⟨hn, ht, ?_, hd⟩
  intro ctx hctx
  rcases List.mem_cons.mp hctx with rfl | hctx
  · exact ⟨hh, he⟩
  · exact hs ctx hctx

theorem graphWF_pop (st : TState) :
    graphWF st → graphWF { st with loop_stack := st.loop_stack.tail } := by
  rintro ⟨hn, ht, hs, hd⟩
  exact ⟨hn, ht, fun ctx hctx => hs ctx (List.mem_of_mem_tail hctx), hd⟩

theorem graphWF_setMalformed (st : TState) (b : Bool) :
    graphWF st → graphWF { st with malformed := b } := by
  rintro ⟨hn, ht, hs, hd⟩
  exact ⟨hn, ht, hs, hd⟩

theorem stateWF_preserved :
    (∀ s st, stateWF st → stateWF (handleStmt s st)) ∧
      (∀ l st, stateWF st → stateWF (codegenList l st)) := by
  refine handleStmt.mutual_induct
    (fun s st => stateWF st → stateWF (handleStmt s st))
    (fun l st => stateWF st → stateWF (codegenList l st))
    ?_ ?_ ?_ ?_ ?_ ?_ ?_ ?_ ?_
  · intro s st hW
    exact ⟨graphWF_appendInstr _ _ hW.1, hW.2⟩
  · intro v st hW
    exact ⟨graphWF_appendInstr _ _ hW.1, hW.2⟩
  · intro st hW
    simp only [handleStmt]
    split
    · exact ⟨graphWF_appendInstr _ _ (graphWF_setMalformed _ _ hW.1), hW.2⟩
    · exact ⟨graphWF_appendInstr _ _ hW.1, hW.2⟩
  · intro st hW
    simp only [handleStmt]
    split
    · exact ⟨graphWF_appendInstr _ _ (graphWF_setMalformed _ _ hW.1), hW.2⟩
    · exact ⟨graphWF_appendInstr _ _ hW.1, hW.2⟩
  · intro test body orelse st
    dsimp only
    intro ih1 ih2
    simp only [handleStmt]
    set st4 := addBlock st.block_index
        (setJumpTargets [toName st.block_index, toName (st.block_index + 1)]
          (appendInstr (Instr.text test)
            { st with block_index := st.block_index + 3 })) with hst4
    set stB := codegenList body st4 with hstB
    set st7 := addBlock (st.block_index + 1) (seal_block (st.block_index + 2) stB) with hst7
    set stC := codegenList orelse st7 with hstC
    intro hW
    obtain ⟨hG, hcur⟩ := hW
    have hb4 : st4.block_index = st.block_index + 3 := by
      simp only [hst4, addBlock_block_index, setJumpTargets_block_index,
        appendInstr_block_index, setBlockIndex_block_index]
    have hn4 : nameList st4 = nameList st ++ [toName st.block_index] := by
      rw [hst4, nameList_addBlock, nameList_setJumpTargets, nameList_appendInstr,
        nameList_setBlockIndex]
    have m1 : st.block_index + 3 ≤ stB.block_index := hb4 ▸ (names_mem.2 body st4).1
    have hb7 : st7.block_index = stB.block_index := by
      simp only [hst7, addBlock_block_index, seal_block_block_index]
    have hn7 : nameList st7 = nameList stB ++ [toName (st.block_index + 1)] := by
      rw [hst7, nameList_addBlock, nameList_seal_block]
    have m2 : stB.block_index ≤ stC.block_index := hb7 ▸ (names_mem.2 orelse st7).1
    have hW4 : stateWF st4 := by
      refine ⟨?_, by rw [hst4]; rfl⟩
      rw [hst4]
      apply graphWF_addBlock
      · simp only [setJumpTargets_block_index, appendInstr_block_index,
          setBlockIndex_block_index]
        omega
      · rw [nameList_setJumpTargets, nameList_appendInstr, nameList_setBlockIndex]
        exact fresh_of_bounded hG.1 (le_refl _)
      · apply graphWF_setJumpTargets
        · intro t ht
          simp only [appendInstr_block_index, setBlockIndex_block_index]
          rcases List.mem_cons.mp ht with rfl | ht
          · exact ⟨st.block_index, by omega, rfl⟩
          · rw [List.mem_singleton] at ht
            exact ⟨st.block_index + 1, by omega, ht⟩
        · exact graphWF_appendInstr _ _ (graphWF_bump _ _ (by omega) hG)
    have hWB : stateWF stB := ih1 hW4
    have hmemB := (names_mem.2 body st4).2
    have hf7 : toName (st.block_index + 1) ∉ nameList stB := by
      intro hmem
      rcases (hmemB _).mp hmem with h | ⟨k, hk1, hk2, hk3⟩
      · rw [hn4] at h
        rcases List.mem_append.mp h with h | h
        · exact fresh_of_bounded hG.1 (by omega) h
        · rw [List.mem_singleton] at h
          have := toName_injective h
          omega
      · have := toName_injective hk3.symm
        omega
    have hW7 : stateWF st7 := by
      refine ⟨?_, by rw [hst7]; rfl⟩
      rw [hst7]
      apply graphWF_addBlock
      · simp only [seal_block_block_index]
        omega
      · rw [nameList_seal_block]
        exact hf7
      · exact graphWF_seal_block _ _ (by omega) hWB.1
    have hWC : stateWF stC := ih2 hW7
    have hmemC := (names_mem.2 orelse st7).2
    have hfC : toName (st.block_index + 2) ∉ nameList stC := by
      intro hmem
      rcases (hmemC _).mp hmem with h | ⟨k, hk1, hk2, hk3⟩
      · rw [hn7] at h
        rcases List.mem_append.mp h with h | h
        · rcases (hmemB _).mp h with h | ⟨k, hk1, hk2, hk3⟩
          · rw [hn4] at h
            rcases List.mem_append.mp h with h | h
            · exact fresh_of_bounded hG.1 (by omega) h
            · rw [List.mem_singleton] at h
              have := toName_injective h
              omega
          · have := toName_injective hk3.symm
            omega
        · rw [List.mem_singleton] at h
          have := toName_injective h
          omega
      · have := toName_injective hk3.symm
        omega
    refine ⟨?_, rfl⟩
    apply graphWF_addBlock
    · simp only [seal_block_block_index]
      omega
    · rw [nameList_seal_block]
      exact hfC
    · exact graphWF_seal_block _ _ (by omega) hWC.1
  · intro test body orelse st
    dsimp only
    intro ih1 ih2
    simp only [handleStmt]
    set st6 := addBlock (st.block_index + 1)
        (setJumpTargets [toName (st.block_index + 1), toName (st.block_index + 3)]
          (appendInstr (Instr.text test)
            (addBlock st.block_index
              (setJumpTargets [toName st.block_index]
                { st with block_index := st.block_index + 4 })))) with hst6
    set st7 := { st6 with
      loop_stack := ⟨st.block_index, st.block_index + 2⟩ :: st6.loop_stack } with hst7
    set stB := codegenList body st7 with hstB
    set st11 := addBlock (st.block_index + 3)
        { seal_block st.block_index stB with
          loop_stack := (seal_block st.block_index stB).loop_stack.tail } with hst11
    set stC := codegenList orelse st11 with hstC
    intro hW
    obtain ⟨hG, hcur⟩ := hW
    have hb7 : st7.block_index = st.block_index + 4 := by
      simp only [hst7, hst6, setLoopStack_block_index, addBlock_block_index,
        setJumpTargets_block_index, appendInstr_block_index, setBlockIndex_block_index]
    have hn7 : nameList st7 =
        (nameList st ++ [toName st.block_index]) ++ [toName (st.block_index + 1)] := by
      rw [hst7, nameList_setLoopStack, hst6, nameList_addBlock, nameList_setJumpTargets,
        nameList_appendInstr, nameList_addBlock, nameList_setJumpTargets,
        nameList_setBlockIndex]
    have m1 : st.block_index + 4 ≤ stB.block_index := hb7 ▸ (names_mem.2 body st7).1
    have hb11 : st11.block_index = stB.block_index := by
      simp only [hst11, addBlock_block_index, setLoopStack_block_index,
        seal_block_block_index]
    have hn11 : nameList st11 = nameList stB ++ [toName (st.block_index + 3)] := by
      rw [hst11, nameList_addBlock, nameList_setLoopStack, nameList_seal_block]
    have m2 : stB.block_index ≤ stC.block_index := hb11 ▸ (names_mem.2 orelse st11).1
    have hW6 : stateWF st6 := by
      refine ⟨?_, by rw [hst6]; rfl⟩
      rw [hst6]
      apply graphWF_addBlock
      · simp only [setJumpTargets_block_index, appendInstr_block_index,
          addBlock_block_index, setBlockIndex_block_index]
        omega
      · rw [nameList_setJumpTargets, nameList_appendInstr, nameList_addBlock,
          nameList_setJumpTargets, nameList_setBlockIndex]
        intro hmem
        rcases List.mem_append.mp hmem with h | h
        · exact fresh_of_bounded hG.1 (by omega) h
        · rw [List.mem_singleton] at h
          have := toName_injective h
          omega
      · apply graphWF_setJumpTargets
        · intro t ht
          simp only [appendInstr_block_index, addBlock_block_index,
            setJumpTargets_block_index, setBlockIndex_block_index]
          rcases List.mem_cons.mp ht with rfl | ht
          · exact ⟨st.block_index + 1, by omega, rfl⟩
          · rw [List.mem_singleton] at ht
            exact ⟨st.block_index + 3, by omega, ht⟩
        · apply graphWF_appendInstr
          apply graphWF_addBlock
          · simp only [setJumpTargets_block_index, setBlockIndex_block_index]
            omega
          · rw [nameList_setJumpTargets, nameList_setBlockIndex]
            exact fresh_of_bounded hG.1 (le_refl _)
          · apply graphWF_setJumpTargets
            · intro t ht
              rw [List.mem_singleton] at ht
              simp only [setBlockIndex_block_index]
              exact ⟨st.block_index, by omega, ht⟩
            · exact graphWF_bump _ _ (by omega) hG
    have hW7 : stateWF st7 := by
      refine ⟨?_, by rw [hst7, hst6]; rfl⟩
      rw [hst7]
      apply graphWF_push
      · simp only [hst6, addBlock_block_index, setJumpTargets_block_index,
          appendInstr_block_index, setBlockIndex_block_index]
        omega
      · simp only [hst6, addBlock_block_index, setJumpTargets_block_index,
          appendInstr_block_index, setBlockIndex_block_index]
        omega
      · exact hW6.1
    have hWB : stateWF stB := ih1 hW7
    have hmemB := (names_mem.2 body st7).2
    have hf11 : toName (st.block_index + 3) ∉ nameList stB := by
      intro hmem
      rcases (hmemB _).mp hmem with h | ⟨k, hk1, hk2, hk3⟩
      · rw [hn7] at h
        rcases List.mem_append.mp h with h | h
        · rcases List.mem_append.mp h with h | h
          · exact fresh_of_bounded hG.1 (by omega) h
          · rw [List.mem_singleton] at h
            have := toName_injective h
            omega
        · rw [List.mem_singleton] at h
          have := toName_injective h
          omega
      · have := toName_injective hk3.symm
        omega
    have hW11 : stateWF st11 := by
      refine ⟨?_, by rw [hst11]; rfl⟩
      rw [hst11]
      apply graphWF_addBlock
      · simp only [setLoopStack_block_index, seal_block_block_index]
        omega
      · rw [nameList_setLoopStack, nameList_seal_block]
        exact hf11
      · exact graphWF_pop _ (graphWF_seal_block _ _ (by omega) hWB.1)
    have hWC : stateWF stC := ih2 hW11
    have hmemC := (names_mem.2 orelse st11).2
    have hfC : toName (st.block_index + 2) ∉ nameList stC := by
      intro hmem
      rcases (hmemC _).mp hmem with h | ⟨k, hk1, hk2, hk3⟩
      · rw [hn11] at h
        rcases List.mem_append.mp h with h | h
        · rcases (hmemB _).mp h with h | ⟨k, hk1, hk2, hk3⟩
          · rw [hn7] at h
            rcases List.mem_append.mp h with h | h
            · rcases List.mem_append.mp h with h | h
              · exact fresh_of_bounded hG.1 (by omega) h
              · rw [List.mem_singleton] at h
                have := toName_injective h
                omega
            · rw [List.mem_singleton] at h
              have := toName_injective h
              omega
          · have := toName_injective hk3.symm
            omega
        · rw [List.mem_singleton] at h
          have := toName_injective h
          omega
      · have := toName_injective hk3.symm
        omega
    refine ⟨?_, rfl⟩
    apply graphWF_addBlock
    · simp only [seal_block_block_index]
      omega
    · rw [nameList_seal_block]
      exact hfC
    · exact graphWF_seal_block _ _ (by omega) hWC.1
  · intro target iter body orelse st
    dsimp only
    intro ih1 ih2
    simp only [handleStmt]
    set st10 := addBlock (st.block_index + 1)
        (setJumpTargets [toName (st.block_index + 1), toName (st.block_index + 2)]
          (appendInstr (Instr.text (target ++ " != " ++ sentinelStr))
            (appendInstr (Instr.text
              (target ++ " = next(" ++ iterVarName st.block_index ++ ", " ++ sentinelStr ++ ")"))
              (appendInstr (Instr.text (lastVarName st.block_index ++ " = " ++ target))
                (addBlock st.block_index
                  (setJumpTargets [toName st.block_index]
                    (appendInstr (Instr.text (target ++ " = None"))
                      (appendInstr (Instr.text
                        (iterVarName st.block_index ++ " = iter(" ++ iter ++ ")"))
                        { st with block_index := st.block_index + 4 })))))))) with hst10
    set st11 := { st10 with
      loop_stack := ⟨st.block_index, st.block_index + 3⟩ :: st10.loop_stack } with hst11
    set stB := codegenList body st11 with hstB
    set st16 := appendInstr (Instr.text (target ++ " = " ++ lastVarName st.block_index))
        (addBlock (st.block_index + 2)
          { seal_block st.block_index stB with
            loop_stack := (seal_block st.block_index stB).loop_stack.tail }) with hst16
    set stC := codegenList orelse st16 with hstC
    intro hW
    obtain ⟨hG, hcur⟩ := hW
    have hb11 : st11.block_index = st.block_index + 4 := by
      simp only [hst11, hst10, setLoopStack_block_index, addBlock_block_index,
        setJumpTargets_block_index, appendInstr_block_index, setBlockIndex_block_index]
    have hn11 : nameList st11 =
        (nameList st ++ [toName st.block_index]) ++ [toName (st.block_index + 1)] := by
      rw [hst11, nameList_setLoopStack, hst10, nameList_addBlock, nameList_setJumpTargets,
        nameList_appendInstr, nameList_appendInstr, nameList_appendInstr, nameList_addBlock,
        nameList_setJumpTargets, nameList_appendInstr, nameList_appendInstr,
        nameList_setBlockIndex]
    have m1 : st.block_index + 4 ≤ stB.block_index := hb11 ▸ (names_mem.2 body st11).1
    have hb16 : st16.block_index = stB.block_index := by
      simp only [hst16, appendInstr_block_index, addBlock_block_index,
        setLoopStack_block_index, seal_block_block_index]
    have hn16 : nameList st16 = nameList stB ++ [toName (st.block_index + 2)] := by
      rw [hst16, nameList_appendInstr, nameList_addBlock, nameList_setLoopStack,
        nameList_seal_block]
    have m2 : stB.block_index ≤ stC.block_index := hb16 ▸ (names_mem.2 orelse st16).1
    have hW10 : stateWF st10 := by
      refine ⟨?_, by rw [hst10]; rfl⟩
      rw [hst10]
      apply graphWF_addBlock
      · simp only [setJumpTargets_block_index, appendInstr_block_index,
          addBlock_block_index, setBlockIndex_block_index]
        omega
      · rw [nameList_setJumpTargets, nameList_appendInstr, nameList_appendInstr,
          nameList_appendInstr, nameList_addBlock, nameList_setJumpTargets,
          nameList_appendInstr, nameList_appendInstr, nameList_setBlockIndex]
        intro hmem
        rcases List.mem_append.mp hmem with h | h
        · exact fresh_of_bounded hG.1 (by omega) h
        · rw [List.mem_singleton] at h
          have := toName_injective h
          omega
      · apply graphWF_setJumpTargets
        · intro t ht
          simp only [appendInstr_block_index, addBlock_block_index,
            setJumpTargets_block_index, setBlockIndex_block_index]
          rcases List.mem_cons.mp ht with rfl | ht
          · exact ⟨st.block_index + 1, by omega, rfl⟩
          · rw [List.mem_singleton] at ht
            exact ⟨st.block_index + 2, by omega, ht⟩
        · apply graphWF_appendInstr
          apply graphWF_appendInstr
          apply graphWF_appendInstr
          apply graphWF_addBlock
          · simp only [setJumpTargets_block_index, appendInstr_block_index,
              setBlockIndex_block_index]
            omega
          · rw [nameList_setJumpTargets, nameList_appendInstr, nameList_appendInstr,
              nameList_setBlockIndex]
            exact fresh_of_bounded hG.1 (le_refl _)
          · apply graphWF_setJumpTargets
            · intro t ht
              rw [List.mem_singleton] at ht
              simp only [appendInstr_block_index, setBlockIndex_block_index]
              exact ⟨st.block_index, by omega, ht⟩
            · exact graphWF_appendInstr _ _
                (graphWF_appendInstr _ _ (graphWF_bump _ _ (by omega) hG))
    have hW11 : stateWF st11 := by
      refine ⟨?_, by rw [hst11, hst10]; rfl⟩
      rw [hst11]
      apply graphWF_push
      · simp only [hst10, addBlock_block_index, setJumpTargets_block_index,
          appendInstr_block_index, setBlockIndex_block_index]
        omega
      · simp only [hst10, addBlock_block_index, setJumpTargets_block_index,
          appendInstr_block_index, setBlockIndex_block_index]
        omega
      · exact hW10.1
    have hWB : stateWF stB := ih1 hW11
    have hmemB := (names_mem.2 body st11).2
    have hf16 : toName (st.block_index + 2) ∉ nameList stB := by
      intro hmem
      rcases (hmemB _).mp hmem with h | ⟨k, hk1, hk2, hk3⟩
      · rw [hn11] at h
        rcases List.mem_append.mp h with h | h
        · rcases List.mem_append.mp h with h | h
          · exact fresh_of_bounded hG.1 (by omega) h
          · rw [List.mem_singleton] at h
            have := toName_injective h
            omega
        · rw [List.mem_singleton] at h
          have := toName_injective h
          omega
      · have := toName_injective hk3.symm
        omega
    have hW16 : stateWF st16 := by
      refine ⟨?_, by rw [hst16]; rfl⟩
      rw [hst16]
      apply graphWF_appendInstr
      apply graphWF_addBlock
      · simp only [setLoopStack_block_index, seal_block_block_index]
        omega
      · rw [nameList_setLoopStack, nameList_seal_block]
        exact hf16
      · exact graphWF_pop _ (graphWF_seal_block _ _ (by omega) hWB.1)
    have hWC : stateWF stC := ih2 hW16
    have hmemC := (names_mem.2 orelse st16).2
    have hfC : toName (st.block_index + 3) ∉ nameList stC := by
      intro hmem
      rcases (hmemC _).mp hmem with h | ⟨k, hk1, hk2, hk3⟩
      · rw [hn16] at h
        rcases List.mem_append.mp h with h | h
        · rcases (hmemB _).mp h with h | ⟨k, hk1, hk2, hk3⟩
          · rw [hn11] at h
            rcases List.mem_append.mp h with h | h
            · rcases List.mem_append.mp h with h | h
              · exact fresh_of_bounded hG.1 (by omega) h
              · rw [List.mem_singleton] at h
                have := toName_injective h
                omega
            · rw [List.mem_singleton] at h
              have := toName_injective h
              omega
          · have := toName_injective hk3.symm
            omega
        · rw [List.mem_singleton] at h
          have := toName_injective h
          omega
      · have := toName_injective hk3.symm
        omega
    refine ⟨?_, rfl⟩
    apply graphWF_addBlock
    · simp only [seal_block_block_index]
      omega
    · rw [nameList_seal_block]
      exact hfC
    · exact graphWF_seal_block _ _ (by omega) hWC.1
  · intro st hW
    exact hW
  · intro s rest st ih1 ih2 hW
    exact ih2 (ih1 hW)

theorem initState_stateWF : stateWF initState := by
  refine ⟨⟨?_, ?_, ?_, ?_⟩, rfl⟩
  · intro x hx
    have : x = toName 0 := by
      simpa [nameList, rawGraph, initState] using hx
    exact ⟨0, by simp [initState], this⟩
  · intro b hb t ht
    have : b = ⟨toName 0, [], []⟩ := by
      simpa [rawGraph, initState] using hb
    subst this
    simp at ht
  · intro ctx hctx
    simp [initState] at hctx
  · simp [nameList, rawGraph, initState]

theorem lowerRaw_stateWF (body : List Stmt) : stateWF (lowerRaw body) :=
  stateWF_preserved.2 (withImplicitReturn body) initState initState_stateWF

theorem lowerRaw_names_mem (body : List Stmt) (x : String) :
    x ∈ nameList (lowerRaw body) ↔
      x = toName 0 ∨ ∃ k, 1 ≤ k ∧ k < (lowerRaw body).block_index ∧ x = toName k := by
  have h := (names_mem.2 (withImplicitReturn body) initState).2 x
  unfold lowerRaw
  rw [h]
  constructor
  · rintro (h | ⟨k, h1, h2, h3⟩)
    · left
      simpa [nameList, rawGraph, initState] using h
    · exact Or.inr ⟨k, h1, h2, h3⟩
  · rintro (h | ⟨k, h1, h2, h3⟩)
    · left
      simp [nameList, rawGraph, initState, h]
    · exact Or.inr ⟨k, h1, h2, h3⟩

/-! ### Claim C7 -/

/-- C7: referential completeness of the constructed graph: in the graph built
by the lowering engine (before the pruning analyses, i.e. with the
unreachable and empty blocks still present), every jump target named by any
block is the name of a block of the same graph. -/
theorem claim_C7_referential_completeness :
    ∀ (body : List Stmt), ∀ b ∈ rawGraph (lowerRaw body), ∀ t ∈ b.jump_targets,
      t ∈ blockNames (rawGraph (lowerRaw body)) := by
  intro body b hb t ht
  have hWF := lowerRaw_stateWF body
  obtain ⟨k, hk, rfl⟩ := hWF.1.2.1 b hb t ht
  show toName k ∈ nameList (lowerRaw body)
  rw [lowerRaw_names_mem]
  rcases Nat.eq_zero_or_pos k with h0 | h0
  · subst h0
    exact Or.inl rfl
  · exact Or.inr ⟨k, h0, hk, rfl⟩

/-- Witness for C7: in the graph lowered from `progIfReturn`, the test
block's targets `"1"` and `"2"` are block names of the same graph. -/
theorem claim_C7_witness :
    "1" ∈ blockNames (rawGraph (lowerRaw progIfReturn)) ∧
      "2" ∈ blockNames (rawGraph (lowerRaw progIfReturn)) :=
  ⟨claim_C7_referential_completeness progIfReturn
      ⟨"0", [.text "x < 10"], ["1", "2"]⟩ (by decide) "1" (by decide),
    claim_C7_referential_completeness progIfReturn
      ⟨"0", [.text "x < 10"], ["1", "2"]⟩ (by decide) "2" (by decide)⟩

/-! ### Correctness and termination of the reachability traversal -/

theorem mem_le_maxTargets {g : List WritableASTBlock} {b : WritableASTBlock}
    (hb : b ∈ g) : b.jump_targets.length ≤ maxTargets g := by
  induction g with
  | nil => cases hb
  | cons c cs ih =>
    rcases List.mem_cons.mp hb with rfl | hb
    · exact le_max_left _ _
    · exact le_trans (ih hb) (le_max_right _ _)

theorem targetsOf_length_le (g : List WritableASTBlock) (n : String) :
    (targetsOf g n).length ≤ maxTargets g := by
  unfold targetsOf
  cases hf : g.find? (fun b => decide (b.name = n)) with
  | none => simp
  | some b =>
    have hb : b ∈ g := List.mem_of_find?_eq_some hf
    simpa using mem_le_maxTargets hb

theorem targetsOf_not_mem (g : List WritableASTBlock) (n : String)
    (h : n ∉ blockNames g) : targetsOf g n = [] := by
  unfold targetsOf
  have hf : g.find? (fun b => decide (b.name = n)) = none := by
    rw [List.find?_eq_none]
    intro b hb
    simp only [decide_eq_true_eq]
    intro he
    exact h (he ▸ List.mem_map_of_mem WritableASTBlock.name hb)
  rw [hf]
  rfl

theorem filter_unvisited_le (l : List String) (n : String) (vis : List String) :
    ((l.filter (fun m => decide (m ∉ n :: vis))).length ≤
      (l.filter (fun m => decide (m ∉ vis))).length) := by
  apply List.Sublist.length_le
  apply List.monotone_filter_right
  intro a ha
  simp only [decide_eq_true_eq, List.mem_cons, not_or] at ha ⊢
  exact ha.2

theorem filter_unvisited_lt (l : List String) (n : String) (vis : List String)
    (hn : n ∈ l) (hv : n ∉ vis) :
    ((l.filter (fun m => decide (m ∉ n :: vis))).length <
      (l.filter (fun m => decide (m ∉ vis))).length) := by
  induction l with
  | nil => cases hn
  | cons a as ih =>
    by_cases han : a = n
    · subst han
      rw [List.filter_cons, List.filter_cons]
      have h1 : (decide (a ∉ a :: vis)) = false := by simp
      have h2 : (decide (a ∉ vis)) = true := by simpa using hv
      rw [h1, h2]
      simp only [Bool.false_eq_true, if_false, if_true, List.length_cons]
      have := filter_unvisited_le as a vis
      omega
    · have hn' : n ∈ as := by
        rcases List.mem_cons.mp hn with h | h
        · exact absurd h.symm han
        · exact h
      rw [List.filter_cons, List.filter_cons]
      have heq : (decide (a ∉ n :: vis)) = (decide (a ∉ vis)) := by
        by_cases hav : a ∈ vis <;> simp [hav, han]
      rw [heq]
      cases hq : decide (a ∉ vis)
      · exact ih hn'
      · simp only [if_true, List.length_cons]
        exact Nat.succ_lt_succ (ih hn')

theorem length_le_visitBound (g : List WritableASTBlock) (tv vis : List String) :
    tv.length ≤ visitBound g tv vis := by
  unfold visitBound
  omega

theorem visitBound_skip (g : List WritableASTBlock) (n : String)
    (rest vis : List String) :
    visitBound g rest vis < visitBound g (n :: rest) vis := by
  unfold visitBound
  simp only [List.length_cons]
  omega

theorem visitBound_visit (g : List WritableASTBlock) (n : String)
    (rest vis : List String) (h : n ∉ vis) :
    visitBound g (rest ++ targetsOf g n) (n :: vis) < visitBound g (n :: rest) vis := by
  unfold visitBound
  rw [List.length_append, List.length_cons]
  by_cases hn : n ∈ blockNames g
  · have hlt := filter_unvisited_lt (blockNames g) n vis hn h
    have hT := targetsOf_length_le g n
    have hmul : (maxTargets g + 1) *
        (((blockNames g).filter (fun m => decide (m ∉ n :: vis))).length + 1) ≤
        (maxTargets g + 1) *
        ((blockNames g).filter (fun m => decide (m ∉ vis))).length :=
      Nat.mul_le_mul_left _ (by omega)
    rw [Nat.mul_add, Nat.mul_one] at hmul
    omega
  · rw [targetsOf_not_mem g n hn]
    have heq : (blockNames g).filter (fun m => decide (m ∉ n :: vis)) =
        (blockNames g).filter (fun m => decide (m ∉ vis)) := by
      apply List.filter_congr
      intro x hx
      have hxn : x ≠ n := fun he => hn (he ▸ hx)
      by_cases hxv : x ∈ vis <;> simp [hxv, hxn]
    rw [heq]
    simp only [List.length_nil]
    omega

theorem visitF_nil (g : List WritableASTBlock) (fuel : Nat) (vis : List String) :
    visitF g fuel [] vis = vis := by
  cases fuel <;> rfl

theorem visitF_grow (g : List WritableASTBlock) :
    ∀ fuel tv vis, ∀ v ∈ vis, v ∈ visitF g fuel tv vis := by
  intro fuel
  induction fuel with
  | zero =>
    intro tv vis v hv
    cases tv <;> simpa [visitF] using hv
  | succ f ih =>
    intro tv vis v hv
    cases tv with
    | nil => simpa [visitF_nil] using hv
    | cons n rest =>
      simp only [visitF]
      split
      · exact ih _ _ v hv
      · exact ih _ _ v (List.mem_cons_of_mem _ hv)

theorem visitF_complete_tv (g : List WritableASTBlock) :
    ∀ fuel tv vis, visitBound g tv vis ≤ fuel → ∀ t ∈ tv, t ∈ visitF g fuel tv vis := by
  intro fuel
  induction fuel with
  | zero =>
    intro tv vis hb t ht
    have := length_le_visitBound g tv vis
    have htv : tv = [] := by
      cases tv
      · rfl
      · simp at this
        omega
    subst htv
    cases ht
  | succ f ih =>
    intro tv vis hb t ht
    cases tv with
    | nil => cases ht
    | cons n rest =>
      simp only [visitF]
      split
      · rcases List.mem_cons.mp ht with rfl | ht
        · exact visitF_grow g f rest vis t (by assumption)
        · exact ih rest vis (by have := visitBound_skip g n rest vis; omega) t ht
      · rcases List.mem_cons.mp ht with rfl | ht
        · exact visitF_grow g f _ _ t (List.mem_cons_self _ _)
        · exact ih _ _ (by have := visitBound_visit g n rest vis (by assumption); omega)
            t (List.mem_append_left _ ht)

theorem visitF_closed (g : List WritableASTBlock) :
    ∀ fuel tv vis, visitBound g tv vis ≤ fuel →
      (∀ v ∈ vis, ∀ u ∈ targetsOf g v, u ∈ vis ∨ u ∈ tv) →
      ∀ v ∈ visitF g fuel tv vis, ∀ u ∈ targetsOf g v, u ∈ visitF g fuel tv vis := by
  intro fuel
  induction fuel with
  | zero =>
    intro tv vis hb hinv v hv u hu
    have := length_le_visitBound g tv vis
    have htv : tv = [] := by
      cases tv
      · rfl
      · simp at this
        omega
    subst htv
    rw [visitF_nil] at hv ⊢
    rcases hinv v hv u hu with h | h
    · exact h
    · cases h
  | succ f ih =>
    intro tv vis hb hinv v hv u hu
    cases tv with
    | nil =>
      rw [visitF_nil] at hv ⊢
      rcases hinv v hv u hu with h | h
      · exact h
      · cases h
    | cons n rest =>
      simp only [visitF] at hv ⊢
      split at hv <;> rename_i hmem
      · simp only [if_pos hmem]
        refine ih rest vis (by have := visitBound_skip g n rest vis; omega) ?_ v hv u hu
        intro w hw x hx
        rcases hinv w hw x hx with h | h
        · exact Or.inl h
        · rcases List.mem_cons.mp h with rfl | h
          · exact Or.inl hmem
          · exact Or.inr h
      · simp only [if_neg hmem]
        refine ih _ _ (by have := visitBound_visit g n rest vis hmem; omega) ?_ v hv u hu
        intro w hw x hx
        rcases List.mem_cons.mp hw with rfl | hw
        · exact Or.inr (List.mem_append_right _ hx)
        · rcases hinv w hw x hx with h | h
          · exact Or.inl (List.mem_cons_of_mem _ h)
          · rcases List.mem_cons.mp h with rfl | h
            · exact Or.inl (List.mem_cons_self _ _)
            · exact Or.inr (List.mem_append_left _ h)

theorem visitF_sound (g : List WritableASTBlock) :
    ∀ fuel tv vis, (∀ v ∈ vis, Reachable g v) → (∀ t ∈ tv, Reachable g t) →
      ∀ v ∈ visitF g fuel tv vis, Reachable g v := by
  intro fuel
  induction fuel with
  | zero =>
    intro tv vis hvis htv v hv
    cases tv with
    | nil =>
      rw [visitF_nil] at hv
      exact hvis v hv
    | cons n rest => exact hvis v hv
  | succ f ih =>
    intro tv vis hvis htv v hv
    cases tv with
    | nil =>
      rw [visitF_nil] at hv
      exact hvis v hv
    | cons n rest =>
      simp only [visitF] at hv
      split at hv <;> rename_i hmem
      · exact ih rest vis hvis (fun t ht => htv t (List.mem_cons_of_mem _ ht)) v hv
      · refine ih _ _ ?_ ?_ v hv
        · intro w hw
          rcases List.mem_cons.mp hw with rfl | hw
          · exact htv w (List.mem_cons_self _ _)
          · exact hvis w hw
        · intro t ht
          rcases List.mem_append.mp ht with ht | ht
          · exact htv t (List.mem_cons_of_mem _ ht)
          · exact Reachable.step (htv n (List.mem_cons_self _ _)) ht
    
theorem visitF_fuel_stable (g : List WritableASTBlock) :
    ∀ f1 f2 tv vis, visitBound g tv vis ≤ f1 → visitBound g tv vis ≤ f2 →
      visitF g f1 tv vis = visitF g f2 tv vis := by
  intro f1
  induction f1 with
  | zero =>
    intro f2 tv vis h1 h2
    have := length_le_visitBound g tv vis
    have htv : tv = [] := by
      cases tv
      · rfl
      · simp at this
        omega
    subst htv
    rw [visitF_nil, visitF_nil]
  | succ f ih =>
    intro f2 tv vis h1 h2
    cases tv with
    | nil => rw [visitF_nil, visitF_nil]
    | cons n rest =>
      cases f2 with
      | zero =>
        have := length_le_visitBound g (n :: rest) vis
        simp at this
        omega
      | succ f2' =>
        simp only [visitF]
        split <;> rename_i hmem
        · exact ih f2' rest vis (by have := visitBound_skip g n rest vis; omega)
            (by have := visitBound_skip g n rest vis; omega)
        · exact ih f2' _ _ (by have := visitBound_visit g n rest vis hmem; omega)
            (by have := visitBound_visit g n rest vis hmem; omega)

theorem visitedNames_spec (g : List WritableASTBlock) (n : String) :
    n ∈ visitedNames g ↔ Reachable g n := by
  constructor
  · intro h
    refine visitF_sound g _ _ _ ?_ ?_ n h
    · intro v hv
      cases hv
    · intro t ht
      rw [List.mem_singleton] at ht
      subst ht
      exact Reachable.entry
  · intro h
    induction h with
    | entry =>
      exact visitF_complete_tv g _ _ _ (le_refl _) (toName 0) (List.mem_singleton.mpr rfl)
    | step hm hmu ih =>
      exact visitF_closed g _ _ _ (le_refl _) (by intro v hv; cases hv) _ ih _ hmu

/-! ### Claim C10 -/

/-- C10: the reachability analysis (forward traversal from block `"0"` with
a visited set as the only guard) terminates on every finite graph: its
worklist runs to completion within the precomputed bound and any larger
fuel yields the same visited set; the visited set is exactly the set of
reachable block names, even in the presence of cycles; and the analysis
tags exactly the unvisited block names as unreachable.  The final conjunct
checks the traversal on the cyclic header-body-header graph of
`progSimpleWhile`. -/
theorem claim_C10_reachability_terminates :
    (∀ (g : List WritableASTBlock) (fuel : Nat),
      visitBound g [toName 0] [] ≤ fuel →
        visitF g fuel [toName 0] [] = visitedNames g) ∧
    (∀ (g : List WritableASTBlock) (n : String),
      n ∈ visitedNames g ↔ Reachable g n) ∧
    (∀ (g : List WritableASTBlock) (n : String),
      n ∈ (pruneUnreachable g).2 ↔ n ∈ blockNames g ∧ ¬ Reachable g n) ∧
    visitedNames (rawGraph (lowerRaw progSimpleWhile)) = ["3", "4", "2", "1", "0"] := by
  refine ⟨?_, visitedNames_spec, ?_, rfl⟩
  · intro g fuel hf
    exact visitF_fuel_stable g fuel (visitBound g [toName 0] []) [toName 0] [] hf (le_refl _)
  · intro g n
    show n ∈ (blockNames g).filter (fun m => decide (m ∉ visitedNames g)) ↔ _
    rw [List.mem_filter]
    simp only [decide_eq_true_eq]
    rw [visitedNames_spec]

/-- Witness for C10: applying the fuel-stability part at the concrete cyclic
graph lowered from `progSimpleWhile` with ample fuel. -/
theorem claim_C10_witness :
    visitF (rawGraph (lowerRaw progSimpleWhile)) 100 [toName 0] [] =
      visitedNames (rawGraph (lowerRaw progSimpleWhile)) :=
  claim_C10_reachability_terminates.1 (rawGraph (lowerRaw progSimpleWhile)) 100 (by decide)

/-! ### Sealing of terminal blocks, and reserved empty slots -/

theorem is_break_not_continue (b : WritableASTBlock) (h : b.is_break = true) :
    b.is_continue = false := by
  unfold WritableASTBlock.is_break at h
  unfold WritableASTBlock.is_continue
  cases hl : b.instructions.getLast? with
  | none => rfl
  | some i =>
    rw [hl] at h
    cases i <;> simp_all

theorem seal_block_fresh (d : Nat) (st : TState) (h : st.cur.instructions = []) :
    (seal_block d st).cur = ⟨st.cur.name, st.cur.instructions, [toName d]⟩ := by
  have hret : st.cur.is_return = false := by
    unfold WritableASTBlock.is_return
    rw [h]
    rfl
  have hbrk : st.cur.is_break = false := by
    unfold WritableASTBlock.is_break
    rw [h]
    rfl
  have hcont : st.cur.is_continue = false := by
    unfold WritableASTBlock.is_continue
    rw [h]
    rfl
  unfold seal_block
  cases hls : st.loop_stack with
  | nil =>
    unfold seal_outside_loop
    rw [hret]
    rfl
  | cons ctx rest =>
    unfold seal_inside_loop
    rw [hcont, hbrk, hret]
    rfl

theorem seal_block_addBlock_cur (d i : Nat) (st : TState) :
    (seal_block d (addBlock i st)).cur = ⟨toName i, [], [toName d]⟩ := by
  rw [seal_block_fresh d (addBlock i st) (by rw [addBlock_cur])]
  rfl

/-! ### Claim C3 -/

/-- C3: when a structural slot is not needed by the source construct, the
allocator still reserves the slot's block name and the engine emits it as an
empty block carrying a single fall-through edge to the next structural slot:
for an `if` without `else`, the reserved else slot (index `block_index + 1`)
is emitted empty with a fall-through to the end-if slot (`block_index + 2`);
for a `while` without trailing clause, the reserved else slot
(`block_index + 3`) is emitted empty with a fall-through to the exit slot
(`block_index + 2`).  The graph shape of the construct is therefore uniform
whether or not the optional part is present. -/
theorem claim_C3_reserved_slots :
    (∀ (test : String) (body : List Stmt) (st : TState),
      (⟨toName (st.block_index + 1), [], [toName (st.block_index + 2)]⟩ :
          WritableASTBlock) ∈
        rawGraph (handleStmt (.ifStmt test body []) st)) ∧
    (∀ (test : String) (body : List Stmt) (st : TState),
      (⟨toName (st.block_index + 3), [], [toName (st.block_index + 2)]⟩ :
          WritableASTBlock) ∈
        rawGraph (handleStmt (.whileStmt test body []) st)) := by
  constructor
  · intro test body st
    simp only [handleStmt, codegenList]
    rw [rawGraph]
    apply List.mem_append_left
    rw [addBlock_done, seal_block_addBlock_cur]
    exact List.mem_append_right _ (List.mem_singleton.mpr rfl)
  · intro test body st
    simp only [handleStmt, codegenList]
    rw [rawGraph]
    apply List.mem_append_left
    rw [addBlock_done, seal_block_addBlock_cur]
    exact List.mem_append_right _ (List.mem_singleton.mpr rfl)

/-! ### Claim C4 -/

/-- C4: break/continue resolution is governed exclusively by the innermost
enclosing Loop Context.  (1) Lowering any statement restores the Loop
Context stack, so an outer loop's contexts are never consulted while its
body's nested constructs are being lowered and the innermost context always
sits on top; (2) sealing a block whose last instruction is `break` targets
exactly the exit of the topmost Loop Context, and one ending in `continue`
targets exactly its header, regardless of the fall-through default;
(3) concretely, in the nested-for test program the inner `break` block "9"
targets the inner loop's exit "8" (not the outer loop's exit "4"), and the
`continue` placed in the inner loop's trailing clause — lowered after the
inner context is popped — resolves to the outer header "1". -/
theorem claim_C4_break_continue_resolution :
    (∀ (s : Stmt) (st : TState), (handleStmt s st).loop_stack = st.loop_stack) ∧
    (∀ (st : TState) (hd ex : Nat) (rest : List LoopIndices) (d : Nat),
      st.loop_stack = ⟨hd, ex⟩ :: rest →
        (st.cur.is_break = true →
          (seal_block d st).cur.jump_targets = [toName ex]) ∧
        (st.cur.is_continue = true →
          (seal_block d st).cur.jump_targets = [toName hd])) ∧
    (summarize progForNestedForElse).1.find? (fun e => e.1 = "9") =
      some ("9", ["c *= 3"], ["8"]) ∧
    (summarize progForNestedForElse).1.find? (fun e => e.1 = "7") =
      some ("7", ["j = __iter_last_5__", "c *= 5"], ["1"]) := by
  refine ⟨handleStmt_loop_stack, ?_, rfl, rfl⟩
  intro st hd ex rest d hstack
  constructor
  · intro hbrk
    have hcont : st.cur.is_continue = false := is_break_not_continue _ hbrk
    unfold seal_block
    rw [hstack]
    show (seal_inside_loop hd ex d st).cur.jump_targets = [toName ex]
    unfold seal_inside_loop
    rw [hcont, hbrk]
    simp
  · intro hcont
    unfold seal_block
    rw [hstack]
    show (seal_inside_loop hd ex d st).cur.jump_targets = [toName hd]
    unfold seal_inside_loop
    rw [hcont]
    simp

/-- Witness for C4: the sealing part applied at a concrete state whose open
block ends in `break` (resp. `continue`) under the loop context ⟨1, 3⟩. -/
theorem claim_C4_witness :
    (seal_block 7 ⟨5, [], ⟨"2", [Instr.brk], []⟩, [⟨1, 3⟩], false⟩).cur.jump_targets =
        [toName 3] ∧
    (seal_block 7 ⟨5, [], ⟨"2", [Instr.cont], []⟩, [⟨1, 3⟩], false⟩).cur.jump_targets =
        [toName 1] :=
  ⟨(claim_C4_break_continue_resolution.2.1 _ 1 3 [] 7 rfl).1 (by decide),
   (claim_C4_break_continue_resolution.2.1 _ 1 3 [] 7 rfl).2 (by decide)⟩

/-! ### Freshness of the targets emitted by a lowering step (claim C6) -/

theorem setBlockIndex_done (st : TState) (n : Nat) :
    ({ st with block_index := n } : TState).done = st.done := rfl

theorem setBlockIndex_cur (st : TState) (n : Nat) :
    ({ st with block_index := n } : TState).cur = st.cur := rfl

theorem setBlockIndex_loop_stack (st : TState) (n : Nat) :
    ({ st with block_index := n } : TState).loop_stack = st.loop_stack := rfl

theorem setLoopStack_done (st : TState) (ls : List LoopIndices) :
    ({ st with loop_stack := ls } : TState).done = st.done := rfl

theorem setLoopStack_cur (st : TState) (ls : List LoopIndices) :
    ({ st with loop_stack := ls } : TState).cur = st.cur := rfl

theorem setLoopStack_loop_stack (st : TState) (ls : List LoopIndices) :
    ({ st with loop_stack := ls } : TState).loop_stack = ls := rfl

theorem setMalformed_done (st : TState) (b : Bool) :
    ({ st with malformed := b } : TState).done = st.done := rfl

theorem setMalformed_cur (st : TState) (b : Bool) :
    ({ st with malformed := b } : TState).cur = st.cur := rfl

theorem stackVals_cons (ctx : LoopIndices) (rest : List LoopIndices) :
    stackVals (ctx :: rest) = ctx.head :: ctx.exit :: stackVals rest := rfl

theorem stackVals_mem (ls : List LoopIndices) (k : Nat) (h : k ∈ stackVals ls) :
    ∃ ctx ∈ ls, k = ctx.head ∨ k = ctx.exit := by
  induction ls with
  | nil => simp [stackVals] at h
  | cons ctx rest ih =>
    rw [stackVals_cons] at h
    rcases List.mem_cons.mp h with rfl | h
    · exact ⟨ctx, List.mem_cons_self _ _, Or.inl rfl⟩
    · rcases List.mem_cons.mp h with rfl | h
      · exact ⟨ctx, List.mem_cons_self _ _, Or.inr rfl⟩
      · obtain ⟨c, hc, hor⟩ := ih h
        exact ⟨c, List.mem_cons_of_mem _ hc, hor⟩

theorem stackVals_bounded {st : TState} (hG : graphWF st) {k : Nat}
    (h : k ∈ stackVals st.loop_stack) : k < st.block_index := by
  obtain ⟨ctx, hc, hor⟩ := stackVals_mem _ _ h
  rcases hor with rfl | rfl
  · exact (hG.2.2.1 ctx hc).1
  · exact (hG.2.2.1 ctx hc).2

theorem spanned_of_nil {st res : TState} {b : WritableASTBlock}
    (hjt : b.jump_targets = []) : targetSpanned st res b := by
  intro t ht
  rw [hjt] at ht
  exact absurd ht (List.not_mem_nil t)

theorem spanned_of_singleton {st res : TState} {b : WritableASTBlock} {k : Nat}
    (hjt : b.jump_targets = [toName k])
    (hk : k ∈ stackVals st.loop_stack ∨
      (st.block_index ≤ k ∧ k < res.block_index)) :
    targetSpanned st res b := by
  intro t ht
  rw [hjt, List.mem_singleton] at ht
  exact ⟨k, ht, hk⟩

theorem spanned_of_pair {st res : TState} {b : WritableASTBlock} {k1 k2 : Nat}
    (hjt : b.jump_targets = [toName k1, toName k2])
    (h1 : st.block_index ≤ k1 ∧ k1 < res.block_index)
    (h2 : st.block_index ≤ k2 ∧ k2 < res.block_index) :
    targetSpanned st res b := by
  intro t ht
  rw [hjt] at ht
  rcases List.mem_cons.mp ht with rfl | ht
  · exact ⟨k1, rfl, Or.inr h1⟩
  · rw [List.mem_singleton] at ht
    exact ⟨k2, ht, Or.inr h2⟩

theorem spanned_of_seal (st res stS : TState) (d : Nat)
    (hopen : stS.cur.jump_targets = [])
    (hstack : stS.loop_stack = st.loop_stack ∨
      ∃ h e, stS.loop_stack = ⟨h, e⟩ :: st.loop_stack ∧
        (st.block_index ≤ h ∧ h < res.block_index) ∧
        (st.block_index ≤ e ∧ e < res.block_index))
    (hd1 : st.block_index ≤ d) (hd2 : d < res.block_index) :
    targetSpanned st res (seal_block d stS).cur := by
  intro t ht
  rcases seal_block_cases d stS with h0 | h0 | ⟨ctx, rest, hls, h0 | h0⟩
  · rw [h0, hopen] at ht
    exact absurd ht (List.not_mem_nil t)
  · rw [h0, setJumpTargets_cur_jump_targets, List.mem_singleton] at ht
    exact ⟨d, ht, Or.inr ⟨hd1, hd2⟩⟩
  · rw [h0, setJumpTargets_cur_jump_targets, List.mem_singleton] at ht
    refine ⟨ctx.head, ht, ?_⟩
    rcases hstack with hs | ⟨hh, he, hpush, hb1, hb2⟩
    · left
      rw [hs] at hls
      rw [hls, stackVals_cons]
      exact List.mem_cons_self _ _
    · right
      rw [hpush] at hls
      injection hls with h1 h2
      rw [← h1]
      exact hb1
  · rw [h0, setJumpTargets_cur_jump_targets, List.mem_singleton] at ht
    refine ⟨ctx.exit, ht, ?_⟩
    rcases hstack with hs | ⟨hh, he, hpush, hb1, hb2⟩
    · left
      rw [hs] at hls
      rw [hls, stackVals_cons]
      exact List.mem_cons_of_mem _ (List.mem_cons_self _ _)
    · right
      rw [hpush] at hls
      injection hls with h1 h2
      rw [← h1]
      exact hb2

theorem targetSpanned_weaken (st1 res1 st2 res2 : TState) (b : WritableASTBlock)
    (h : targetSpanned st1 res1 b)
    (hstack : ∀ k, k ∈ stackVals st1.loop_stack →
      k ∈ stackVals st2.loop_stack ∨
        (st2.block_index ≤ k ∧ k < res2.block_index))
    (hlo : st2.block_index ≤ st1.block_index)
    (hhi : res1.block_index ≤ res2.block_index) :
    targetSpanned st2 res2 b := by
  intro t ht
  obtain ⟨k, hk, hc⟩ := h t ht
  rcases hc with hs | ⟨h1, h2⟩
  · exact ⟨k, hk, hstack k hs⟩
  · exact ⟨k, hk, Or.inr ⟨le_trans hlo h1, lt_of_lt_of_le h2 hhi⟩⟩

theorem cur_open_preserved :
    (∀ s st, st.cur.jump_targets = [] →
      (handleStmt s st).cur.jump_targets = []) ∧
    (∀ l st, st.cur.jump_targets = [] →
      (codegenList l st).cur.jump_targets = []) := by
  refine handleStmt.mutual_induct
    (fun s st => st.cur.jump_targets = [] →
      (handleStmt s st).cur.jump_targets = [])
    (fun l st => st.cur.jump_targets = [] →
      (codegenList l st).cur.jump_targets = [])
    ?_ ?_ ?_ ?_ ?_ ?_ ?_ ?_ ?_
  · intro s st h
    simp only [handleStmt, appendInstr_cur_jump_targets]
    exact h
  · intro v st h
    simp only [handleStmt, appendInstr_cur_jump_targets]
    exact h
  · intro st h
    simp only [handleStmt]
    split
    · rw [appendInstr_cur_jump_targets]
      exact h
    · rw [appendInstr_cur_jump_targets]
      exact h
  · intro st h
    simp only [handleStmt]
    split
    · rw [appendInstr_cur_jump_targets]
      exact h
    · rw [appendInstr_cur_jump_targets]
      exact h
  · intro test body orelse st
    dsimp only
    intro ih1 ih2 h
    rfl
  · intro test body orelse st
    dsimp only
    intro ih1 ih2 h
    rfl
  · intro target iter body orelse st
    dsimp only
    intro ih1 ih2 h
    rfl
  · intro st h
    exact h
  · intro s rest st ih1 ih2 h
    simp only [codegenList]
    exact ih2 (ih1 h)

theorem targets_fresh :
    (∀ s st, st.cur.jump_targets = [] →
      ∀ b ∈ rawGraph (handleStmt s st),
        b ∈ st.done ∨ targetSpanned st (handleStmt s st) b) ∧
    (∀ l st, st.cur.jump_targets = [] →
      ∀ b ∈ rawGraph (codegenList l st),
        b ∈ st.done ∨ targetSpanned st (codegenList l st) b) := by
  refine handleStmt.mutual_induct
    (fun s st => st.cur.jump_targets = [] →
      ∀ b ∈ rawGraph (handleStmt s st),
        b ∈ st.done ∨ targetSpanned st (handleStmt s st) b)
    (fun l st => st.cur.jump_targets = [] →
      ∀ b ∈ rawGraph (codegenList l st),
        b ∈ st.done ∨ targetSpanned st (codegenList l st) b)
    ?_ ?_ ?_ ?_ ?_ ?_ ?_ ?_ ?_
  · intro s st h b hb
    simp only [handleStmt] at hb ⊢
    rw [rawGraph, appendInstr_done] at hb
    rcases List.mem_append.mp hb with hm | hm
    · exact Or.inl hm
    · rw [List.mem_singleton] at hm
      subst hm
      exact Or.inr (spanned_of_nil h)
  · intro v st h b hb
    simp only [handleStmt] at hb ⊢
    rw [rawGraph, appendInstr_done] at hb
    rcases List.mem_append.mp hb with hm | hm
    · exact Or.inl hm
    · rw [List.mem_singleton] at hm
      subst hm
      exact Or.inr (spanned_of_nil h)
  · intro st h b hb
    simp only [handleStmt] at hb ⊢
    by_cases hc : st.loop_stack.isEmpty = true
    · rw [if_pos hc] at hb ⊢
      rw [rawGraph, appendInstr_done, setMalformed_done] at hb
      rcases List.mem_append.mp hb with hm | hm
      · exact Or.inl hm
      · rw [List.mem_singleton] at hm
        subst hm
        exact Or.inr (spanned_of_nil h)
    · rw [if_neg hc] at hb ⊢
      rw [rawGraph, appendInstr_done] at hb
      rcases List.mem_append.mp hb with hm | hm
      · exact Or.inl hm
      · rw [List.mem_singleton] at hm
        subst hm
        exact Or.inr (spanned_of_nil h)
  · intro st h b hb
    simp only [handleStmt] at hb ⊢
    by_cases hc : st.loop_stack.isEmpty = true
    · rw [if_pos hc] at hb ⊢
      rw [rawGraph, appendInstr_done, setMalformed_done] at hb
      rcases List.mem_append.mp hb with hm | hm
      · exact Or.inl hm
      · rw [List.mem_singleton] at hm
        subst hm
        exact Or.inr (spanned_of_nil h)
    · rw [if_neg hc] at hb ⊢
      rw [rawGraph, appendInstr_done] at hb
      rcases List.mem_append.mp hb with hm | hm
      · exact Or.inl hm
      · rw [List.mem_singleton] at hm
        subst hm
        exact Or.inr (spanned_of_nil h)
  · intro test body orelse st
    dsimp only
    intro ih1 ih2
    simp only [handleStmt]
    set st4 := addBlock st.block_index
        (setJumpTargets [toName st.block_index, toName (st.block_index + 1)]
          (appendInstr (Instr.text test)
            { st with block_index := st.block_index + 3 })) with hst4
    set stB := codegenList body st4 with hstB
    set st7 := addBlock (st.block_index + 1) (seal_block (st.block_index + 2) stB) with hst7
    set stC := codegenList orelse st7 with hstC
    set stR := addBlock (st.block_index + 2) (seal_block (st.block_index + 2) stC) with hstR
    intro h b hb
    have hb4 : st4.block_index = st.block_index + 3 := by
      simp only [hst4, addBlock_block_index, setJumpTargets_block_index,
        appendInstr_block_index, setBlockIndex_block_index]
    have m1 : st.block_index + 3 ≤ stB.block_index := hb4 ▸ (names_mem.2 body st4).1
    have hb7 : st7.block_index = stB.block_index := by
      simp only [hst7, addBlock_block_index, seal_block_block_index]
    have m2 : stB.block_index ≤ stC.block_index := hb7 ▸ (names_mem.2 orelse st7).1
    have hbR : stR.block_index = stC.block_index := by
      rw [hstR]
      simp only [addBlock_block_index, seal_block_block_index]
    have hls4 : st4.loop_stack = st.loop_stack := by
      simp only [hst4, addBlock_loop_stack, setJumpTargets_loop_stack,
        appendInstr_loop_stack, setBlockIndex_loop_stack]
    have hlsB : stB.loop_stack = st.loop_stack := by
      rw [hstB, codegenList_loop_stack, hls4]
    have hls7 : st7.loop_stack = st.loop_stack := by
      rw [hst7, addBlock_loop_stack, seal_block_loop_stack, hlsB]
    have hlsC : stC.loop_stack = st.loop_stack := by
      rw [hstC, codegenList_loop_stack, hls7]
    have ho4 : st4.cur.jump_targets = [] := by
      rw [hst4]
      rfl
    have hoB : stB.cur.jump_targets = [] := by
      rw [hstB]
      exact cur_open_preserved.2 body st4 ho4
    have ho7 : st7.cur.jump_targets = [] := by
      rw [hst7]
      rfl
    have hoC : stC.cur.jump_targets = [] := by
      rw [hstC]
      exact cur_open_preserved.2 orelse st7 ho7
    rw [rawGraph, hstR, addBlock_done, addBlock_cur, seal_block_done] at hb
    simp only [List.mem_append, List.mem_singleton] at hb
    rcases hb with (hb | hb) | hb
    · rcases ih2 ho7 b (List.mem_append_left _ hb) with h7 | hsp
      · rw [hst7, addBlock_done, seal_block_done] at h7
        rcases List.mem_append.mp h7 with hB | hB
        · rcases ih1 ho4 b (List.mem_append_left _ hB) with h4 | hsp
          · rw [hst4, addBlock_done, setJumpTargets_done, appendInstr_done,
              setBlockIndex_done] at h4
            rcases List.mem_append.mp h4 with hm | hm
            · exact Or.inl hm
            · rw [List.mem_singleton] at hm
              subst hm
              right
              exact spanned_of_pair rfl ⟨le_refl _, by omega⟩ ⟨by omega, by omega⟩
          · right
            refine targetSpanned_weaken st4 stB st stR b hsp ?_ (by omega) (by omega)
            intro k hk
            rw [hls4] at hk
            exact Or.inl hk
        · rw [List.mem_singleton] at hB
          subst hB
          right
          exact spanned_of_seal st stR stB (st.block_index + 2) hoB
            (Or.inl hlsB) (by omega) (by omega)
      · right
        refine targetSpanned_weaken st7 stC st stR b hsp ?_ (by omega) (by omega)
        intro k hk
        rw [hls7] at hk
        exact Or.inl hk
    · subst hb
      right
      exact spanned_of_seal st stR stC (st.block_index + 2) hoC
        (Or.inl hlsC) (by omega) (by omega)
    · subst hb
      right
      exact spanned_of_nil rfl
  · intro test body orelse st
    dsimp only
    intro ih1 ih2
    simp only [handleStmt]
    set st6 := addBlock (st.block_index + 1)
        (setJumpTargets [toName (st.block_index + 1), toName (st.block_index + 3)]
          (appendInstr (Instr.text test)
            (addBlock st.block_index
              (setJumpTargets [toName st.block_index]
                { st with block_index := st.block_index + 4 })))) with hst6
    set st7 := { st6 with
      loop_stack := ⟨st.block_index, st.block_index + 2⟩ :: st6.loop_stack } with hst7
    set stB := codegenList body st7 with hstB
    set st11 := addBlock (st.block_index + 3)
        { seal_block st.block_index stB with
          loop_stack := (seal_block st.block_index stB).loop_stack.tail } with hst11
    set stC := codegenList orelse st11 with hstC
    set stR := addBlock (st.block_index + 2) (seal_block (st.block_index + 2) stC) with hstR
    intro h b hb
    have hb7 : st7.block_index = st.block_index + 4 := by
      simp only [hst7, hst6, setLoopStack_block_index, addBlock_block_index,
        setJumpTargets_block_index, appendInstr_block_index, setBlockIndex_block_index]
    have m1 : st.block_index + 4 ≤ stB.block_index := hb7 ▸ (names_mem.2 body st7).1
    have hb11 : st11.block_index = stB.block_index := by
      simp only [hst11, addBlock_block_index, setLoopStack_block_index,
        seal_block_block_index]
    have m2 : stB.block_index ≤ stC.block_index := hb11 ▸ (names_mem.2 orelse st11).1
    have hbR : stR.block_index = stC.block_index := by
      rw [hstR]
      simp only [addBlock_block_index, seal_block_block_index]
    have hls6 : st6.loop_stack = st.loop_stack := by
      simp only [hst6, addBlock_loop_stack, setJumpTargets_loop_stack,
        appendInstr_loop_stack, setBlockIndex_loop_stack]
    have hls7 : st7.loop_stack =
        ⟨st.block_index, st.block_index + 2⟩ :: st.loop_stack := by
      rw [hst7, setLoopStack_loop_stack, hls6]
    have hlsB : stB.loop_stack =
        ⟨st.block_index, st.block_index + 2⟩ :: st.loop_stack := by
      rw [hstB, codegenList_loop_stack, hls7]
    have hls11 : st11.loop_stack = st.loop_stack := by
      rw [hst11, addBlock_loop_stack, setLoopStack_loop_stack,
        seal_block_loop_stack, hlsB, List.tail_cons]
    have hlsC : stC.loop_stack = st.loop_stack := by
      rw [hstC, codegenList_loop_stack, hls11]
    have ho7 : st7.cur.jump_targets = [] := by
      rw [hst7, setLoopStack_cur, hst6]
      rfl
    have hoB : stB.cur.jump_targets = [] := by
      rw [hstB]
      exact cur_open_preserved.2 body st7 ho7
    have ho11 : st11.cur.jump_targets = [] := by
      rw [hst11]
      rfl
    have hoC : stC.cur.jump_targets = [] := by
      rw [hstC]
      exact cur_open_preserved.2 orelse st11 ho11
    rw [rawGraph, hstR, addBlock_done, addBlock_cur, seal_block_done] at hb
    simp only [List.mem_append, List.mem_singleton] at hb
    rcases hb with (hb | hb) | hb
    · rcases ih2 ho11 b (List.mem_append_left _ hb) with h11 | hsp
      · rw [hst11, addBlock_done, setLoopStack_done, seal_block_done,
          setLoopStack_cur] at h11
        rcases List.mem_append.mp h11 with hB | hB
        · rcases ih1 ho7 b (List.mem_append_left _ hB) with h7 | hsp
          · rw [hst6, addBlock_done, setJumpTargets_done,
              appendInstr_done, addBlock_done, setJumpTargets_done,
              setBlockIndex_done] at h7
            rcases List.mem_append.mp h7 with h6 | h6
            · rcases List.mem_append.mp h6 with hm | hm
              · exact Or.inl hm
              · rw [List.mem_singleton] at hm
                subst hm
                right
                exact spanned_of_singleton rfl (Or.inr ⟨le_refl _, by omega⟩)
            · rw [List.mem_singleton] at h6
              subst h6
              right
              exact spanned_of_pair rfl ⟨by omega, by omega⟩ ⟨by omega, by omega⟩
          · right
            refine targetSpanned_weaken st7 stB st stR b hsp ?_ (by omega) (by omega)
            intro k hk
            have hsv7 : stackVals st7.loop_stack =
                st.block_index :: (st.block_index + 2) :: stackVals st.loop_stack := by
              rw [hls7]
              rfl
            rw [hsv7] at hk
            rcases List.mem_cons.mp hk with rfl | hk
            · exact Or.inr ⟨le_refl _, by omega⟩
            · rcases List.mem_cons.mp hk with rfl | hk
              · exact Or.inr ⟨by omega, by omega⟩
              · exact Or.inl hk
        · rw [List.mem_singleton] at hB
          subst hB
          right
          exact spanned_of_seal st stR stB st.block_index hoB
            (Or.inr ⟨st.block_index, st.block_index + 2, hlsB,
              ⟨le_refl _, by omega⟩, ⟨by omega, by omega⟩⟩)
            (le_refl _) (by omega)
      · right
        refine targetSpanned_weaken st11 stC st stR b hsp ?_ (by omega) (by omega)
        intro k hk
        rw [hls11] at hk
        exact Or.inl hk
    · subst hb
      right
      exact spanned_of_seal st stR stC (st.block_index + 2) hoC
        (Or.inl hlsC) (by omega) (by omega)
    · subst hb
      right
      exact spanned_of_nil rfl
  · intro target iter body orelse st
    dsimp only
    intro ih1 ih2
    simp only [handleStmt]
    set st10 := addBlock (st.block_index + 1)
        (setJumpTargets [toName (st.block_index + 1), toName (st.block_index + 2)]
          (appendInstr (Instr.text (target ++ " != " ++ sentinelStr))
            (appendInstr (Instr.text
              (target ++ " = next(" ++ iterVarName st.block_index ++ ", " ++ sentinelStr ++ ")"))
              (appendInstr (Instr.text (lastVarName st.block_index ++ " = " ++ target))
                (addBlock st.block_index
                  (setJumpTargets [toName st.block_index]
                    (appendInstr (Instr.text (target ++ " = None"))
                      (appendInstr (Instr.text
                        (iterVarName st.block_index ++ " = iter(" ++ iter ++ ")"))
                        { st with block_index := st.block_index + 4 })))))))) with hst10
    set st11 := { st10 with
      loop_stack := ⟨st.block_index, st.block_index + 3⟩ :: st10.loop_stack } with hst11
    set stB := codegenList body st11 with hstB
    set st16 := appendInstr (Instr.text (target ++ " = " ++ lastVarName st.block_index))
        (addBlock (st.block_index + 2)
          { seal_block st.block_index stB with
            loop_stack := (seal_block st.block_index stB).loop_stack.tail }) with hst16
    set stC := codegenList orelse st16 with hstC
    set stR := addBlock (st.block_index + 3) (seal_block (st.block_index + 3) stC) with hstR
    intro h b hb
    have hb11 : st11.block_index = st.block_index + 4 := by
      simp only [hst11, hst10, setLoopStack_block_index, addBlock_block_index,
        setJumpTargets_block_index, appendInstr_block_index, setBlockIndex_block_index]
    have m1 : st.block_index + 4 ≤ stB.block_index := hb11 ▸ (names_mem.2 body st11).1
    have hb16 : st16.block_index = stB.block_index := by
      simp only [hst16, appendInstr_block_index, addBlock_block_index,
        setLoopStack_block_index, seal_block_block_index]
    have m2 : stB.block_index ≤ stC.block_index := hb16 ▸ (names_mem.2 orelse st16).1
    have hbR : stR.block_index = stC.block_index := by
      rw [hstR]
      simp only [addBlock_block_index, seal_block_block_index]
    have hls10 : st10.loop_stack = st.loop_stack := by
      simp only [hst10, addBlock_loop_stack, setJumpTargets_loop_stack,
        appendInstr_loop_stack, setBlockIndex_loop_stack]
    have hls11 : st11.loop_stack =
        ⟨st.block_index, st.block_index + 3⟩ :: st.loop_stack := by
      rw [hst11, setLoopStack_loop_stack, hls10]
    have hlsB : stB.loop_stack =
        ⟨st.block_index, st.block_index + 3⟩ :: st.loop_stack := by
      rw [hstB, codegenList_loop_stack, hls11]
    have hls16 : st16.loop_stack = st.loop_stack := by
      rw [hst16, appendInstr_loop_stack, addBlock_loop_stack,
        setLoopStack_loop_stack, seal_block_loop_stack, hlsB, List.tail_cons]
    have hlsC : stC.loop_stack = st.loop_stack := by
      rw [hstC, codegenList_loop_stack, hls16]
    have ho11 : st11.cur.jump_targets = [] := by
      rw [hst11, setLoopStack_cur, hst10]
      rfl
    have hoB : stB.cur.jump_targets = [] := by
      rw [hstB]
      exact cur_open_preserved.2 body st11 ho11
    have ho16 : st16.cur.jump_targets = [] := by
      rw [hst16, appendInstr_cur_jump_targets]
      rfl
    have hoC : stC.cur.jump_targets = [] := by
      rw [hstC]
      exact cur_open_preserved.2 orelse st16 ho16
    rw [rawGraph, hstR, addBlock_done, addBlock_cur, seal_block_done] at hb
    simp only [List.mem_append, List.mem_singleton] at hb
    rcases hb with (hb | hb) | hb
    · rcases ih2 ho16 b (List.mem_append_left _ hb) with h16 | hsp
      · rw [hst16, appendInstr_done, addBlock_done, setLoopStack_done,
          seal_block_done, setLoopStack_cur] at h16
        rcases List.mem_append.mp h16 with hB | hB
        · rcases ih1 ho11 b (List.mem_append_left _ hB) with h11 | hsp
          · rw [hst10, addBlock_done, setJumpTargets_done,
              appendInstr_done, appendInstr_done, appendInstr_done, addBlock_done,
              setJumpTargets_done, appendInstr_done, appendInstr_done,
              setBlockIndex_done] at h11
            rcases List.mem_append.mp h11 with h10 | h10
            · rcases List.mem_append.mp h10 with hm | hm
              · exact Or.inl hm
              · rw [List.mem_singleton] at hm
                subst hm
                right
                exact spanned_of_singleton rfl (Or.inr ⟨le_refl _, by omega⟩)
            · rw [List.mem_singleton] at h10
              subst h10
              right
              exact spanned_of_pair rfl ⟨by omega, by omega⟩ ⟨by omega, by omega⟩
          · right
            refine targetSpanned_weaken st11 stB st stR b hsp ?_ (by omega) (by omega)
            intro k hk
            have hsv11 : stackVals st11.loop_stack =
                st.block_index :: (st.block_index + 3) :: stackVals st.loop_stack := by
              rw [hls11]
              rfl
            rw [hsv11] at hk
            rcases List.mem_cons.mp hk with rfl | hk
            · exact Or.inr ⟨le_refl _, by omega⟩
            · rcases List.mem_cons.mp hk with rfl | hk
              · exact Or.inr ⟨by omega, by omega⟩
              · exact Or.inl hk
        · rw [List.mem_singleton] at hB
          subst hB
          right
          exact spanned_of_seal st stR stB st.block_index hoB
            (Or.inr ⟨st.block_index, st.block_index + 3, hlsB,
              ⟨le_refl _, by omega⟩, ⟨by omega, by omega⟩⟩)
            (le_refl _) (by omega)
      · right
        refine targetSpanned_weaken st16 stC st stR b hsp ?_ (by omega) (by omega)
        intro k hk
        rw [hls16] at hk
        exact Or.inl hk
    · subst hb
      right
      exact spanned_of_seal st stR stC (st.block_index + 3) hoC
        (Or.inl hlsC) (by omega) (by omega)
    · subst hb
      right
      exact spanned_of_nil rfl
  · intro st h b hb
    simp only [codegenList] at hb ⊢
    rw [rawGraph] at hb
    rcases List.mem_append.mp hb with hm | hm
    · exact Or.inl hm
    · rw [List.mem_singleton] at hm
      subst hm
      exact Or.inr (spanned_of_nil h)
  · intro s rest st ih1 ih2 h b hb
    simp only [codegenList] at hb ⊢
    have h1 : (handleStmt s st).cur.jump_targets = [] := cur_open_preserved.1 s st h
    rcases ih2 h1 b hb with hm | hm
    · rcases ih1 h b (List.mem_append_left _ hm) with hm2 | hm2
      · exact Or.inl hm2
      · right
        refine targetSpanned_weaken st (handleStmt s st) st
          (codegenList rest (handleStmt s st)) b hm2
          (fun k hk => Or.inl hk) (le_refl _) (block_index_mono.2 rest _)
    · right
      refine targetSpanned_weaken (handleStmt s st) (codegenList rest (handleStmt s st))
        st (codegenList rest (handleStmt s st)) b hm ?_
        (block_index_mono.1 s st) (le_refl _)
      intro k hk
      rw [handleStmt_loop_stack] at hk
      exact Or.inl hk

theorem seal_block_text (d : Nat) (st : TState) (s : String)
    (h : st.cur.instructions.getLast? = some (.text s)) :
    (seal_block d st).cur = ⟨st.cur.name, st.cur.instructions, [toName d]⟩ := by
  have hret : st.cur.is_return = false := by
    unfold WritableASTBlock.is_return
    rw [h]
  have hbrk : st.cur.is_break = false := by
    unfold WritableASTBlock.is_break
    rw [h]
  have hcont : st.cur.is_continue = false := by
    unfold WritableASTBlock.is_continue
    rw [h]
  unfold seal_block
  cases hls : st.loop_stack with
  | nil =>
    unfold seal_outside_loop
    rw [hret]
    rfl
  | cons ctx rest =>
    unfold seal_inside_loop
    rw [hcont, hbrk, hret]
    rfl

/-! ### Claim C5 -/

/-- C5: an iterator loop is lowered into exactly the acquire / advance /
restore protocol.  (1) The block current at entry becomes the acquire block:
it materializes the iterator handle, initializes the loop variable to None,
and falls through to the header slot.  (2) The header block snapshots the
previous loop-variable value, advances the iterator with the sentinel as
default, tests the result against the sentinel, and carries exactly two
targets: body-start on not-exhausted, restore block on exhausted.  (3) With
no trailing clause the restore block reinstates the last valid
loop-variable value and falls through to the exit.  (4) Concretely, with a
trailing clause the clause statements follow the reinstatement in the
restore block, which still falls through to the exit ("3" in the nested-for
test). -/
theorem claim_C5_for_protocol :
    (∀ (target iter : String) (body orelse : List Stmt) (st : TState),
      (⟨st.cur.name,
        st.cur.instructions ++
          [.text (iterVarName st.block_index ++ " = iter(" ++ iter ++ ")"),
           .text (target ++ " = None")],
        [toName st.block_index]⟩ : WritableASTBlock) ∈
          rawGraph (handleStmt (.forStmt target iter body orelse) st)) ∧
    (∀ (target iter : String) (body orelse : List Stmt) (st : TState),
      (⟨toName st.block_index,
        [.text (lastVarName st.block_index ++ " = " ++ target),
         .text (target ++ " = next(" ++ iterVarName st.block_index ++ ", " ++
           sentinelStr ++ ")"),
         .text (target ++ " != " ++ sentinelStr)],
        [toName (st.block_index + 1), toName (st.block_index + 2)]⟩ :
          WritableASTBlock) ∈
        rawGraph (handleStmt (.forStmt target iter body orelse) st)) ∧
    (∀ (target iter : String) (body : List Stmt) (st : TState),
      (⟨toName (st.block_index + 2),
        [.text (target ++ " = " ++ lastVarName st.block_index)],
        [toName (st.block_index + 3)]⟩ : WritableASTBlock) ∈
        rawGraph (handleStmt (.forStmt target iter body []) st)) ∧
    (summarize progForNestedForElse).1.find? (fun e => e.1 = "3") =
      some ("3", ["i = __iter_last_1__", "c *= 9"], ["4"]) := by
  refine ⟨?_, ?_, ?_, rfl⟩
  · intro target iter body orelse st
    simp only [handleStmt]
    rw [rawGraph]
    apply List.mem_append_left
    rw [addBlock_done]
    apply List.mem_append_left
    rw [seal_block_done]
    apply done_mem_preserved
    rw [appendInstr_done, addBlock_done]
    apply List.mem_append_left
    rw [setLoopStack_done, seal_block_done]
    apply done_mem_preserved
    rw [setLoopStack_done, addBlock_done]
    apply List.mem_append_left
    rw [setJumpTargets_done, appendInstr_done, appendInstr_done, appendInstr_done,
      addBlock_done]
    apply List.mem_append_right
    simp [setJumpTargets, appendInstr, List.append_assoc]
  · intro target iter body orelse st
    simp only [handleStmt]
    rw [rawGraph]
    apply List.mem_append_left
    rw [addBlock_done]
    apply List.mem_append_left
    rw [seal_block_done]
    apply done_mem_preserved
    rw [appendInstr_done, addBlock_done]
    apply List.mem_append_left
    rw [setLoopStack_done, seal_block_done]
    apply done_mem_preserved
    rw [setLoopStack_done, addBlock_done]
    apply List.mem_append_right
    simp [setJumpTargets, appendInstr, addBlock]
  · intro target iter body st
    simp only [handleStmt, codegenList]
    rw [rawGraph]
    apply List.mem_append_left
    rw [addBlock_done]
    apply List.mem_append_right
    rw [seal_block_text (st.block_index + 3) _
      (target ++ " = " ++ lastVarName st.block_index) (by simp)]
    simp [appendInstr, addBlock]

/-! ### Claim C6 -/

/-- C6: a pre-test loop's trailing ("else") clause starts in the reserved
else slot (`block_index + 3`), and (1) that slot is referenced by no block
of the produced graph other than the loop header (the header's false branch
is the only way in); (2) with a one-statement clause, the clause block falls
through to the loop exit (`block_index + 2`); (3) a `break` in a loop body
targets the exit directly, bypassing the clause: concretely, in the
nested-for test the inner break block "9" jumps to the inner exit "8", not
to the inner clause block "7". -/
theorem claim_C6_trailing_clause :
    (∀ (test : String) (body orelse : List Stmt) (st : TState), stateWF st →
      ∀ b ∈ rawGraph (handleStmt (.whileStmt test body orelse) st),
        toName (st.block_index + 3) ∈ b.jump_targets →
          b.name = toName st.block_index) ∧
    (∀ (test s : String) (body : List Stmt) (st : TState),
      (⟨toName (st.block_index + 3), [.text s], [toName (st.block_index + 2)]⟩ :
          WritableASTBlock) ∈
        rawGraph (handleStmt (.whileStmt test body [.simple s]) st)) ∧
    ((summarize progForNestedForElse).1.find? (fun e => e.1 = "9")).map
        (fun e => e.2.2) = some ["8"] := by
  refine ⟨?_, ?_, rfl⟩
  · intro test body orelse st hW b hb hmem
    obtain ⟨hG, hcur⟩ := hW
    simp only [handleStmt] at hb
    set st6 := addBlock (st.block_index + 1)
        (setJumpTargets [toName (st.block_index + 1), toName (st.block_index + 3)]
          (appendInstr (Instr.text test)
            (addBlock st.block_index
              (setJumpTargets [toName st.block_index]
                { st with block_index := st.block_index + 4 })))) with hst6
    set st7 := { st6 with
      loop_stack := ⟨st.block_index, st.block_index + 2⟩ :: st6.loop_stack } with hst7
    set stB := codegenList body st7 with hstB
    set st11 := addBlock (st.block_index + 3)
        { seal_block st.block_index stB with
          loop_stack := (seal_block st.block_index stB).loop_stack.tail } with hst11
    set stC := codegenList orelse st11 with hstC
    have hb7 : st7.block_index = st.block_index + 4 := by
      simp only [hst7, hst6, setLoopStack_block_index, addBlock_block_index,
        setJumpTargets_block_index, appendInstr_block_index, setBlockIndex_block_index]
    have m1 : st.block_index + 4 ≤ stB.block_index := hb7 ▸ (names_mem.2 body st7).1
    have hb11 : st11.block_index = stB.block_index := by
      simp only [hst11, addBlock_block_index, setLoopStack_block_index,
        seal_block_block_index]
    have m2 : stB.block_index ≤ stC.block_index := hb11 ▸ (names_mem.2 orelse st11).1
    have hls6 : st6.loop_stack = st.loop_stack := by
      simp only [hst6, addBlock_loop_stack, setJumpTargets_loop_stack,
        appendInstr_loop_stack, setBlockIndex_loop_stack]
    have hls7 : st7.loop_stack =
        ⟨st.block_index, st.block_index + 2⟩ :: st.loop_stack := by
      rw [hst7, setLoopStack_loop_stack, hls6]
    have hlsB : stB.loop_stack =
        ⟨st.block_index, st.block_index + 2⟩ :: st.loop_stack := by
      rw [hstB, codegenList_loop_stack, hls7]
    have hls11 : st11.loop_stack = st.loop_stack := by
      rw [hst11, addBlock_loop_stack, setLoopStack_loop_stack,
        seal_block_loop_stack, hlsB, List.tail_cons]
    have hlsC : stC.loop_stack = st.loop_stack := by
      rw [hstC, codegenList_loop_stack, hls11]
    have ho7 : st7.cur.jump_targets = [] := by
      rw [hst7, setLoopStack_cur, hst6]
      rfl
    have hoB : stB.cur.jump_targets = [] := by
      rw [hstB]
      exact cur_open_preserved.2 body st7 ho7
    have ho11 : st11.cur.jump_targets = [] := by
      rw [hst11]
      rfl
    have hoC : stC.cur.jump_targets = [] := by
      rw [hstC]
      exact cur_open_preserved.2 orelse st11 ho11
    rw [rawGraph, addBlock_done, addBlock_cur, seal_block_done] at hb
    simp only [List.mem_append, List.mem_singleton] at hb
    rcases hb with (hb | hb) | hb
    · rcases targets_fresh.2 orelse st11 ho11 b (List.mem_append_left _ hb) with h11 | hsp
      · rw [hst11, addBlock_done, setLoopStack_done, seal_block_done,
          setLoopStack_cur] at h11
        rcases List.mem_append.mp h11 with hB | hB
        · rcases targets_fresh.2 body st7 ho7 b (List.mem_append_left _ hB) with h7 | hsp
          · rw [hst7, setLoopStack_done, hst6, addBlock_done, setJumpTargets_done,
              appendInstr_done, addBlock_done, setJumpTargets_done,
              setBlockIndex_done] at h7
            rcases List.mem_append.mp h7 with h6 | h6
            · rcases List.mem_append.mp h6 with hm | hm
              · exfalso
                obtain ⟨k, hk, he⟩ := hG.2.1 b (List.mem_append_left _ hm) _ hmem
                have := toName_injective he
                omega
              · exfalso
                rw [List.mem_singleton] at hm
                subst hm
                rw [setJumpTargets_cur_jump_targets, List.mem_singleton] at hmem
                have := toName_injective hmem
                omega
            · rw [List.mem_singleton] at h6
              subst h6
              rfl
          · exfalso
            obtain ⟨k, hk, hc⟩ := hsp _ hmem
            have hkv : st.block_index + 3 = k := toName_injective hk
            rcases hc with hs | ⟨h1, h2⟩
            · have hsv7 : stackVals st7.loop_stack =
                  st.block_index :: (st.block_index + 2) :: stackVals st.loop_stack := by
                rw [hls7]
                rfl
              rw [hsv7] at hs
              rcases List.mem_cons.mp hs with h3 | hs
              · omega
              · rcases List.mem_cons.mp hs with h3 | hs
                · omega
                · have := stackVals_bounded hG hs
                  omega
            · omega
        · rw [List.mem_singleton] at hB
          subst hB
          exfalso
          rcases seal_block_cases st.block_index stB with h0 | h0 | ⟨ctx, rest, hls, h0 | h0⟩
          · rw [h0, hoB] at hmem
            exact absurd hmem (List.not_mem_nil _)
          · rw [h0, setJumpTargets_cur_jump_targets, List.mem_singleton] at hmem
            have := toName_injective hmem
            omega
          · rw [h0, setJumpTargets_cur_jump_targets, List.mem_singleton] at hmem
            rw [hlsB] at hls
            injection hls with h1 h2
            have := toName_injective hmem
            have hhd : ctx.head = st.block_index := by
              rw [← h1]
            omega
          · rw [h0, setJumpTargets_cur_jump_targets, List.mem_singleton] at hmem
            rw [hlsB] at hls
            injection hls with h1 h2
            have := toName_injective hmem
            have hhd : ctx.exit = st.block_index + 2 := by
              rw [← h1]
            omega
      · exfalso
        obtain ⟨k, hk, hc⟩ := hsp _ hmem
        have hkv : st.block_index + 3 = k := toName_injective hk
        rcases hc with hs | ⟨h1, h2⟩
        · rw [hls11] at hs
          have := stackVals_bounded hG hs
          omega
        · omega
    · subst hb
      exfalso
      rcases seal_block_cases (st.block_index + 2) stC with h0 | h0 | ⟨ctx, rest, hls, h0 | h0⟩
      · rw [h0, hoC] at hmem
        exact absurd hmem (List.not_mem_nil _)
      · rw [h0, setJumpTargets_cur_jump_targets, List.mem_singleton] at hmem
        have := toName_injective hmem
        omega
      · rw [h0, setJumpTargets_cur_jump_targets, List.mem_singleton] at hmem
        rw [hlsC] at hls
        have hctx : ctx ∈ st.loop_stack := by
          rw [hls]
          exact List.mem_cons_self _ _
        have := toName_injective hmem
        have hbd := (hG.2.2.1 ctx hctx).1
        omega
      · rw [h0, setJumpTargets_cur_jump_targets, List.mem_singleton] at hmem
        rw [hlsC] at hls
        have hctx : ctx ∈ st.loop_stack := by
          rw [hls]
          exact List.mem_cons_self _ _
        have := toName_injective hmem
        have hbd := (hG.2.2.1 ctx hctx).2
        omega
    · subst hb
      exfalso
      exact absurd hmem (List.not_mem_nil _)
  · intro test s body st
    simp only [handleStmt, codegenList]
    rw [rawGraph]
    apply List.mem_append_left
    rw [addBlock_done]
    apply List.mem_append_right
    rw [seal_block_text (st.block_index + 2) _ s (by simp)]
    simp [appendInstr, addBlock]

/-- Witness for C6: the only-from-the-header part applied at the concrete
state reached before a `while x < 10` with an else clause is lowered from
the initial state: the block of the produced graph that references the else
slot "4" is the header "1". -/
theorem claim_C6_witness :
    (⟨"1", [Instr.text "x < 10"], ["2", "4"]⟩ : WritableASTBlock).name = toName 1 :=
  claim_C6_trailing_clause.1 "x < 10" [.simple "x += 1"] [.simple "y = 1"] initState
    initState_stateWF ⟨"1", [Instr.text "x < 10"], ["2", "4"]⟩ (by decide) (by decide)

/-! ### Characterization of the post-pass annotation sets (claims C1/C2) -/

theorem replaceTarget_name (n t : String) (b : WritableASTBlock) :
    (replaceTarget n t b).name = b.name := rfl

theorem replaceTarget_instructions (n t : String) (b : WritableASTBlock) :
    (replaceTarget n t b).instructions = b.instructions := rfl

theorem blockNames_map_replaceTarget (n t : String) (l : List WritableASTBlock) :
    blockNames (l.map (replaceTarget n t)) = blockNames l := by
  unfold blockNames
  rw [List.map_map]
  rfl

theorem blockNames_pruneNoops (g : List WritableASTBlock) :
    blockNames (pruneNoops g) = blockNames g := by
  unfold blockNames pruneNoops
  rw [List.map_map]
  rfl

theorem blockNames_filter_nodup (p : WritableASTBlock → Bool)
    (g : List WritableASTBlock) (h : (blockNames g).Nodup) :
    (blockNames (g.filter p)).Nodup :=
  ((List.filter_sublist g).map WritableASTBlock.name).nodup h

theorem name_unique (g : List WritableASTBlock) (h : (blockNames g).Nodup)
    {b1 b2 : WritableASTBlock} (h1 : b1 ∈ g) (h2 : b2 ∈ g)
    (hn : b1.name = b2.name) : b1 = b2 :=
  List.inj_on_of_nodup_map h h1 h2 hn

theorem pruneUnreachable_fst (g : List WritableASTBlock) :
    (pruneUnreachable g).1 = g.filter (fun b => b.name ∈ visitedNames g) := rfl

theorem pruneUnreachable_snd (g : List WritableASTBlock) :
    (pruneUnreachable g).2 =
      (blockNames g).filter (fun n => decide (n ∉ visitedNames g)) := rfl

theorem mem_pruned_graph (n t m : String) (g : List WritableASTBlock)
    (hmn : ¬ m = n) :
    (∃ b ∈ (g.filter (fun c => decide (¬ c.name = n))).map (replaceTarget n t),
        b.name = m ∧ b.instructions = []) ↔
      ∃ b ∈ g, b.name = m ∧ b.instructions = [] := by
  constructor
  · rintro ⟨b, hb, hname, hinstr⟩
    rcases List.mem_map.mp hb with ⟨c, hc, rfl⟩
    exact ⟨c, (List.mem_filter.mp hc).1, hname, hinstr⟩
  · rintro ⟨b, hb, hname, hinstr⟩
    refine ⟨replaceTarget n t b,
      List.mem_map_of_mem _ (List.mem_filter.mpr ⟨hb, ?_⟩), hname, hinstr⟩
    simp [hname, hmn]

/-- Membership in the popped-names list of the empty-block scan: a name is
popped iff it is on the snapshot list and its block (in the graph the scan
started from) has an empty instruction list.  The rerouting performed when
an earlier empty block is popped never changes names or instruction lists,
only jump targets. -/
theorem pruneEmptyGo_mem (names : List String) :
    ∀ (g : List WritableASTBlock), names.Nodup → (blockNames g).Nodup →
      ∀ m, m ∈ (pruneEmptyGo names g).2 ↔
        m ∈ names ∧ ∃ b ∈ g, b.name = m ∧ b.instructions = [] := by
  induction names with
  | nil =>
    intro g _ _ m
    simp [pruneEmptyGo]
  | cons n rest ih =>
    intro g hn hg m
    have hrest : rest.Nodup := hn.of_cons
    have hnmem : n ∉ rest := (List.nodup_cons.mp hn).1
    cases hf : g.find? (fun b => b.name = n) with
    | none =>
      have hnone : ∀ b ∈ g, ¬ b.name = n := by
        intro b hb
        have := List.find?_eq_none.mp hf b hb
        simpa using this
      simp only [pruneEmptyGo, hf]
      rw [ih g hrest hg m]
      constructor
      · rintro ⟨hm, hex⟩
        exact ⟨List.mem_cons_of_mem _ hm, hex⟩
      · rintro ⟨hm, b, hb, hbname, hbinstr⟩
        rcases List.mem_cons.mp hm with rfl | hm2
        · exact absurd hbname (hnone b hb)
        · exact ⟨hm2, b, hb, hbname, hbinstr⟩
    | some b =>
      have hbmem : b ∈ g := List.mem_of_find?_eq_some hf
      have hbname : b.name = n := by
        have := List.find?_some hf
        simpa using this
      cases he : b.instructions.isEmpty with
      | true =>
        have hbinstr : b.instructions = [] := by
          cases hi : b.instructions with
          | nil => rfl
          | cons x xs => rw [hi] at he; simp at he
        have hg1 : (blockNames ((g.filter (fun c => decide (¬ c.name = n))).map
            (replaceTarget n (b.jump_targets.headD "")))).Nodup := by
          rw [blockNames_map_replaceTarget]
          exact blockNames_filter_nodup _ g hg
        simp only [pruneEmptyGo, hf, he]
        constructor
        · intro hm'
          rcases List.mem_cons.mp hm' with rfl | hrec
          · exact ⟨List.mem_cons_self _ _, b, hbmem, hbname, hbinstr⟩
          · rcases (ih _ hrest hg1 m).mp hrec with ⟨hmr, hex⟩
            by_cases hmn : m = n
            · exact ⟨by simp [hmn], b, hbmem, by rw [hbname, hmn], hbinstr⟩
            · exact ⟨List.mem_cons_of_mem _ hmr,
                (mem_pruned_graph n _ m g hmn).mp hex⟩
        · rintro ⟨hm', hex⟩
          by_cases hmn : m = n
          · subst hmn
            exact List.mem_cons_self _ _
          · rcases List.mem_cons.mp hm' with heq | hmr
            · exact absurd heq hmn
            · exact List.mem_cons_of_mem _ ((ih _ hrest hg1 m).mpr
                ⟨hmr, (mem_pruned_graph n _ m g hmn).mpr hex⟩)
      | false =>
        have hbne : ¬ b.instructions = [] := by
          intro h0
          rw [h0] at he
          simp at he
        simp only [pruneEmptyGo, hf, he, Bool.false_eq_true, if_false]
        rw [ih g hrest hg m]
        constructor
        · rintro ⟨hmr, hex⟩
          exact ⟨List.mem_cons_of_mem _ hmr, hex⟩
        · rintro ⟨hm', b2, hb2, hbname2, hbinstr2⟩
          rcases List.mem_cons.mp hm' with rfl | hmr
          · have hbb : b2 = b := name_unique g hg hb2 hbmem (by rw [hbname2, hbname])
            exact absurd (hbb ▸ hbinstr2) hbne
          · exact ⟨hmr, b2, hb2, hbname2, hbinstr2⟩

/-! ### Claim C1 -/

/-- C1 (counterexample): block "3" of `progC1` has an empty instruction
list in the produced raw graph, sits in the unreachable set, yet is NOT in
the empty set — refuting "a block name is in the empty set iff its
statement sequence has zero elements, regardless of reachability", and
with it the claimed possibility of a block appearing in both sets. -/
theorem claim_C1_counterexample :
    (∃ b ∈ rawGraph (lowerRaw progC1), b.name = "3" ∧ b.instructions = []) ∧
    (lower progC1).map
        (fun r => (decide ("3" ∈ r.unreachable), decide ("3" ∈ r.empty))) =
      .ok (true, false) :=
  ⟨⟨⟨"3", [], ["4"]⟩, by decide, rfl, rfl⟩, rfl⟩

/-- C1 (amended): a block name is tagged empty iff its block survived the
unreachable prune and its instruction sequence — after the no-op
(`break`/`continue`) markers are stripped — has zero elements; consequently
the empty set is disjoint from the unreachable set, and a block can never
appear in both. -/
theorem claim_C1_empty_iff_zero_and_reachable :
    ∀ (body : List Stmt) (cfg : LoweredCFG), lower body = .ok cfg →
      ∀ n, (n ∈ cfg.empty ↔
          ∃ b ∈ pruneNoops (pruneUnreachable (rawGraph (lowerRaw body))).1,
            b.name = n ∧ b.instructions = []) ∧
        (n ∈ cfg.empty → n ∉ cfg.unreachable) := by
  intro body cfg hok n
  have hnodup : (blockNames (rawGraph (lowerRaw body))).Nodup :=
    (lowerRaw_stateWF body).1.2.2.2
  by_cases hm : (lowerRaw body).malformed = true
  · have : lower body = .error .malformedControlTransfer := by
      simp only [lower]
      rw [if_pos hm]
    rw [this] at hok
    exact absurd hok (by simp)
  · have hlow : lower body = .ok
        ⟨(pruneEmpty (pruneNoops (pruneUnreachable (rawGraph (lowerRaw body))).1)).1,
         (pruneUnreachable (rawGraph (lowerRaw body))).2,
         (pruneEmpty (pruneNoops (pruneUnreachable (rawGraph (lowerRaw body))).1)).2⟩ := by
      simp only [lower]
      rw [if_neg hm]
    rw [hlow] at hok
    injection hok with hcfg
    subst hcfg
    have hg2 : (blockNames
        (pruneNoops (pruneUnreachable (rawGraph (lowerRaw body))).1)).Nodup := by
      rw [blockNames_pruneNoops, pruneUnreachable_fst]
      exact blockNames_filter_nodup _ _ hnodup
    have hmain := pruneEmptyGo_mem
      (blockNames (pruneNoops (pruneUnreachable (rawGraph (lowerRaw body))).1))
      (pruneNoops (pruneUnreachable (rawGraph (lowerRaw body))).1) hg2 hg2 n
    constructor
    · constructor
      · intro hne
        exact (hmain.mp hne).2
      · rintro ⟨b, hb, hbname, hbinstr⟩
        exact hmain.mpr
          ⟨hbname ▸ List.mem_map_of_mem WritableASTBlock.name hb,
           b, hb, hbname, hbinstr⟩
    · intro hne hnu
      have hnames := (hmain.mp hne).1
      rw [blockNames_pruneNoops, pruneUnreachable_fst] at hnames
      rcases List.mem_map.mp hnames with ⟨b, hb, rfl⟩
      have hbvis : b.name ∈ visitedNames (rawGraph (lowerRaw body)) := by
        have := (List.mem_filter.mp hb).2
        simpa using this
      rw [pruneUnreachable_snd] at hnu
      have hnvis := (List.mem_filter.mp hnu).2
      simp only [decide_eq_true_eq] at hnvis
      exact hnvis hbvis

/-- Witness for the amended C1 at the concrete `progIfReturn` graph: the
unused else slot "2" is tagged empty, its noop-stripped reachable block has
zero instructions, and "2" is not tagged unreachable. -/
theorem claim_C1_witness :
    ("2" ∈ (⟨[⟨"0", [Instr.text "x < 10"], ["1", "3"]⟩,
              ⟨"1", [Instr.ret (some "1")], []⟩,
              ⟨"3", [Instr.ret (some "2")], []⟩], [], ["2"]⟩ : LoweredCFG).empty ↔
        ∃ b ∈ pruneNoops (pruneUnreachable (rawGraph (lowerRaw progIfReturn))).1,
          b.name = "2" ∧ b.instructions = []) ∧
      ("2" ∈ (⟨[⟨"0", [Instr.text "x < 10"], ["1", "3"]⟩,
                ⟨"1", [Instr.ret (some "1")], []⟩,
                ⟨"3", [Instr.ret (some "2")], []⟩], [], ["2"]⟩ : LoweredCFG).empty →
        "2" ∉ (⟨[⟨"0", [Instr.text "x < 10"], ["1", "3"]⟩,
                 ⟨"1", [Instr.ret (some "1")], []⟩,
                 ⟨"3", [Instr.ret (some "2")], []⟩], [], ["2"]⟩ :
                   LoweredCFG).unreachable) :=
  claim_C1_empty_iff_zero_and_reachable progIfReturn
    ⟨[⟨"0", [Instr.text "x < 10"], ["1", "3"]⟩,
      ⟨"1", [Instr.ret (some "1")], []⟩,
      ⟨"3", [Instr.ret (some "2")], []⟩], [], ["2"]⟩ rfl "2"

/-! ### Claim C2 -/

/-- C2 (counterexample): lowering `if x<10: return 1 else: return 2`
succeeds and its empty set does NOT contain the merge block "3" (the empty
set is `[]`), refuting the claim that "3" appears in the empty set. -/
theorem claim_C2_counterexample :
    (lower progIfElseReturn).map (fun r => decide ("3" ∈ r.empty)) =
      .ok false := rfl

/-- C2 (amended): for `if x<10: return 1 else: return 2` the merge block
"3" is allocated and appears in the unreachable set, but NOT in the empty
set: its statement sequence is not empty — the function body's implicit
bare `return` is appended to it — and the empty scan anyway runs only over
blocks that survived the unreachable prune. -/
theorem claim_C2_merge_block :
    (∃ b ∈ rawGraph (lowerRaw progIfElseReturn),
        b.name = "3" ∧ b.instructions = [Instr.ret none]) ∧
    (lower progIfElseReturn).map (fun r => (r.unreachable, r.empty)) =
      .ok (["3"], []) :=
  ⟨⟨⟨"3", [Instr.ret none], []⟩, by decide, rfl, rfl⟩, rfl⟩

/-! ### Claim C8 -/

theorem to_dict_keys (g : List WritableASTBlock) :
    (to_dict g).map Prod.fst = blockNames g := by
  unfold to_dict blockNames
  rw [List.map_map]
  rfl

theorem pruneEmptyGo_fst_names (names : List String) :
    ∀ g x, x ∈ blockNames (pruneEmptyGo names g).1 → x ∈ blockNames g := by
  induction names with
  | nil =>
    intro g x h
    simp only [pruneEmptyGo] at h
    exact h
  | cons n rest ih =>
    intro g x h
    cases hf : g.find? (fun b => b.name = n) with
    | none =>
      simp only [pruneEmptyGo, hf] at h
      exact ih g x h
    | some b =>
      cases he : b.instructions.isEmpty with
      | true =>
        simp only [pruneEmptyGo, hf, he] at h
        have h2 := ih _ x h
        rw [blockNames_map_replaceTarget] at h2
        unfold blockNames at h2 ⊢
        rcases List.mem_map.mp h2 with ⟨c, hc, rfl⟩
        exact List.mem_map_of_mem _ (List.mem_of_mem_filter hc)
      | false =>
        simp only [pruneEmptyGo, hf, he, Bool.false_eq_true, if_false] at h
        exact ih g x h

theorem pruneEmptyGo_popped_not_key (names : List String) :
    ∀ g n, n ∈ (pruneEmptyGo names g).2 →
      n ∉ blockNames (pruneEmptyGo names g).1 := by
  induction names with
  | nil =>
    intro g n h
    simp [pruneEmptyGo] at h
  | cons m rest ih =>
    intro g n h
    cases hf : g.find? (fun b => b.name = m) with
    | none =>
      simp only [pruneEmptyGo, hf] at h ⊢
      exact ih g n h
    | some b =>
      cases he : b.instructions.isEmpty with
      | true =>
        simp only [pruneEmptyGo, hf, he] at h ⊢
        rcases List.mem_cons.mp h with rfl | h
        · intro hmem
          have h3 := pruneEmptyGo_fst_names rest _ n hmem
          rw [blockNames_map_replaceTarget] at h3
          unfold blockNames at h3
          rcases List.mem_map.mp h3 with ⟨c, hc, heq⟩
          have h4 := (List.mem_filter.mp hc).2
          rw [heq] at h4
          simp at h4
        · exact ih _ n h
      | false =>
        simp only [pruneEmptyGo, hf, he, Bool.false_eq_true, if_false] at h ⊢
        exact ih g n h

theorem replaceTarget_jump_targets (n t : String) (b : WritableASTBlock) :
    (replaceTarget n t b).jump_targets =
      b.jump_targets.map (fun x => if x = n then t else x) := rfl

theorem find?_name_of_mem (g : List WritableASTBlock)
    (h : (blockNames g).Nodup) {b : WritableASTBlock} (hb : b ∈ g) :
    g.find? (fun c => c.name = b.name) = some b := by
  induction g with
  | nil => cases hb
  | cons x g2 ih =>
    have hcons : blockNames (x :: g2) = x.name :: blockNames g2 := rfl
    rw [hcons] at h
    rcases List.mem_cons.mp hb with rfl | hb2
    · rw [List.find?_cons_of_pos _ (by simp)]
    · have hx : ¬ (x.name = b.name) := by
        intro he
        exact (List.nodup_cons.mp h).1
          (he ▸ List.mem_map_of_mem WritableASTBlock.name hb2)
      rw [List.find?_cons_of_neg _ (by simpa using hx)]
      exact ih (List.nodup_cons.mp h).2 hb2

theorem targetsOf_eq (g : List WritableASTBlock) (h : (blockNames g).Nodup)
    {b : WritableASTBlock} (hb : b ∈ g) : targetsOf g b.name = b.jump_targets := by
  unfold targetsOf
  rw [find?_name_of_mem g h hb]
  rfl

theorem rawGraph_closed (body : List Stmt) :
    ∀ b ∈ rawGraph (lowerRaw body), ∀ t ∈ b.jump_targets,
      t ∈ blockNames (rawGraph (lowerRaw body)) := by
  intro b hb t ht
  have hWF := lowerRaw_stateWF body
  obtain ⟨k, hk, rfl⟩ := hWF.1.2.1 b hb t ht
  show toName k ∈ nameList (lowerRaw body)
  rw [lowerRaw_names_mem]
  rcases Nat.eq_zero_or_pos k with h0 | h0
  · subst h0
    exact Or.inl rfl
  · exact Or.inr ⟨k, h0, hk, rfl⟩

theorem pruneUnreachable_closed (g : List WritableASTBlock)
    (hnd : (blockNames g).Nodup)
    (hclosed : ∀ b ∈ g, ∀ t ∈ b.jump_targets, t ∈ blockNames g) :
    ∀ b ∈ (pruneUnreachable g).1, ∀ t ∈ b.jump_targets,
      t ∈ blockNames (pruneUnreachable g).1 := by
  intro b hb t ht
  rw [pruneUnreachable_fst] at hb
  have hbg := List.mem_of_mem_filter hb
  have hbvis : b.name ∈ visitedNames g := by
    have := (List.mem_filter.mp hb).2
    simpa using this
  have htvis : t ∈ visitedNames g := by
    rw [visitedNames_spec] at hbvis ⊢
    exact Reachable.step hbvis (by rw [targetsOf_eq g hnd hbg]; exact ht)
  have htg := hclosed b hbg t ht
  rcases List.mem_map.mp htg with ⟨c, hc, rfl⟩
  rw [pruneUnreachable_fst]
  unfold blockNames
  exact List.mem_map_of_mem _ (List.mem_filter.mpr ⟨hc, by simpa using htvis⟩)

theorem pruneNoops_closed (g : List WritableASTBlock)
    (hclosed : ∀ b ∈ g, ∀ t ∈ b.jump_targets, t ∈ blockNames g) :
    ∀ b ∈ pruneNoops g, ∀ t ∈ b.jump_targets, t ∈ blockNames (pruneNoops g) := by
  intro b hb t ht
  rw [blockNames_pruneNoops]
  unfold pruneNoops at hb
  rcases List.mem_map.mp hb with ⟨c, hc, rfl⟩
  exact hclosed c hc t ht

theorem chainsOK_split :
    ∀ (g seen : List WritableASTBlock), chainsOK seen g = true →
      ∀ pre b post, g = pre ++ b :: post → b.instructions.isEmpty = true →
        ∃ t, b.jump_targets = [t] ∧
          ∀ c ∈ (seen ++ pre) ++ [b], c.name = t →
            c.instructions.isEmpty = false := by
  intro g
  induction g with
  | nil =>
    intro seen h pre b post hsplit
    exact absurd hsplit (by simp)
  | cons x g2 ih =>
    intro seen h pre b post hsplit hempty
    simp only [chainsOK, Bool.and_eq_true] at h
    obtain ⟨hx, hrest⟩ := h
    cases pre with
    | nil =>
      rw [List.nil_append] at hsplit
      injection hsplit with h1 h2
      subst h1
      rw [hempty] at hx
      simp only [Bool.not_true, Bool.false_or] at hx
      cases hjt : x.jump_targets with
      | nil =>
        rw [hjt] at hx
        cases hx
      | cons t ts =>
        cases ts with
        | nil =>
          rw [hjt] at hx
          refine ⟨t, rfl, ?_⟩
          intro c hc hcn
          have hc2 : c ∈ seen ++ [x] := by simpa using hc
          have h3 := List.all_eq_true.mp hx c hc2
          simpa [hcn] using h3
        | cons t2 ts2 =>
          rw [hjt] at hx
          cases hx
    | cons y pre2 =>
      rw [List.cons_append] at hsplit
      injection hsplit with h1 h2
      subst h1
      obtain ⟨t, ht1, ht2⟩ := ih (seen ++ [x]) hrest pre2 b post h2 hempty
      refine ⟨t, ht1, ?_⟩
      intro c hc hcn
      apply ht2 c ?_ hcn
      simp only [List.mem_append, List.mem_cons, List.mem_singleton] at hc ⊢
      tauto

theorem chainsOK_of_split :
    ∀ (g seen : List WritableASTBlock),
      (∀ pre b post, g = pre ++ b :: post → b.instructions.isEmpty = true →
        ∃ t, b.jump_targets = [t] ∧
          ∀ c ∈ (seen ++ pre) ++ [b], c.name = t →
            c.instructions.isEmpty = false) →
      chainsOK seen g = true := by
  intro g
  induction g with
  | nil =>
    intro seen _
    rfl
  | cons x g2 ih =>
    intro seen h
    simp only [chainsOK, Bool.and_eq_true]
    constructor
    · cases hempty : x.instructions.isEmpty with
      | false => simp
      | true =>
        obtain ⟨t, ht1, ht2⟩ := h [] x g2 rfl hempty
        simp only [hempty, Bool.not_true, Bool.false_or, ht1]
        rw [List.all_eq_true]
        intro c hc
        by_cases hcn : c.name = t
        · have h3 := ht2 c (by simpa using hc) hcn
          simp [hcn, h3]
        · simp [hcn]
    · apply ih (seen ++ [x])
      intro pre b post hsplit hempty
      obtain ⟨t, ht1, ht2⟩ := h (x :: pre) b post (by rw [hsplit]; rfl) hempty
      refine ⟨t, ht1, ?_⟩
      intro c hc hcn
      apply ht2 c ?_ hcn
      simp only [List.mem_append, List.mem_cons, List.mem_singleton] at hc ⊢
      tauto

theorem filter_map_split (p : WritableASTBlock → Bool)
    (f : WritableASTBlock → WritableASTBlock) :
    ∀ (g pre1 : List WritableASTBlock) (b1 : WritableASTBlock)
      (post1 : List WritableASTBlock),
      (g.filter p).map f = pre1 ++ b1 :: post1 →
      ∃ pre b post, g = pre ++ b :: post ∧ p b = true ∧ b1 = f b ∧
        pre1 = (pre.filter p).map f := by
  intro g
  induction g with
  | nil =>
    intro pre1 b1 post1 h
    exact absurd h (by simp)
  | cons x g2 ih =>
    intro pre1 b1 post1 h
    by_cases hp : p x = true
    · rw [List.filter_cons_of_pos hp, List.map_cons] at h
      cases pre1 with
      | nil =>
        rw [List.nil_append] at h
        injection h with h1 h2
        exact ⟨[], x, g2, rfl, hp, h1.symm, by simp⟩
      | cons y pre2 =>
        rw [List.cons_append] at h
        injection h with h1 h2
        obtain ⟨pre, b, post, hg, hpb, hb1, hpre⟩ := ih pre2 b1 post1 h2
        refine ⟨x :: pre, b, post, by rw [hg]; rfl, hpb, hb1, ?_⟩
        rw [List.filter_cons_of_pos hp, List.map_cons, ← h1, hpre]
    · rw [List.filter_cons_of_neg hp] at h
      obtain ⟨pre, b, post, hg, hpb, hb1, hpre⟩ := ih pre1 b1 post1 h
      refine ⟨x :: pre, b, post, by rw [hg]; rfl, hpb, hb1, ?_⟩
      rw [List.filter_cons_of_neg hp, hpre]

theorem pruneEmptyGo_preserves (names : List String) :
    ∀ g, (blockNames g).Nodup →
      (∀ b ∈ g, ∀ t ∈ b.jump_targets, t ∈ blockNames g) →
      chainsOK [] g = true →
      ((blockNames (pruneEmptyGo names g).1).Nodup ∧
        (∀ b ∈ (pruneEmptyGo names g).1, ∀ t ∈ b.jump_targets,
          t ∈ blockNames (pruneEmptyGo names g).1) ∧
        chainsOK [] (pruneEmptyGo names g).1 = true) := by
  induction names with
  | nil =>
    intro g h1 h2 h3
    exact ⟨h1, h2, h3⟩
  | cons n rest ih =>
    intro g h1 h2 h3
    cases hf : g.find? (fun b => b.name = n) with
    | none =>
      simp only [pruneEmptyGo, hf]
      exact ih g h1 h2 h3
    | some b =>
      have hbmem : b ∈ g := List.mem_of_find?_eq_some hf
      have hbname : b.name = n := by
        have := List.find?_some hf
        simpa using this
      cases he : b.instructions.isEmpty with
      | false =>
        simp only [pruneEmptyGo, hf, he, Bool.false_eq_true, if_false]
        exact ih g h1 h2 h3
      | true =>
        simp only [pruneEmptyGo, hf, he]
        obtain ⟨pre, post, hsplit⟩ : ∃ pre post, g = pre ++ b :: post :=
          List.append_of_mem hbmem
        obtain ⟨t0, ht0, hcond⟩ := chainsOK_split g [] h3 pre b post hsplit he
        have hhead : b.jump_targets.headD "" = t0 := by
          rw [ht0]
          rfl
        rw [hhead]
        have ht0n : ¬ t0 = n := by
          intro hEq
          have h4 := hcond b (by simp) (by rw [hbname, hEq])
          rw [he] at h4
          cases h4
        have ht0g : t0 ∈ blockNames g :=
          h2 b hbmem t0 (by rw [ht0]; exact List.mem_singleton.mpr rfl)
        -- the three invariants for the rerouted graph
        have h1g : (blockNames ((g.filter (fun c => decide (¬ c.name = n))).map
            (replaceTarget n t0))).Nodup := by
          rw [blockNames_map_replaceTarget]
          exact blockNames_filter_nodup _ g h1
        have h2g : ∀ b1 ∈ (g.filter (fun c => decide (¬ c.name = n))).map
            (replaceTarget n t0), ∀ t1 ∈ b1.jump_targets,
            t1 ∈ blockNames ((g.filter (fun c => decide (¬ c.name = n))).map
              (replaceTarget n t0)) := by
          intro b1 hb1 t1 ht1
          rcases List.mem_map.mp hb1 with ⟨c, hcf, rfl⟩
          have hcg := List.mem_of_mem_filter hcf
          rw [replaceTarget_jump_targets] at ht1
          rcases List.mem_map.mp ht1 with ⟨x, hx, rfl⟩
          rw [blockNames_map_replaceTarget]
          by_cases hxn : x = n
          · rw [if_pos hxn]
            rcases List.mem_map.mp ht0g with ⟨d, hd, rfl⟩
            unfold blockNames
            refine List.mem_map_of_mem _ (List.mem_filter.mpr ⟨hd, ?_⟩)
            simpa using ht0n
          · rw [if_neg hxn]
            have hxg : x ∈ blockNames g := h2 c hcg x hx
            rcases List.mem_map.mp hxg with ⟨d, hd, rfl⟩
            unfold blockNames
            refine List.mem_map_of_mem _ (List.mem_filter.mpr ⟨hd, ?_⟩)
            simpa using hxn
        have h3g : chainsOK []
            ((g.filter (fun c => decide (¬ c.name = n))).map (replaceTarget n t0)) = true := by
          apply chainsOK_of_split
          intro pre1 b1 post1 hsp1 hemp1
          obtain ⟨preG, c, postG, hgsp, hpc, hb1c, hpre1⟩ :=
            filter_map_split _ _ g pre1 b1 post1 hsp1
          subst hb1c
          have hcempty : c.instructions.isEmpty = true := hemp1
          obtain ⟨tc, htc, hcondc⟩ := chainsOK_split g [] h3 preG c postG hgsp hcempty
          have hjt1 : (replaceTarget n t0 c).jump_targets =
              [if tc = n then t0 else tc] := by
            rw [replaceTarget_jump_targets, htc]
            rfl
          have hcn2 : ¬ c.name = n := by
            simpa using hpc
          by_cases htcn : tc = n
          · refine ⟨t0, by rw [hjt1, if_pos htcn], ?_⟩
            intro c1 hc1 hc1n
            have hbpost : b ∈ postG := by
              have hbg2 : b ∈ g := hbmem
              rw [hgsp] at hbg2
              rcases List.mem_append.mp hbg2 with hb2 | hb2
              · exfalso
                have h4 := hcondc b
                  (by
                    simp only [List.nil_append, List.mem_append, List.mem_singleton]
                    exact Or.inl hb2)
                  (by rw [hbname, htcn])
                rw [he] at h4
                cases h4
              · rcases List.mem_cons.mp hb2 with hbc | hb3
                · exact absurd (by rw [← hbc]; exact hbname) hcn2
                · exact hb3
            obtain ⟨postA, postB, hpostsp⟩ := List.append_of_mem hbpost
            have hgsp2 : g = (preG ++ c :: postA) ++ b :: postB := by
              rw [hgsp, hpostsp]
              simp
            obtain ⟨tb, htb, hcondb⟩ := chainsOK_split g [] h3 _ b postB hgsp2 he
            have htb0 : tb = t0 := by
              have h5 := ht0.symm.trans htb
              injection h5 with hh
              exact hh.symm
            rw [List.nil_append] at hc1
            rcases List.mem_append.mp hc1 with hc1pre | hc1b
            · rw [hpre1] at hc1pre
              rcases List.mem_map.mp hc1pre with ⟨c0, hc0f, rfl⟩
              have hc0g : c0 ∈ preG := List.mem_of_mem_filter hc0f
              have hc0name : c0.name = t0 := hc1n
              exact hcondb c0
                (by
                  simp only [List.nil_append, List.mem_append, List.mem_cons,
                    List.mem_singleton]
                  exact Or.inl (Or.inl hc0g))
                (by rw [htb0]; exact hc0name)
            · rw [List.mem_singleton] at hc1b
              subst hc1b
              have hcname : c.name = t0 := hc1n
              exact hcondb c (by simp) (by rw [htb0]; exact hcname)
          · refine ⟨tc, by rw [hjt1, if_neg htcn], ?_⟩
            intro c1 hc1 hc1n
            rw [List.nil_append] at hc1
            rcases List.mem_append.mp hc1 with hc1pre | hc1b
            · rw [hpre1] at hc1pre
              rcases List.mem_map.mp hc1pre with ⟨c0, hc0f, rfl⟩
              have hc0g : c0 ∈ preG := List.mem_of_mem_filter hc0f
              have hc0name : c0.name = tc := hc1n
              exact hcondc c0
                (by
                  simp only [List.nil_append, List.mem_append, List.mem_singleton]
                  exact Or.inl hc0g)
                hc0name
            · rw [List.mem_singleton] at hc1b
              subst hc1b
              have hcname : c.name = tc := hc1n
              exact hcondc c (by simp) hcname
        exact ih _ h1g h2g h3g

/-- C8: the serialized mapping omits every annotated block, and the
surviving edges are routed around the removed blocks: (1) in every produced
graph, a name recorded in the unreachable or the empty set is never a key
of `to_dict`; (2) in every produced graph whose empty-block fall-through
chains pass the positional sanity check `chainsOK` — each zero-instruction
block carries one fall-through edge and never points back at an
earlier-or-equal zero-instruction block of the same name — every jump
target of every surviving block is a key of the serialized mapping
(referential closure after rerouting); (3) the `chainsOK` condition holds
on the three graphs fixed by the `if`-lowering tests. -/
theorem claim_C8_serialization :
    (∀ (body : List Stmt) (cfg : LoweredCFG), lower body = .ok cfg →
      ∀ n, (n ∈ cfg.unreachable ∨ n ∈ cfg.empty) →
        n ∉ (to_dict cfg.blocks).map Prod.fst) ∧
    (∀ (body : List Stmt) (cfg : LoweredCFG), lower body = .ok cfg →
      chainsOK [] (pruneNoops (pruneUnreachable (rawGraph (lowerRaw body))).1) = true →
      ∀ b ∈ cfg.blocks, ∀ t ∈ b.jump_targets,
        t ∈ (to_dict cfg.blocks).map Prod.fst) ∧
    chainsOK [] (pruneNoops (pruneUnreachable (rawGraph (lowerRaw progIfReturn))).1) =
      true ∧
    chainsOK []
        (pruneNoops (pruneUnreachable (rawGraph (lowerRaw progIfElseReturn))).1) =
      true ∧
    chainsOK [] (pruneNoops (pruneUnreachable (rawGraph (lowerRaw progNestedIf))).1) =
      true := by
  refine ⟨?_, ?_, rfl, rfl, rfl⟩
  swap
  · intro body cfg hok hchains b hb t ht
    by_cases hm : (lowerRaw body).malformed = true
    · have : lower body = .error .malformedControlTransfer := by
        simp only [lower]
        rw [if_pos hm]
      rw [this] at hok
      exact absurd hok (by simp)
    · have hlow : lower body = .ok
          ⟨(pruneEmpty (pruneNoops (pruneUnreachable (rawGraph (lowerRaw body))).1)).1,
           (pruneUnreachable (rawGraph (lowerRaw body))).2,
           (pruneEmpty (pruneNoops (pruneUnreachable (rawGraph (lowerRaw body))).1)).2⟩ := by
        simp only [lower]
        rw [if_neg hm]
      rw [hlow] at hok
      injection hok with hcfg
      subst hcfg
      rw [to_dict_keys]
      have hndraw : (blockNames (rawGraph (lowerRaw body))).Nodup :=
        (lowerRaw_stateWF body).1.2.2.2
      have hnd1 : (blockNames (pruneUnreachable (rawGraph (lowerRaw body))).1).Nodup := by
        rw [pruneUnreachable_fst]
        exact blockNames_filter_nodup _ _ hndraw
      have hnd2 : (blockNames
          (pruneNoops (pruneUnreachable (rawGraph (lowerRaw body))).1)).Nodup := by
        rw [blockNames_pruneNoops]
        exact hnd1
      have hcl2 := pruneNoops_closed _
        (pruneUnreachable_closed _ hndraw (rawGraph_closed body))
      exact (pruneEmptyGo_preserves _ _ hnd2 hcl2 hchains).2.1 b hb t ht
  · intro body cfg hok n hn
    by_cases hm : (lowerRaw body).malformed = true
    · have : lower body = .error .malformedControlTransfer := by
        simp only [lower]
        rw [if_pos hm]
      rw [this] at hok
      exact absurd hok (by simp)
    · have hlow : lower body = .ok
          ⟨(pruneEmpty (pruneNoops (pruneUnreachable (rawGraph (lowerRaw body))).1)).1,
           (pruneUnreachable (rawGraph (lowerRaw body))).2,
           (pruneEmpty (pruneNoops (pruneUnreachable (rawGraph (lowerRaw body))).1)).2⟩ := by
        simp only [lower]
        rw [if_neg hm]
      rw [hlow] at hok
      injection hok with hcfg
      subst hcfg
      rw [to_dict_keys]
      rcases hn with hn | hn
      · intro hmem
        have h1 := pruneEmptyGo_fst_names _ _ n hmem
        rw [blockNames_pruneNoops, pruneUnreachable_fst] at h1
        rcases List.mem_map.mp h1 with ⟨b, hb, rfl⟩
        have hbvis : b.name ∈ visitedNames (rawGraph (lowerRaw body)) := by
          have := (List.mem_filter.mp hb).2
          simpa using this
        rw [pruneUnreachable_snd] at hn
        have hnvis := (List.mem_filter.mp hn).2
        simp only [decide_eq_true_eq] at hnvis
        exact hnvis hbvis
      · exact pruneEmptyGo_popped_not_key _ _ n hn

/-- Witness for C8 at the concrete `progIfReturn` graph: the empty-tagged
slot "2" is not a key of the serialized mapping, while the rerouted target
"3" of the entry block is. -/
theorem claim_C8_witness :
    "2" ∉ (to_dict (⟨[⟨"0", [Instr.text "x < 10"], ["1", "3"]⟩,
                      ⟨"1", [Instr.ret (some "1")], []⟩,
                      ⟨"3", [Instr.ret (some "2")], []⟩], [], ["2"]⟩ :
        LoweredCFG).blocks).map Prod.fst ∧
    "3" ∈ (to_dict (⟨[⟨"0", [Instr.text "x < 10"], ["1", "3"]⟩,
                      ⟨"1", [Instr.ret (some "1")], []⟩,
                      ⟨"3", [Instr.ret (some "2")], []⟩], [], ["2"]⟩ :
        LoweredCFG).blocks).map Prod.fst :=
  ⟨claim_C8_serialization.1 progIfReturn
      ⟨[⟨"0", [Instr.text "x < 10"], ["1", "3"]⟩,
        ⟨"1", [Instr.ret (some "1")], []⟩,
        ⟨"3", [Instr.ret (some "2")], []⟩], [], ["2"]⟩ rfl "2"
      (Or.inr (by decide)),
    claim_C8_serialization.2.1 progIfReturn
      ⟨[⟨"0", [Instr.text "x < 10"], ["1", "3"]⟩,
        ⟨"1", [Instr.ret (some "1")], []⟩,
        ⟨"3", [Instr.ret (some "2")], []⟩], [], ["2"]⟩ rfl rfl
      ⟨"0", [Instr.text "x < 10"], ["1", "3"]⟩ (by decide) "3" (by decide)⟩

/-! ### Claim C9 -/

/-- C9: `lower` fails if and only if the input tree is structurally invalid:
a `break` or `continue` lowered while the Loop Context stack is empty (i.e.
not lexically inside a loop, as characterized syntactically by
`nakedTransferList`) yields the fatal `malformedControlTransfer` error and no
graph at all; on every other input `lower` succeeds and returns a graph.
The final conjunct shows the failure on the concrete malformed input
`progNakedBreak` (a bare `break`). -/
theorem claim_C9_lower_fails_iff_malformed :
    (∀ body : List Stmt,
      (lower body = .error .malformedControlTransfer ↔ nakedTransferList body = true) ∧
        (nakedTransferList body = false → ∃ cfg, lower body = .ok cfg)) ∧
      lower progNakedBreak = .error .malformedControlTransfer := by
  constructor
  · intro body
    constructor
    · simp only [lower, lowerRaw_malformed]
      cases h : nakedTransferList body <;> simp [h]
    · intro h
      simp only [lower, lowerRaw_malformed, h]
      exact ⟨_, rfl⟩
  · rfl

/-- Witness for C9 at concrete inputs: the well-formed `progSimpleWhile`
(which contains no naked transfer) lowers successfully. -/
theorem claim_C9_witness :
    (lower progSimpleWhile = .error .malformedControlTransfer ↔
        nakedTransferList progSimpleWhile = true) ∧
      (∃ cfg, lower progSimpleWhile = .ok cfg) :=
  ⟨(claim_C9_lower_fails_iff_malformed.1 progSimpleWhile).1,
    (claim_C9_lower_fails_iff_malformed.1 progSimpleWhile).2 rfl⟩

/-! ### Validation against the repository test suite

Each `example` below replays one expected graph of
`numba_rvsdg/tests/test_ast_transforms.py` against the model: the serialized
surviving blocks, the unreachable names, and the empty names. -/

example :
    (lower progSoloReturn).map (fun r => (to_dict r.blocks, r.unreachable, r.empty)) =
      .ok ([("0", ["return 1"], [])], [], []) := rfl

example :
    (lower progIfReturn).map (fun r => (to_dict r.blocks, r.unreachable, r.empty)) =
      .ok ([("0", ["x < 10"], ["1", "3"]),
            ("1", ["return 1"], []),
            ("3", ["return 2"], [])], [], ["2"]) := rfl

example :
    (lower progIfElseReturn).map (fun r => (to_dict r.blocks, r.unreachable, r.empty)) =
      .ok ([("0", ["x < 10"], ["1", "2"]),
            ("1", ["return 1"], []),
            ("2", ["return 2"], [])], ["3"], []) := rfl

example : summarize progSoloAssign =
    ([("0", ["x = 1", "return"], [])], [], []) := rfl

example : summarize progIfElseAssign =
    ([("0", ["x < 10"], ["1", "2"]), ("1", ["z = 1"], ["3"]), ("2", ["z = 2"], ["3"]),
      ("3", ["return z"], [])], [], []) := rfl

example : summarize progNestedIf =
    ([("0", ["x < 10"], ["1", "2"]), ("1", ["y < 5"], ["4", "5"]), ("4", ["y = 1"], ["3"]),
      ("5", ["y = 2"], ["3"]), ("2", ["y < 15"], ["7", "8"]), ("7", ["y = 3"], ["3"]),
      ("8", ["y = 4"], ["3"]), ("3", ["return y"], [])], [], ["6", "9"]) := rfl

example : summarize progNestedIfEmptyElse =
    ([("0", ["y << 2", "x < 10"], ["1", "2"]), ("1", ["y -= 1", "y < 5"], ["4", "3"]),
      ("4", ["y = 1"], ["3"]), ("2", ["y < 15"], ["7", "8"]), ("7", ["y = 2"], ["9"]),
      ("8", ["return"], []), ("9", ["y += 1"], ["3"]), ("3", ["return y"], [])],
     [], ["5", "6"]) := rfl

example : summarize progElif =
    ([("0", ["x < 10"], ["1", "2"]), ("1", ["return"], []), ("2", ["x < 15"], ["4", "5"]),
      ("4", ["y = b - a"], ["3"]), ("5", ["x < 20"], ["7", "8"]), ("7", ["y = a ** 2"], ["3"]),
      ("8", ["y = a - b"], ["3"]), ("3", ["return y"], [])], [], ["9", "6"]) := rfl

example : summarize progSimpleWhile =
    ([("0", ["x = 0"], ["1"]), ("1", ["x < 10"], ["2", "3"]), ("2", ["x += 1"], ["1"]),
      ("3", ["return x"], [])], [], ["4"]) := rfl

example : summarize progNestedWhile =
    ([("0", ["x, y = (0, 0)"], ["1"]), ("1", ["x < 10"], ["5", "3"]), ("5", ["y < 5"], ["6", "7"]),
      ("6", ["x += 1", "y += 1"], ["5"]), ("7", ["x += 1"], ["1"]), ("3", ["return (x, y)"], [])],
     [], ["2", "8", "4"]) := rfl

example : summarize progIfInWhile =
    ([("0", ["x = 0"], ["1"]), ("1", ["x < 10"], ["2", "3"]), ("2", ["x < 5"], ["5", "6"]),
      ("5", ["x += 2"], ["1"]), ("6", ["x += 1"], ["1"]), ("3", ["return x"], [])],
     [], ["7", "4"]) := rfl

example : summarize progWhileInIf =
    ([("0", ["x = 0", "a is True"], ["4", "8"]), ("4", ["x < 10"], ["5", "3"]),
      ("5", ["x += 2"], ["4"]), ("8", ["x < 10"], ["9", "3"]), ("9", ["x += 1"], ["8"]),
      ("3", ["return x"], [])], [], ["1", "7", "6", "2", "11", "10"]) := rfl

example : summarize progWhileBreakContinue =
    ([("0", ["x = 0"], ["1"]), ("1", ["x < 10"], ["2", "3"]),
      ("2", ["x += 1", "x % 2 == 0"], ["1", "6"]), ("6", ["x == 9"], ["3", "9"]),
      ("9", ["x += 1"], ["1"]), ("3", ["return x"], [])],
     [], ["5", "8", "10", "7", "4"]) := rfl

example : summarize progWhileElse =
    ([("0", ["x = 0"], ["1"]), ("1", ["x < 10"], ["2", "4"]), ("2", ["x += 1"], ["1"]),
      ("4", ["x += 1"], ["3"]), ("3", ["return x"], [])], [], []) := rfl

example : summarize progSimpleFor =
    ([("0", ["c = 0", "__iterator_1__ = iter(range(10))", "i = None"], ["1"]),
      ("1", ["__iter_last_1__ = i", "i = next(__iterator_1__, \x27__sentinel__\x27)",
             "i != \x27__sentinel__\x27"], ["2", "3"]),
      ("2", ["c += i"], ["1"]), ("3", ["i = __iter_last_1__"], ["4"]),
      ("4", ["return c"], [])], [], []) := rfl

example : summarize progNestedFor =
    ([("0", ["c = 0", "__iterator_1__ = iter(range(3))", "i = None"], ["1"]),
      ("1", ["__iter_last_1__ = i", "i = next(__iterator_1__, \x27__sentinel__\x27)",
             "i != \x27__sentinel__\x27"], ["2", "3"]),
      ("2", ["c += i", "__iterator_5__ = iter(range(3))", "j = None"], ["5"]),
      ("5", ["__iter_last_5__ = j", "j = next(__iterator_5__, \x27__sentinel__\x27)",
             "j != \x27__sentinel__\x27"], ["6", "7"]),
      ("6", ["c += j"], ["5"]), ("7", ["j = __iter_last_5__"], ["1"]),
      ("3", ["i = __iter_last_1__"], ["4"]), ("4", ["return c"], [])], [], ["8"]) := rfl

example : summarize progForRBC =
    ([("0", ["__iterator_1__ = iter(range(2))", "i = None"], ["1"]),
      ("1", ["__iter_last_1__ = i", "i = next(__iterator_1__, \x27__sentinel__\x27)",
             "i != \x27__sentinel__\x27"], ["2", "3"]),
      ("2", ["i == a"], ["5", "6"]), ("5", ["i = 3", "return i"], []),
      ("6", ["i == b"], ["8", "1"]), ("8", ["i = 4"], ["4"]),
      ("3", ["i = __iter_last_1__"], ["4"]), ("4", ["return i"], [])],
     ["10", "7"], ["9"]) := rfl

example : summarize progForIfInElse =
    ([("0", ["c = 0", "__iterator_1__ = iter(range(10))", "i = None"], ["1"]),
      ("1", ["__iter_last_1__ = i", "i = next(__iterator_1__, \x27__sentinel__\x27)",
             "i != \x27__sentinel__\x27"], ["2", "3"]),
      ("2", ["c += i"], ["1"]), ("3", ["i = __iter_last_1__", "a"], ["5", "6"]),
      ("5", ["r = c"], ["4"]), ("6", ["r = -1 * c"], ["4"]),
      ("4", ["return r"], [])], [], ["7"]) := rfl

example : summarize progForNestedForElse =
    ([("0", ["c = 1", "__iterator_1__ = iter(range(1))", "i = None"], ["1"]),
      ("1", ["__iter_last_1__ = i", "i = next(__iterator_1__, \x27__sentinel__\x27)",
             "i != \x27__sentinel__\x27"], ["2", "3"]),
      ("2", ["__iterator_5__ = iter(range(1))", "j = None"], ["5"]),
      ("5", ["__iter_last_5__ = j", "j = next(__iterator_5__, \x27__sentinel__\x27)",
             "j != \x27__sentinel__\x27"], ["6", "7"]),
      ("6", ["a"], ["9", "5"]), ("9", ["c *= 3"], ["8"]),
      ("7", ["j = __iter_last_5__", "c *= 5"], ["1"]), ("8", ["c *= 7"], ["4"]),
      ("3", ["i = __iter_last_1__", "c *= 9"], ["4"]), ("4", ["return c"], [])],
     [], ["10", "11"]) := rfl

end NumbaRvsdg
